import Mathlib

/-
  Verification development for the DcmMeta classified-metadata model
  (dcmmeta.py).  The DcmMetaExtension content dictionary is embedded as a
  typed record; Python runtime errors (ValueError, KeyError, TypeError,
  IndexError, ...) are modelled with an explicit error monad.  The JSON
  string layer (json.dumps / json.loads, an external library) is modelled
  at the document-tree level: to_json produces the JSON document tree of
  the content and from_json parses such a tree back.
-/

set_option maxRecDepth 4000

deriving instance DecidableEq for Except

namespace DcmMeta

/-- Python runtime values as stored in the metadata dictionaries: the
None marker, integers, strings and (nested) lists. -/
inductive PyVal where
  | none : PyVal
  | int : Int → PyVal
  | str : String → PyVal
  | list : List PyVal → PyVal

mutual

/-- Structural boolean equality of Python values. -/
def PyVal.beq : PyVal → PyVal → Bool
  | .none, .none => true
  | .int a, .int b => a == b
  | .str a, .str b => a == b
  | .list a, .list b => PyVal.beqList a b
  | _, _ => false

/-- Structural boolean equality of lists of Python values. -/
def PyVal.beqList : List PyVal → List PyVal → Bool
  | [], [] => true
  | x :: xs, y :: ys => PyVal.beq x y && PyVal.beqList xs ys
  | _, _ => false

end

mutual

/-- The boolean equality on Python values decides propositional
equality. -/
def PyVal.beqIff : (a b : PyVal) → ((PyVal.beq a b = true) ↔ a = b)
  | .none, .none => by simp [PyVal.beq]
  | .none, .int _ => by simp [PyVal.beq]
  | .none, .str _ => by simp [PyVal.beq]
  | .none, .list _ => by simp [PyVal.beq]
  | .int _, .none => by simp [PyVal.beq]
  | .int _, .int _ => by simp [PyVal.beq]
  | .int _, .str _ => by simp [PyVal.beq]
  | .int _, .list _ => by simp [PyVal.beq]
  | .str _, .none => by simp [PyVal.beq]
  | .str _, .int _ => by simp [PyVal.beq]
  | .str _, .str _ => by simp [PyVal.beq]
  | .str _, .list _ => by simp [PyVal.beq]
  | .list _, .none => by simp [PyVal.beq]
  | .list _, .int _ => by simp [PyVal.beq]
  | .list _, .str _ => by simp [PyVal.beq]
  | .list a, .list b => by
      rw [show PyVal.beq (.list a) (.list b) = PyVal.beqList a b from rfl]
      rw [PyVal.beqListIff a b]
      simp

/-- The boolean equality on value lists decides propositional
equality. -/
def PyVal.beqListIff :
    (a b : List PyVal) → ((PyVal.beqList a b = true) ↔ a = b)
  | [], [] => by simp [PyVal.beqList]
  | [], _ :: _ => by simp [PyVal.beqList]
  | _ :: _, [] => by simp [PyVal.beqList]
  | x :: xs, y :: ys => by
      rw [show PyVal.beqList (x :: xs) (y :: ys) =
            (PyVal.beq x y && PyVal.beqList xs ys) from rfl]
      rw [Bool.and_eq_true]
      rw [PyVal.beqIff x y, PyVal.beqListIff xs ys]
      simp

end

instance : DecidableEq PyVal :=
  fun a b => decidable_of_iff (PyVal.beq a b = true) (PyVal.beqIff a b)

/-- Exact unnormalized fractions modelling the floating-point numbers
of the source (affine entries, version): a numerator and a positive
denominator, with arithmetic that needs no gcd normalization. -/
structure Frac where
  num : Int
  den : Nat
deriving DecidableEq

/-- Embed an integer as a fraction. -/
def Frac.ofInt (n : Int) : Frac := ⟨n, 1⟩

instance (n : Nat) : OfNat Frac n := ⟨⟨(n : Int), 1⟩⟩

/-- Fraction addition. -/
def Frac.add (a b : Frac) : Frac :=
  ⟨a.num * b.den + b.num * a.den, a.den * b.den⟩

/-- Fraction subtraction. -/
def Frac.sub (a b : Frac) : Frac :=
  ⟨a.num * b.den - b.num * a.den, a.den * b.den⟩

/-- Fraction multiplication. -/
def Frac.mul (a b : Frac) : Frac := ⟨a.num * b.num, a.den * b.den⟩

/-- Absolute value of a fraction. -/
def Frac.abs (a : Frac) : Frac := ⟨(a.num.natAbs : Int), a.den⟩

/-- Comparison of fractions with positive denominators by cross
multiplication. -/
def Frac.fle (a b : Frac) : Bool :=
  decide (a.num * (b.den : Int) ≤ b.num * (a.den : Int))

/-- Python exception kinds raised by the modelled code. -/
inductive PyErr where
  | invalidExt (msg : String)
  | valueError (msg : String)
  | typeError
  | keyError
  | indexError
  | attributeError
  | zeroDivisionError
  | assertionError
  | nameError
deriving DecidableEq

/-- An ordered dictionary (OrderedDict) mapping string keys to values,
as an insertion-ordered association list. -/
abbrev Dict := List (String × PyVal)

/-- Dictionary lookup. -/
def dictGet? (d : Dict) (k : String) : Option PyVal :=
  (d.find? (fun p => p.1 == k)).map (·.2)

/-- Python membership test: key in dict. -/
def dictContains (d : Dict) (k : String) : Bool :=
  (d.find? (fun p => p.1 == k)).isSome

/-- Python dict assignment: replace the value of an existing key in
place, otherwise append at the end. -/
def dictSet (d : Dict) (k : String) (v : PyVal) : Dict :=
  match d with
  | [] => [(k, v)]
  | (k', v') :: rest =>
      if k' = k then (k, v) :: rest else (k', v') :: dictSet rest k v

/-- Python del dict entry. -/
def dictErase (d : Dict) (k : String) : Dict :=
  d.filter (fun p => p.1 ≠ k)

/-- The keys of a dictionary, in insertion order. -/
def dictKeys (d : Dict) : List String := d.map (·.1)

/-- Python unordered dictionary equality (dict(a) == dict(b)):
same key set and equal value for every key. -/
def dictPyEq (a b : Dict) : Bool :=
  a.length == b.length && a.all (fun p => dictGet? b p.1 == some p.2)

/-- Classification base class: global, time or vector. -/
inductive Base where
  | glob | time | vector
deriving DecidableEq

/-- Classification sub class: const, samples or slices. -/
inductive Sub where
  | const | samples | slices
deriving DecidableEq

/-- A classification is a pair of a base class and a sub class. -/
abbrev Cls := Base × Sub

/-- The six canonical classifications, in the order of the source's
classifications tuple. -/
def classifications : List Cls :=
  [(.glob, .const), (.glob, .slices),
   (.time, .samples), (.time, .slices),
   (.vector, .samples), (.vector, .slices)]

/-- The metadata store: the typed view of the extension content
dictionary.  The global base dictionaries are required content keys;
the time and vector groups may be absent.  Each present group holds its
two sub-classification dictionaries (samples and slices; const and
slices for global). -/
structure Store where
  affine : List (List Frac)
  slice_dim : Option Nat
  shape : List Nat
  version : Frac
  gConst : Dict
  gSlices : Dict
  time : Option (Dict × Dict)
  vector : Option (Dict × Dict)
deriving DecidableEq

namespace Store

/-- Python membership test for a base class name in the content
dictionary (the global group is a required content key). -/
def baseInContent (s : Store) : Base → Bool
  | .glob => true
  | .time => s.time.isSome
  | .vector => s.vector.isSome

/-- The content dictionary for a classification, when its base group is
present and the sub name belongs to that group. -/
def classDict? (s : Store) : Cls → Option Dict
  | (.glob, .const) => some s.gConst
  | (.glob, .slices) => some s.gSlices
  | (.time, .samples) => s.time.map (·.1)
  | (.time, .slices) => s.time.map (·.2)
  | (.vector, .samples) => s.vector.map (·.1)
  | (.vector, .slices) => s.vector.map (·.2)
  | _ => Option.none

/-- Replace the content dictionary of a classification, when present. -/
def withClassDict (s : Store) (c : Cls) (d : Dict) : Store :=
  match c with
  | (.glob, .const) => { s with gConst := d }
  | (.glob, .slices) => { s with gSlices := d }
  | (.time, .samples) => { s with time := s.time.map (fun p => (d, p.2)) }
  | (.time, .slices) => { s with time := s.time.map (fun p => (p.1, d)) }
  | (.vector, .samples) => { s with vector := s.vector.map (fun p => (d, p.2)) }
  | (.vector, .slices) => { s with vector := s.vector.map (fun p => (p.1, d)) }
  | _ => s

end Store

/-- Fuel-driven worker for takeEvery (the fuel makes the recursion
structural, so the function reduces in the kernel). -/
def takeEveryF {α : Type} : Nat → Nat → List α → List α
  | 0, _, _ => []
  | _ + 1, _, [] => []
  | fuel + 1, n, x :: xs => x :: takeEveryF fuel n (xs.drop (n - 1))

/-- Elements of a list at indices 0, n, 2n, ... (Python extended-slice
stride; a stride of 0 is rejected by the callers before this runs). -/
def takeEvery {α : Type} (n : Nat) (l : List α) : List α :=
  takeEveryF l.length n l

/-- Fuel-driven worker for chunkList. -/
def chunkListF {α : Type} : Nat → Nat → List α → List (List α)
  | 0, _, _ => []
  | fuel + 1, p, l =>
      if p = 0 ∨ l.length = 0 then []
      else l.take p :: chunkListF fuel p (l.drop p)

/-- Split a list into contiguous blocks of length p (the last block may
be shorter when p does not divide the length). -/
def chunkList {α : Type} (p : Nat) (l : List α) : List (List α) :=
  chunkListF l.length p l

/-- All elements of a list equal (to the first). -/
def allEqual : List PyVal → Bool
  | [] => true
  | x :: xs => xs.all (· == x)

/-- Every contiguous p-block of the list is internally constant. -/
def blocksConstant (p : Nat) (l : List PyVal) : Bool :=
  (chunkList p l).all allEqual

/-- View a Python value as a sequence, when it is iterable: a list
yields its elements, a string yields its characters as one-character
strings (Python iteration over str). -/
def pySeq : PyVal → Option (List PyVal)
  | .list l => some l
  | .str s => some (s.data.map (fun c => .str (String.mk [c])))
  | _ => Option.none

/-- Python len() of a value, when it is sized. -/
def pyLen (v : PyVal) : Option Nat := (pySeq v).map List.length

/-- Python v[::step] with step an int or None; type-preserving on lists
and strings, TypeError otherwise, ValueError on a zero step. -/
def pySliceStep (v : PyVal) (step : Option Nat) : Except PyErr PyVal :=
  match v with
  | .list l =>
      match step with
      | Option.none => .ok (.list l)
      | some p =>
          if p = 0 then .error (.valueError "slice step cannot be zero")
          else .ok (.list (takeEvery p l))
  | .str s =>
      match step with
      | Option.none => .ok (.str s)
      | some p =>
          if p = 0 then .error (.valueError "slice step cannot be zero")
          else .ok (.str (String.mk (takeEvery p s.data)))
  | _ => .error .typeError

/-- Python v[start::step] with step an int or None. -/
def pySliceFrom (v : PyVal) (start : Nat) (step : Option Nat) :
    Except PyErr PyVal :=
  match v with
  | .list l =>
      match step with
      | Option.none => .ok (.list (l.drop start))
      | some p =>
          if p = 0 then .error (.valueError "slice step cannot be zero")
          else .ok (.list (takeEvery p (l.drop start)))
  | .str s =>
      match step with
      | Option.none => .ok (.str (String.mk (s.data.drop start)))
      | some p =>
          if p = 0 then .error (.valueError "slice step cannot be zero")
          else .ok (.str (String.mk (takeEvery p (s.data.drop start))))
  | _ => .error .typeError

/-- Python v[:n]. -/
def pyTake (v : PyVal) (n : Nat) : Except PyErr PyVal :=
  match v with
  | .list l => .ok (.list (l.take n))
  | .str s => .ok (.str (String.mk (s.data.take n)))
  | _ => .error .typeError

/-- Python v[start:stop] with nonnegative bounds. -/
def pySliceRange (v : PyVal) (start stop : Nat) : Except PyErr PyVal :=
  match v with
  | .list l => .ok (.list ((l.drop start).take (stop - start)))
  | .str s => .ok (.str (String.mk ((s.data.drop start).take (stop - start))))
  | _ => .error .typeError

/-- Python v[i] for a nonnegative index. -/
def pyIndex (v : PyVal) (i : Nat) : Except PyErr PyVal :=
  match pySeq v with
  | Option.none => .error .typeError
  | some l =>
      match l.get? i with
      | some x => .ok x
      | Option.none => .error .indexError

/-- Python v.extend(w): only lists have extend (AttributeError
otherwise); w must be iterable (TypeError otherwise). -/
def pyExtend (v w : PyVal) : Except PyErr PyVal :=
  match v with
  | .list l =>
      match pySeq w with
      | some m => .ok (.list (l ++ m))
      | Option.none => .error .typeError
  | _ => .error .attributeError

/-- Source is_constant: true when all elements of (each period-length
block of) the sequence are equal.  A period must be greater than one
and divide the length. -/
def is_constant (v : PyVal) (period : Option Nat) : Except PyErr Bool :=
  match period with
  | Option.none =>
      match pySeq v with
      | some l => .ok (allEqual l)
      | Option.none => .error .typeError
  | some p =>
      if p ≤ 1 then .error (.valueError "The period must be greater than one")
      else
        match pySeq v with
        | Option.none => .error .typeError
        | some l =>
            if l.length % p ≠ 0 then
              .error (.valueError "The sequence length is not evenly divisible by the period length.")
            else .ok (blocksConstant p l)

/-- Source is_repeating: true when the sequence repeats its first
period-length block throughout.  The period must be strictly between
one and the sequence length and divide the length. -/
def is_repeating (v : PyVal) (period : Nat) : Except PyErr Bool :=
  match pySeq v with
  | Option.none => .error .typeError
  | some l =>
      if period ≤ 1 ∨ period ≥ l.length then
        .error (.valueError "The period must be greater than one and less than the length of the sequence")
      else if l.length % period ≠ 0 then
        .error (.valueError "The sequence length is not evenly divisible by the period length.")
      else .ok ((chunkList period l).all (fun b => b == l.take period))

namespace Store

/-- List indexing that raises IndexError out of range. -/
def natAt (l : List Nat) (i : Nat) : Except PyErr Nat :=
  match l.get? i with
  | some v => .ok v
  | Option.none => .error .indexError

/-- Source n_slices property: shape at the slice dimension, None when
the slice dimension is absent. -/
def n_slicesE (s : Store) : Except PyErr (Option Nat) :=
  match s.slice_dim with
  | Option.none => .ok Option.none
  | some d =>
      match s.shape.get? d with
      | some v => .ok (some v)
      | Option.none => .error .indexError

/-- Source get_valid_classes: the classifications valid for the
extension's shape. -/
def get_valid_classes (s : Store) : Except PyErr (List Cls) :=
  match s.shape.length with
  | 3 => .ok (classifications.take 2)
  | 4 => .ok (classifications.take 4)
  | 5 =>
      if s.shape.getD 3 0 ≠ 1 then .ok classifications
      else .ok (classifications.take 2 ++ classifications.drop 4)
  | _ => .error (.valueError "There must be 3 to 5 dimensions.")

/-- Source get_multiplicity: the number of values required for meta
data of the given classification; ValueError when the classification
(possibly the Python None) is not valid for the shape. -/
def get_multiplicity (s : Store) (c? : Option Cls) : Except PyErr Nat := do
  let vcs ← get_valid_classes s
  match c? with
  | Option.none => .error (.valueError "Invalid classification")
  | some c =>
      if c ∉ vcs then .error (.valueError "Invalid classification")
      else
        match c.2 with
        | .slices => do
            let ns ← n_slicesE s
            match ns with
            | Option.none => .ok 0
            | some sv =>
                match c.1 with
                | .vector => do
                    let t ← natAt s.shape 3
                    .ok (sv * t)
                | .glob => .ok ((s.shape.drop 3).foldl (· * ·) sv)
                | .time => .ok sv
        | .samples =>
            match c.1 with
            | .time => do
                let t ← natAt s.shape 3
                if s.shape.length = 5 then do
                  let v ← natAt s.shape 4
                  .ok (t * v)
                else .ok t
            | .vector => natAt s.shape 4
            | .glob => .ok 1
        | .const => .ok 1

/-- Source get_class_dict, with the Python None classification
(unpacking None raises TypeError) and a missing base group (KeyError)
modelled explicitly. -/
def get_class_dict (s : Store) (c? : Option Cls) : Except PyErr Dict :=
  match c? with
  | Option.none => .error .typeError
  | some c =>
      match s.classDict? c with
      | some d => .ok d
      | Option.none => .error .keyError

/-- Assignment into a class dictionary of the content. -/
def setItemE (s : Store) (c : Cls) (k : String) (v : PyVal) :
    Except PyErr Store := do
  let d ← s.get_class_dict (some c)
  .ok (s.withClassDict c (dictSet d k v))

/-- Python del of a key in a class dictionary (KeyError when the key is
absent). -/
def delItemE (s : Store) (c : Cls) (k : String) : Except PyErr Store := do
  let d ← s.get_class_dict (some c)
  if dictContains d k then .ok (s.withClassDict c (dictErase d k))
  else .error .keyError

/-- Helper for get_classification: walk the valid classifications and
return the first whose content dictionary holds the key; the content
access itself can raise KeyError when a required group is absent. -/
def get_classification_go (s : Store) (k : String) :
    List Cls → Except PyErr (Option Cls)
  | [] => .ok Option.none
  | c :: rest =>
      match s.classDict? c with
      | Option.none => .error .keyError
      | some d =>
          if dictContains d k then .ok (some c)
          else get_classification_go s k rest

/-- Source get_classification: the classification of a key, None when
the key is not found. -/
def get_classification (s : Store) (k : String) :
    Except PyErr (Option Cls) := do
  let vcs ← get_valid_classes s
  get_classification_go s k vcs

/-- Source get_values: the value(s) stored for a key, the Python None
when the key is not found (conflated, as in the source, with a stored
None value). -/
def get_values (s : Store) (k : String) : Except PyErr PyVal := do
  let c? ← s.get_classification k
  match c? with
  | Option.none => .ok .none
  | some c => do
      let d ← s.get_class_dict (some c)
      match dictGet? d k with
      | some v => .ok v
      | Option.none => .error .keyError

/-- Source get_values_and_class: value(s) and classification for a key,
(None, None) when the key is not found. -/
def get_values_and_class (s : Store) (k : String) :
    Except PyErr (PyVal × Option Cls) := do
  let c? ← s.get_classification k
  match c? with
  | Option.none => .ok (.none, Option.none)
  | some c => do
      let d ← s.get_class_dict (some c)
      match dictGet? d k with
      | some v => .ok (v, some c)
      | Option.none => .error .keyError

/-- Helper for get_keys: concatenate the key lists of the valid class
dictionaries in order. -/
def get_keys_go (s : Store) : List Cls → Except PyErr (List String)
  | [] => .ok []
  | c :: rest =>
      match s.classDict? c with
      | Option.none => .error .keyError
      | some d => do
          let ks ← get_keys_go s rest
          .ok (dictKeys d ++ ks)

/-- Source get_keys: all meta data keys available, across the valid
classifications. -/
def get_keys (s : Store) : Except PyErr (List String) := do
  let vcs ← get_valid_classes s
  get_keys_go s vcs

/-- The affine is a well-formed 4 by 4 nested list (np.array shape
equals (4, 4)). -/
def affine4x4 (a : List (List Frac)) : Bool :=
  a.length == 4 && a.all (fun r => r.length == 4)

/-- Helper for check_valid: the per-key value-count check for a
classification of multiplicity greater than one. -/
def checkLens : Dict → Nat → Except PyErr Unit
  | [], _ => .ok ()
  | (_, v) :: rest, m =>
      match pyLen v with
      | Option.none => .error .typeError
      | some n =>
          if n ≠ m then
            .error (.invalidExt "Incorrect number of values for key")
          else checkLens rest m

/-- Helper for check_valid: required groups present, empty-when-zero
multiplicity, and value counts, class by class. -/
def checkClasses (s : Store) : List Cls → Except PyErr Unit
  | [] => .ok ()
  | c :: rest => do
      if ¬ s.baseInContent c.1 then
        .error (.invalidExt "Missing required base classification")
      else do
        let d ← s.get_class_dict (some c)
        let m ← s.get_multiplicity (some c)
        if m = 0 then
          if d.length ≠ 0 then
            .error (.invalidExt "Slice dim is None but per-slice meta data is present")
          else checkClasses s rest
        else if m > 1 then do
          checkLens d m
          checkClasses s rest
        else checkClasses s rest

/-- Helper for check_valid: the inner loop of the unique-classification
check, comparing one classification against every other. -/
def checkUniqInner (s : Store) (c : Cls) (dc : Dict) :
    List Cls → Except PyErr Unit
  | [] => .ok ()
  | oc :: rest =>
      if oc = c then checkUniqInner s c dc rest
      else do
        let od ← s.get_class_dict (some oc)
        if (dictKeys dc).any (fun k => dictContains od k) then
          .error (.invalidExt "One or more keys have multiple classifications")
        else checkUniqInner s c dc rest

/-- Helper for check_valid: the outer loop of the unique-classification
check. -/
def checkUniqOuter (s : Store) (all : List Cls) :
    List Cls → Except PyErr Unit
  | [] => .ok ()
  | c :: rest => do
      let d ← s.get_class_dict (some c)
      checkUniqInner s c d all
      checkUniqOuter s all rest

/-- Source check_valid.  In the typed record the four scalar content
keys and the global group always exist, so the missing-required-keys
check of the source cannot fire; the remaining checks are modelled in
source order. -/
def check_valid (s : Store) : Except PyErr Unit := do
  if ¬ affine4x4 s.affine then .error (.invalidExt "Affine has incorrect shape")
  else do
    match s.slice_dim with
    | some d =>
        if ¬ d < 3 then .error (.invalidExt "Slice dimension is not valid")
        else .ok ()
    | Option.none => .ok ()
    if ¬ (3 ≤ s.shape.length ∧ s.shape.length < 6) then
      .error (.invalidExt "Shape is not valid")
    else do
      let vcs ← s.get_valid_classes
      checkClasses s vcs
      checkUniqOuter s vcs vcs

end Store

/-- Source _const_tests: possible reductions in multiplicity for values
that are constant with some period.  The source stores these in a
dictionary whose keys are exactly the five non-const classifications;
simplify never looks up other keys. -/
def const_tests (c : Cls) : List Cls :=
  match c with
  | (.glob, .slices) => [(.glob, .const), (.vector, .samples), (.time, .samples)]
  | (.vector, .slices) => [(.glob, .const), (.time, .samples)]
  | (.time, .slices) => [(.glob, .const)]
  | (.time, .samples) => [(.glob, .const), (.vector, .samples)]
  | (.vector, .samples) => [(.glob, .const)]
  | _ => []

/-- Source _repeat_tests: possible reductions in multiplicity for
values that repeat with some period; None models absence from the
dictionary. -/
def repeat_tests? (c : Cls) : Option (List Cls) :=
  match c with
  | (.glob, .slices) => some [(.time, .slices), (.vector, .slices)]
  | (.vector, .slices) => some [(.time, .slices)]
  | _ => Option.none

/-- An Option Nat that must be an int for Python arithmetic; the None
operand raises TypeError. -/
def optNatE : Option Nat → Except PyErr Nat
  | some n => .ok n
  | Option.none => .error .typeError

/-- Source _get_const_period: the period over which constancy is tested
for the given classification change. -/
def get_const_period (s : Store) (src dest : Cls) :
    Except PyErr (Option Nat) :=
  if dest = (.glob, .const) then .ok Option.none
  else if src = (.glob, .slices) then do
    let m1 ← s.get_multiplicity (some src)
    let m2 ← s.get_multiplicity (some dest)
    if m2 = 0 then .error .zeroDivisionError
    else .ok (some (m1 / m2))
  else if src = (.vector, .slices) then do
    let ns ← s.n_slicesE
    .ok ns
  else if src = (.time, .samples) then do
    let t ← Store.natAt s.shape 3
    .ok (some t)
  else .error .assertionError

/-- Helper for simplify: the loop over constant-with-period candidate
destinations; returns the store with the key written to the matched
destination, or None when no destination matched. -/
def simplifyConstLoop (s : Store) (k : String) (curr : Cls) (values : PyVal) :
    List Cls → Except PyErr (Option Store)
  | [] => .ok Option.none
  | d :: rest =>
      if s.baseInContent d.1 then do
        let period ← get_const_period s curr d
        let b ← is_constant values period
        if b then do
          let sv ← pySliceStep values period
          let s₁ ← s.setItemE d k sv
          .ok (some s₁)
        else simplifyConstLoop s k curr values rest
      else simplifyConstLoop s k curr values rest

/-- Helper for simplify: the loop over repeating-with-period candidate
destinations. -/
def simplifyRepeatLoop (s : Store) (k : String) (values : PyVal) :
    List Cls → Except PyErr (Option Store)
  | [] => .ok Option.none
  | d :: rest =>
      if s.baseInContent d.1 then do
        let dm ← s.get_multiplicity (some d)
        let b ← is_repeating values dm
        if b then do
          let tv ← pyTake values dm
          let s₁ ← s.setItemE d k tv
          .ok (some s₁)
        else simplifyRepeatLoop s k values rest
      else simplifyRepeatLoop s k values rest

/-- Source _simplify: try to reduce the classification of a key; return
whether the classification changed, together with the resulting
store. -/
def simplify (s : Store) (k : String) : Except PyErr (Bool × Store) := do
  let vc ← s.get_values_and_class k
  let values := vc.1
  let curr? := vc.2
  let _ ← s.get_multiplicity curr?
  if curr? = some (.glob, .const) then
    if values = .none then do
      let s₁ ← s.delItemE (.glob, .const) k
      .ok (true, s₁)
    else .ok (false, s)
  else
    match curr? with
    | Option.none =>
        -- unreachable: the multiplicity lookup above raised ValueError
        -- for the None classification
        .error (.valueError "Invalid classification")
    | some curr => do
        let r ← simplifyConstLoop s k curr values (const_tests curr)
        match r with
        | some s₁ => do
            let s₂ ← s₁.delItemE curr k
            .ok (true, s₂)
        | Option.none =>
            match repeat_tests? curr with
            | Option.none => .ok (false, s)
            | some rl => do
                let r2 ← simplifyRepeatLoop s k values rl
                match r2 with
                | Option.none => .ok (false, s)
                | some s₁ => do
                    let s₂ ← s₁.delItemE curr k
                    .ok (true, s₂)

/-- Source _preserving_changes: allowed changes when increasing the
multiplicity, indexed by the current classification (None for an absent
key).  The source dictionary's keys are None and the six
classifications; other pairs are never looked up. -/
def preserving_changes : Option Cls → List Cls
  | Option.none =>
      [(.glob, .const), (.vector, .samples), (.time, .samples),
       (.time, .slices), (.vector, .slices), (.glob, .slices)]
  | some (.glob, .const) =>
      [(.vector, .samples), (.time, .samples), (.time, .slices),
       (.vector, .slices), (.glob, .slices)]
  | some (.vector, .samples) => [(.time, .samples), (.glob, .slices)]
  | some (.time, .samples) => [(.glob, .slices)]
  | some (.time, .slices) => [(.vector, .slices), (.glob, .slices)]
  | some (.vector, .slices) => [(.glob, .slices)]
  | some (.glob, .slices) => []
  | some _ => []

/-- Source _get_changed_class: the values of a key broadcast to a more
specific classification; ValueError when the change would lose data. -/
def get_changed_class (s : Store) (k : String) (new? : Option Cls) :
    Except PyErr PyVal := do
  let vc ← s.get_values_and_class k
  let values := vc.1
  let curr? := vc.2
  if curr? = new? then .ok values
  else
    match new? with
    | Option.none => .error (.valueError "Classification change would lose data.")
    | some nc =>
        if nc ∉ preserving_changes curr? then
          .error (.valueError "Classification change would lose data.")
        else do
          let curr_mult ←
            match curr? with
            | Option.none => pure 1
            | some c => s.get_multiplicity (some c)
          let vcs ← s.get_valid_classes
          let new_mult ←
            if nc ∈ vcs then s.get_multiplicity (some nc) else pure 1
          if curr_mult = 0 then .error .zeroDivisionError
          else do
            let fact := new_mult / curr_mult
            let vl ←
              if curr_mult = 1 then pure [values]
              else
                match pySeq values with
                | some l => pure l
                | Option.none => .error .typeError
            let result := (vl.map (fun x => List.replicate fact x)).flatten
            if nc = (.glob, .const) then
              match result with
              | [] => .error .indexError
              | x :: _ => .ok x
            else .ok (.list result)

/-- Source _change_class: move a key to a more specific classification,
broadcasting its values. -/
def change_class (s : Store) (k : String) (new? : Option Cls) :
    Except PyErr Store := do
  let vc ← s.get_values_and_class k
  let curr? := vc.2
  if curr? = new? then .ok s
  else do
    let nv ← get_changed_class s k new?
    match new? with
    | Option.none =>
        -- unreachable: get_changed_class raised for the None target;
        -- in the source get_class_dict(None) would raise TypeError
        .error .typeError
    | some nc => do
        let s₁ ← s.setItemE nc k nv
        match curr? with
        | Option.none => .ok s₁
        | some c => s₁.delItemE c k

/-- Source make_empty: an empty extension for a shape, affine and slice
dimension; the time group is allocated only for a fourth axis of size
other than one, the vector group only for five axes. -/
def make_empty (shape : List Nat) (affine : List (List Frac))
    (slice_dim : Option Nat) : Except PyErr Store :=
  if ¬ (3 ≤ shape.length ∧ shape.length < 6) then
    .error (.valueError "The shape must have a length between three and six")
  else if ¬ Store.affine4x4 affine then
    .error (.valueError "Invalid shape for affine")
  else if (match slice_dim with
           | some d => decide (¬ d < 3)
           | Option.none => false) then
    .error (.valueError "The slice dimension must be between zero and two")
  else
    .ok { affine := affine
          slice_dim := slice_dim
          shape := shape
          version := ⟨1, 2⟩
          gConst := []
          gSlices := []
          time :=
            if shape.length > 3 ∧ shape.getD 3 0 ≠ 1 then some ([], [])
            else Option.none
          vector := if shape.length > 4 then some ([], []) else Option.none }

namespace Store

/-- Source slice_normal: the first three entries of the affine row at
the slice dimension, None when the slice dimension is absent. -/
def slice_normalE (s : Store) : Except PyErr (Option (List Frac)) :=
  match s.slice_dim with
  | Option.none => .ok Option.none
  | some d =>
      match s.affine.get? d with
      | some row => .ok (some (row.take 3))
      | Option.none => .error .indexError

end Store

/-- Numeric closeness with the numpy allclose default tolerances
(rtol 1e-05, atol 1e-08). -/
def ratClose (a b : Frac) : Bool :=
  Frac.fle (Frac.abs (Frac.sub a b))
    (Frac.add ⟨1, 100000000⟩ (Frac.mul ⟨1, 100000⟩ (Frac.abs b)))

/-- Elementwise closeness of two rational vectors of equal length. -/
def listClose (a b : List Frac) : Bool :=
  a.length == b.length && (a.zip b).all (fun p => ratClose p.1 p.2)

/-- np.allclose on two optional vectors; a None operand raises
TypeError inside numpy. -/
def allcloseVecE (x y : Option (List Frac)) : Except PyErr Bool :=
  match x, y with
  | some a, some b =>
      if a.length ≠ b.length then
        .error (.valueError "operands could not be broadcast together")
      else .ok (listClose a b)
  | _, _ => .error .typeError

/-- np.allclose on two matrices of equal shape (broadcasting of unequal
shapes is outside the modelled use). -/
def allcloseMatE (a b : List (List Frac)) : Except PyErr Bool :=
  if a.length = b.length ∧ (a.zip b).all (fun p => p.1.length == p.2.length)
  then .ok ((a.zip b).all (fun p => listClose p.1 p.2))
  else .error (.valueError "operands could not be broadcast together")

/-- Assignment into a class dictionary through an optional
classification; the source's get_class_dict(None) raises TypeError. -/
def setItemOptE (s : Store) (c? : Option Cls) (k : String) (v : PyVal) :
    Except PyErr Store := do
  let d ← s.get_class_dict c?
  match c? with
  | some c => .ok (s.withClassDict c (dictSet d k v))
  | Option.none => .error .typeError

/-- Copy every entry of an association list into a class dictionary of
the result store (deepcopy is the identity on pure values). -/
def copy_dict_go (r : Store) (c? : Option Cls) :
    List (String × PyVal) → Except PyErr Store
  | [] => .ok r
  | (k, v) :: rest => do
      let r₁ ← setItemOptE r c? k v
      copy_dict_go r₁ c? rest

/-- Helper for _copy_slice: the first candidate destination that is
valid for the result's shape (the source leaves dest_class unbound and
raises NameError when none matches, which cannot happen for the global
constant fallback). -/
def firstMemE (vcs : List Cls) : List Cls → Except PyErr Cls
  | [] => .error .nameError
  | c :: rest => if c ∈ vcs then .ok c else firstMemE vcs rest

/-- Helper for _copy_slice: project every key of the source dictionary
by the strided subsequence starting at idx, scalarize singletons, store
under dest and simplify. -/
def copy_slice_go (r : Store) (dest : Cls) (stride : Option Nat) (idx : Nat) :
    List (String × PyVal) → Except PyErr Store
  | [] => .ok r
  | (k, vals) :: rest => do
      let sv ← pySliceFrom vals idx stride
      let sv ←
        if pyLen sv = some 1 then pyIndex sv 0
        else pure sv
      let r₁ ← r.setItemE dest k sv
      let br ← simplify r₁ k
      copy_slice_go br.2 dest stride idx rest

/-- Source _copy_slice: copy the slice-classified meta data of the
source store for one slice index into the result store. -/
def copy_slice (r other : Store) (src : Cls) (idx : Nat) :
    Except PyErr Store := do
  let dest ←
    match src.1 with
    | .glob => do
        let vcs ← r.get_valid_classes
        firstMemE vcs [(.time, .samples), (.vector, .samples), (.glob, .const)]
    | .vector => do
        let vcs ← r.get_valid_classes
        firstMemE vcs [(.time, .samples), (.glob, .const)]
    | .time => pure (.glob, .const)
  let stride ← other.n_slicesE
  let d ← other.get_class_dict (some src)
  copy_slice_go r dest stride idx d

/-- Source _global_slice_subset: the subsequence of a global-slices
value list belonging to one time or vector sample.  The source line
iterating for vec_idx in shape[4] iterates an integer and raises
TypeError whenever the vector-samples classification is valid. -/
def global_slice_subset (s : Store) (k : String) (sampleBase : Base)
    (idx : Nat) : Except PyErr PyVal := do
  let ns ← s.n_slicesE
  let src ← s.get_class_dict (some (.glob, .slices))
  let v ←
    match dictGet? src k with
    | some v => pure v
    | Option.none => .error .keyError
  match sampleBase with
  | .vector => do
      let t ← Store.natAt s.shape 3
      let nsv ← optNatE ns
      let spv := nsv * t
      pySliceRange v (idx * spv) (idx * spv + spv)
  | _ => do
      let vcs ← s.get_valid_classes
      if (.vector, .samples) ∉ vcs then do
        let nsv ← optNatE ns
        pySliceRange v (idx * nsv) (idx * nsv + nsv)
      else do
        let t ← Store.natAt s.shape 3
        let nsv ← optNatE ns
        let _ := nsv * t
        let _ ← Store.natAt s.shape 4
        .error .typeError

/-- Helper for _copy_sample: store vals at idx into global const for
every source entry. -/
def copy_sample_idx_go (r : Store) (idx : Nat) :
    List (String × PyVal) → Except PyErr Store
  | [] => .ok r
  | (k, vals) :: rest => do
      let x ← pyIndex vals idx
      let r₁ ← r.setItemE (.glob, .const) k x
      copy_sample_idx_go r₁ idx rest

/-- Helper for _copy_sample: copy a contiguous range of every value
list into the same classification of the result and simplify. -/
def copy_range_go (r : Store) (c : Cls) (start stop : Nat) :
    List (String × PyVal) → Except PyErr Store
  | [] => .ok r
  | (k, vals) :: rest => do
      let sv ← pySliceRange vals start stop
      let r₁ ← r.setItemE c k sv
      let br ← simplify r₁ k
      copy_range_go br.2 c start stop rest

/-- Helper for _copy_sample: project every global-slices entry with
_global_slice_subset, store and simplify. -/
def copy_gs_subset_go (r other : Store) (c : Cls) (sampleBase : Base)
    (idx : Nat) : List (String × PyVal) → Except PyErr Store
  | [] => .ok r
  | (k, _) :: rest => do
      let sv ← global_slice_subset other k sampleBase idx
      let r₁ ← r.setItemE c k sv
      let br ← simplify r₁ k
      copy_gs_subset_go br.2 other c sampleBase idx rest

/-- Source _copy_sample: copy the meta data of one classification of
the source store for one index along the time or vector axis. -/
def copy_sample (r other : Store) (src : Cls) (sampleBase : Base)
    (idx : Nat) : Except PyErr Store := do
  let srcDict ← other.get_class_dict (some src)
  if src.2 = .samples then
    if src.1 = sampleBase then copy_sample_idx_go r idx srcDict
    else copy_dict_go r (some src) srcDict
  else
    if src.1 = sampleBase then do
      let vcs ← r.get_valid_classes
      let best? := (preserving_changes (some src)).find? (· ∈ vcs)
      copy_dict_go r best? srcDict
    else if src.1 ≠ .glob then
      if sampleBase = .time then do
        let ns ← r.n_slicesE
        let nsv ← optNatE ns
        copy_range_go r src (idx * nsv) (idx * nsv + nsv) srcDict
      else copy_dict_go r (some src) srcDict
    else copy_gs_subset_go r other src sampleBase idx srcDict

/-- Fuel-driven worker for stripTrailing. -/
def stripTrailingF : Nat → List Nat → List Nat
  | 0, l => l
  | fuel + 1, l =>
      if l.getLast? = some 1 ∧ l.length > 3 then stripTrailingF fuel l.dropLast
      else l

/-- Strip trailing singleton axes beyond the first three (the source's
while loop over result_shape). -/
def stripTrailing (shape : List Nat) : List Nat :=
  stripTrailingF shape.length shape

/-- Helper for get_subset: the loop over the source's valid
classifications. -/
def get_subset_go (s : Store) (dim idx : Nat) (r : Store) :
    List Cls → Except PyErr Store
  | [] => .ok r
  | c :: rest => do
      let r₁ ←
        if c = (.glob, .const) then do
          let d ← s.get_class_dict (some c)
          copy_dict_go r (some c) d
        else if s.slice_dim = some dim then
          if c.2 ≠ .slices then do
            let d ← s.get_class_dict (some c)
            copy_dict_go r (some c) d
          else copy_slice r s c idx
        else if dim < 3 then do
          let d ← s.get_class_dict (some c)
          copy_dict_go r (some c) d
        else if dim = 3 then copy_sample r s c .time idx
        else copy_sample r s c .vector idx
      get_subset_go s dim idx r₁ rest

/-- Source get_subset: a new extension containing the subset of the
meta data at one index along one dimension. -/
def get_subset (s : Store) (dim idx : Nat) : Except PyErr Store := do
  if ¬ dim < 5 then
    .error (.valueError "The argument dim must be in the range 0 to 5.")
  else do
    let vcs ← s.get_valid_classes
    if dim ≥ s.shape.length then .error .indexError
    else do
      let rshape := stripTrailing (s.shape.set dim 1)
      let r ← make_empty rshape s.affine s.slice_dim
      get_subset_go s dim idx r vcs

/-- Helper for _insert: reclassify one key of the result so it matches
the other extension's classification, or promote both sides to a common
reachable classification. -/
def insert_reclassify_one (s : Store) (otherClasses : Cls) (k : String) :
    Except PyErr Store := do
  let local? ← s.get_classification k
  if local? ≠ some otherClasses then do
    let localAllow := preserving_changes local?
    let otherAllow := preserving_changes (some otherClasses)
    if otherClasses ∈ localAllow then change_class s k (some otherClasses)
    else if (match local? with
             | some c => decide (c ∈ otherAllow)
             | Option.none => false) then
      .ok s
    else do
      let best? := localAllow.find?
        (fun d => s.baseInContent d.1 && decide (d ∈ otherAllow))
      change_class s k best?
  else .ok s

/-- Helper for _insert: the reclassification loop over the keys of one
classification of the other extension. -/
def insert_reclassify_go (s : Store) (oc : Cls) :
    List String → Except PyErr Store
  | [] => .ok s
  | k :: rest => do
      let s₁ ← insert_reclassify_one s oc k
      insert_reclassify_go s₁ oc rest

/-- The per-volume interleaving loop shared by _insert_slice and
_insert_sample: for each of the given number of blocks, a local block
of size ns followed by an other block of size ons, advancing both
cursors. -/
def interleave_go (lv ov : PyVal) (ns ons : Nat) :
    Nat → Nat → Nat → Except PyErr (List PyVal)
  | 0, _, _ => .ok []
  | v + 1, ls, os => do
      let a ← pySliceRange lv ls (ls + ns)
      let sa ←
        match pySeq a with
        | some l => pure l
        | Option.none => .error .typeError
      let b ← pySliceRange ov os (os + ons)
      let sb ←
        match pySeq b with
        | some l => pure l
        | Option.none => .error .typeError
      let rest ← interleave_go lv ov ns ons v (ls + ns) (os + ons)
      .ok (sa ++ sb ++ rest)

/-- Helper for _insert_slice: promote a global-const key with differing
values to the first allocated slices classification and append the
other extension's broadcast values there. -/
def insert_slice_promote (s : Store) (k : String) (other : Store) :
    List Base → Except PyErr Store
  | [] => .ok s
  | db :: rest =>
      if s.baseInContent db then do
        let s₁ ← change_class s k (some (db, .slices))
        let ov ← get_changed_class other k (some (db, .slices))
        let vc ← s₁.get_values_and_class k
        let nv ← pyExtend vc.1 ov
        match vc.2 with
        | some c' => s₁.setItemE c' k nv
        | Option.none =>
            -- unreachable: a missing key gives the None value, on which
            -- extend raised AttributeError above
            .error .attributeError
      else insert_slice_promote s k other rest

/-- Source _insert_slice: merge one key of the other extension along
the slice dimension. -/
def insert_slice (s : Store) (k : String) (other : Store) :
    Except PyErr Store := do
  let vc ← s.get_values_and_class k
  let localVals := vc.1
  let classes? := vc.2
  let otherVals ← get_changed_class other k classes?
  if classes? = some (.glob, .const) then
    if localVals ≠ otherVals then
      insert_slice_promote s k other [.time, .vector, .glob]
    else .ok s
  else if classes? = some (.time, .slices) then do
    let nv ← pyExtend localVals otherVals
    s.setItemE (.time, .slices) k nv
  else do
    let svo ←
      if classes? ≠ some (.glob, .slices) then do
        let s₁ ← change_class s k (some (.glob, .slices))
        let d ← s₁.get_class_dict (some (.glob, .slices))
        let lv ←
          match dictGet? d k with
          | some v => pure v
          | Option.none => .error .keyError
        let ov ← get_changed_class other k (some (.glob, .slices))
        pure (s₁, lv, ov)
      else pure (s, localVals, otherVals)
    let nsO ← svo.1.n_slicesE
    let onsO ← other.n_slicesE
    let nVols := (svo.1.shape.drop 3).foldl (· * ·) 1
    let ns ← optNatE nsO
    let ons ← optNatE onsO
    let intlv ← interleave_go svo.2.1 svo.2.2 ns ons nVols 0 0
    svo.1.setItemE (.glob, .slices) k (.list intlv)

/-- Source _insert_non_slice: a key whose values differ between result
and input along a non-slice spatial axis is deleted. -/
def insert_non_slice (s : Store) (k : String) (other : Store) :
    Except PyErr Store := do
  let vc ← s.get_values_and_class k
  let ov ← get_changed_class other k vc.2
  if vc.1 ≠ ov then
    match vc.2 with
    | Option.none => .error .typeError
    | some c => s.delItemE c k
  else .ok s

/-- Source _insert_sample: merge one key of the other extension along
the time or vector axis. -/
def insert_sample (s : Store) (k : String) (other : Store)
    (sampleBase : Base) : Except PyErr Store := do
  let vc ← s.get_values_and_class k
  let localVals := vc.1
  let classes? := vc.2
  let otherVals ← get_changed_class other k classes?
  if classes? = some (.glob, .const) then
    if localVals ≠ otherVals then do
      let s₁ ← change_class s k (some (sampleBase, .samples))
      let vc₂ ← s₁.get_values_and_class k
      let ov₂ ← get_changed_class other k (some (sampleBase, .samples))
      let nv ← pyExtend vc₂.1 ov₂
      match vc₂.2 with
      | some c' => s₁.setItemE c' k nv
      | Option.none => .error .attributeError
    else .ok s
  else if classes? = some (sampleBase, .samples) then do
    let nv ← pyExtend localVals otherVals
    s.setItemE (sampleBase, .samples) k nv
  else do
    let svo ←
      if classes? ≠ some (.glob, .slices) then do
        let s₁ ← change_class s k (some (.glob, .slices))
        let vc₂ ← s₁.get_values_and_class k
        let ov₂ ← get_changed_class other k (some (.glob, .slices))
        pure (s₁, (vc₂.1, vc₂.2), ov₂)
      else pure (s, (localVals, classes?), otherVals)
    let nDims := svo.1.shape.length
    if sampleBase = .time ∧ nDims = 5 then do
      let t ← Store.natAt svo.1.shape 3
      let nsO ← svo.1.n_slicesE
      let ns ← optNatE nsO
      let spv := ns * t
      let ot ← Store.natAt other.shape 3
      let ospv := ns * ot
      let w ← Store.natAt svo.1.shape 4
      let intlv ← interleave_go svo.2.1.1 svo.2.2 spv ospv w 0 0
      svo.1.setItemE (.glob, .slices) k (.list intlv)
    else do
      let nv ← pyExtend svo.2.1.1 svo.2.2
      match svo.2.1.2 with
      | some c' => svo.1.setItemE c' k nv
      | Option.none => .error .attributeError

/-- Helper for _insert: dispatch every key to the dimension-specific
insertion; a dim beyond 4 matches no branch and does nothing. -/
def insert_dispatch_go (s : Store) (dim : Nat) (other : Store) :
    List String → Except PyErr Store
  | [] => .ok s
  | k :: rest => do
      let s₁ ←
        if s.slice_dim = some dim then insert_slice s k other
        else if dim < 3 then insert_non_slice s k other
        else if dim = 3 then insert_sample s k other .time
        else if dim = 4 then insert_sample s k other .vector
        else .ok s
      insert_dispatch_go s₁ dim other rest

/-- Helper for _insert: process one classification of the other
extension (reclassification pass, then insertion pass). -/
def insert_class_go (dim : Nat) (other : Store) (useSlices : Bool)
    (missing : List String) (s : Store) : List Cls → Except PyErr Store
  | [] => .ok s
  | oc :: rest =>
      if oc.2 = .slices ∧ ¬ useSlices then
        insert_class_go dim other useSlices missing s rest
      else do
        let od ← other.get_class_dict (some oc)
        let otherKeys :=
          dictKeys od ++ (if oc = (.glob, .const) then missing else [])
        let s₁ ← insert_reclassify_go s oc otherKeys
        let s₂ ← insert_dispatch_go s₁ dim other otherKeys
        insert_class_go dim other useSlices missing s₂ rest

/-- Source _insert: merge one extension into the result along one
dimension.  The missing-key set difference of the source is modelled as
an order-preserving deduplicated filter. -/
def insert (s : Store) (dim : Nat) (other : Store) : Except PyErr Store := do
  let osn ← other.slice_normalE
  let ssn ← s.slice_normalE
  let useSlices ← allcloseVecE osn ssn
  let selfKeys ← s.get_keys
  let otherKeys ← other.get_keys
  let missing := (selfKeys.filter (fun k => k ∉ otherKeys)).dedup
  let ovcs ← other.get_valid_classes
  insert_class_go dim other useSlices missing s ovcs

/-- Fuel-driven worker for padShape. -/
def padShapeF : Nat → List Nat → Nat → List Nat
  | 0, l, _ => l
  | fuel + 1, l, dim =>
      if l.length ≤ dim then padShapeF fuel (l ++ [1]) dim else l

/-- Pad a shape with trailing ones until it covers the given dimension
(the source's while loop in from_sequence). -/
def padShape (l : List Nat) (dim : Nat) : List Nat :=
  padShapeF (dim + 1) l dim

/-- The shape property setter: the length must be between three and
five. -/
def setShapeE (s : Store) (shape : List Nat) : Except PyErr Store :=
  if ¬ (3 ≤ shape.length ∧ shape.length < 6) then
    .error (.valueError "The shape must have a length between three and six")
  else .ok { s with shape := shape }

/-- Helper for from_sequence: seed the result's content dictionaries
from the first input, skipping slices data when the slice orientations
disagree. -/
def seed_classes_go (first : Store) (useSlices : Bool) (r : Store) :
    List Cls → Except PyErr Store
  | [] => .ok r
  | c :: rest =>
      if c.2 = .slices ∧ ¬ useSlices then
        seed_classes_go first useSlices r rest
      else do
        let d ← first.get_class_dict (some c)
        let r₁ ←
          if (r.classDict? c).isSome then pure (r.withClassDict c d)
          else .error .keyError
        seed_classes_go first useSlices r₁ rest

/-- Helper for from_sequence: insert the remaining inputs one by one,
growing the shape along the merge dimension after each. -/
def from_seq_fold (dim : Nat) (r : Store) (shape : List Nat) :
    List Store → Except PyErr Store
  | [] => .ok r
  | o :: rest => do
      let r₁ ← insert r dim o
      let shape₁ := shape.set dim (shape.getD dim 0 + 1)
      let r₂ ← setShapeE r₁ shape₁
      from_seq_fold dim r₂ shape₁ rest

/-- Helper for from_sequence: the final simplification pass over the
snapshot of the global-slices keys. -/
def simplify_keys_go (r : Store) : List String → Except PyErr Store
  | [] => .ok r
  | k :: rest => do
      let br ← simplify r k
      simplify_keys_go br.2 rest

/-- Source from_sequence: merge a sequence of extensions along a
dimension into a new extension. -/
def from_sequence (seq : List Store) (dim : Nat)
    (affine? : Option (List (List Frac))) (sliceDim? : Option Nat) :
    Except PyErr Store := do
  if ¬ dim < 5 then
    .error (.valueError "The argument dim must be in the range 0 to 5.")
  else
    match seq with
    | [] => .error .indexError
    | first :: rest => do
        let inShape := first.shape
        if inShape.length > dim ∧ inShape.getD dim 0 ≠ 1 then
          .error (.valueError "The dim must be singular or not exist for the inputs.")
        else do
          let outShape := (padShape inShape dim).set dim seq.length
          let affine := affine?.getD first.affine
          let sliceDim :=
            match sliceDim? with
            | some d => some d
            | Option.none => first.slice_dim
          let r ← make_empty outShape affine sliceDim
          let rsn ← r.slice_normalE
          let fsn ← first.slice_normalE
          let useSlices ← allcloseVecE rsn fsn
          let fvcs ← first.get_valid_classes
          let r₁ ← seed_classes_go first useSlices r fvcs
          let shape1 := r₁.shape.set dim 1
          let r₂ ← setShapeE r₁ shape1
          let r₃ ← from_seq_fold dim r₂ shape1 rest
          let gsd ← r₃.get_class_dict (some (.glob, .slices))
          simplify_keys_go r₃ (dictKeys gsd)

/-- Helper for the extension equality: compare the class dictionaries
of every valid classification as unordered dictionaries. -/
def store_eq_classes_go (a b : Store) : List Cls → Except PyErr Bool
  | [] => .ok true
  | c :: rest => do
      let da ← a.get_class_dict (some c)
      let db ← b.get_class_dict (some c)
      if ¬ dictPyEq da db then .ok false
      else store_eq_classes_go a b rest

/-- Source eq comparison of two extensions: affine within numpy
tolerance, everything else exact. -/
def store_eq (a b : Store) : Except PyErr Bool := do
  let cl ← allcloseMatE a.affine b.affine
  if ¬ cl then .ok false
  else if a.shape ≠ b.shape then .ok false
  else if a.slice_dim ≠ b.slice_dim then .ok false
  else if a.version ≠ b.version then .ok false
  else do
    let vcs ← a.get_valid_classes
    store_eq_classes_go a b vcs

/-- JSON document trees.  The string layer (json.dumps and json.loads
of the Python standard library) is external to the repository; the
canonical document is modelled by its parsed tree. -/
inductive Json where
  | null : Json
  | num : Frac → Json
  | str : String → Json
  | arr : List Json → Json
  | obj : List (String × Json) → Json

mutual

/-- Encode a Python value as a JSON tree. -/
def pyToJson : PyVal → Json
  | .none => .null
  | .int n => .num (Frac.ofInt n)
  | .str s => .str s
  | .list l => .arr (pyListToJson l)

/-- Encode a list of Python values as JSON trees. -/
def pyListToJson : List PyVal → List Json
  | [] => []
  | x :: xs => pyToJson x :: pyListToJson xs

end

mutual

/-- Decode a JSON tree into a Python value; objects and non-integral
numbers are outside the modelled value universe. -/
def jsonToPy : Json → Except PyErr PyVal
  | .null => .ok .none
  | .num q => if q.den = 1 then .ok (.int q.num) else .error .typeError
  | .str s => .ok (.str s)
  | .arr l => do
      let vs ← jsonListToPy l
      .ok (.list vs)
  | .obj _ => .error .typeError

/-- Decode a list of JSON trees into Python values. -/
def jsonListToPy : List Json → Except PyErr (List PyVal)
  | [] => .ok []
  | x :: xs => do
      let v ← jsonToPy x
      let vs ← jsonListToPy xs
      .ok (v :: vs)

end

/-- Encode a meta data dictionary as a JSON object body. -/
def dictToJson (d : Dict) : List (String × Json) :=
  d.map (fun p => (p.1, pyToJson p.2))

/-- Decode a JSON object body into a meta data dictionary. -/
def jsonToDict : List (String × Json) → Except PyErr Dict
  | [] => .ok []
  | (k, j) :: rest => do
      let v ← jsonToPy j
      let d ← jsonToDict rest
      .ok ((k, v) :: d)

/-- Lookup of a key in a JSON object body. -/
def jlookup (l : List (String × Json)) (k : String) : Option Json :=
  (l.find? (fun p => p.1 == k)).map (·.2)

/-- Encode the extension content as its canonical JSON document tree,
with the content keys in the insertion order of make_empty. -/
def encodeStore (s : Store) : Json :=
  .obj
    ([("global",
        .obj [("const", .obj (dictToJson s.gConst)),
              ("slices", .obj (dictToJson s.gSlices))])]
      ++ (match s.time with
          | some g =>
              [("time",
                 .obj [("samples", .obj (dictToJson g.1)),
                       ("slices", .obj (dictToJson g.2))])]
          | Option.none => [])
      ++ (match s.vector with
          | some g =>
              [("vector",
                 .obj [("samples", .obj (dictToJson g.1)),
                       ("slices", .obj (dictToJson g.2))])]
          | Option.none => [])
      ++ [("dcmmeta_shape",
            .arr (s.shape.map (fun n : Nat => .num (Frac.ofInt (n : Int))))),
          ("dcmmeta_affine",
            .arr (s.affine.map (fun row => .arr (row.map Json.num)))),
          ("dcmmeta_slice_dim",
            match s.slice_dim with
            | some d => .num (Frac.ofInt (d : Int))
            | Option.none => .null),
          ("dcmmeta_version", .num s.version)])

/-- Source to_json: validate and encode as the canonical document. -/
def to_json (s : Store) : Except PyErr Json := do
  Store.check_valid s
  .ok (encodeStore s)

/-- Decode a JSON number as a rational. -/
def parseQ : Json → Except PyErr Frac
  | .num q => .ok q
  | _ => .error .typeError

/-- Decode a JSON number as a natural number. -/
def parseNat : Json → Except PyErr Nat
  | .num q =>
      if q.den = 1 ∧ 0 ≤ q.num then .ok q.num.toNat else .error .typeError
  | _ => .error .typeError

/-- Decode a JSON array of numbers as a shape. -/
def parseShape : Json → Except PyErr (List Nat)
  | .arr l => l.mapM parseNat
  | _ => .error .typeError

/-- Decode a JSON array of numbers as an affine row. -/
def parseRow : Json → Except PyErr (List Frac)
  | .arr l => l.mapM parseQ
  | _ => .error .typeError

/-- Decode a JSON array of arrays as an affine matrix. -/
def parseMat : Json → Except PyErr (List (List Frac))
  | .arr l => l.mapM parseRow
  | _ => .error .typeError

/-- Decode the slice-dimension field: an integer or null. -/
def parseSliceDim : Json → Except PyErr (Option Nat)
  | .null => .ok Option.none
  | j => do
      let d ← parseNat j
      .ok (some d)

/-- Decode a JSON object as a meta data dictionary. -/
def parseDict : Json → Except PyErr Dict
  | .obj l => jsonToDict l
  | _ => .error .typeError

/-- Decode one optional base-classification group with two sub
dictionaries. -/
def parseGroup (l : List (String × Json)) (name sub1 sub2 : String) :
    Except PyErr (Option (Dict × Dict)) :=
  match jlookup l name with
  | Option.none => .ok Option.none
  | some (.obj g) => do
      let d1 ←
        match jlookup g sub1 with
        | some j => parseDict j
        | Option.none => .error (.invalidExt "Missing required sub classification")
      let d2 ←
        match jlookup g sub2 with
        | some j => parseDict j
        | Option.none => .error (.invalidExt "Missing required sub classification")
      .ok (some (d1, d2))
  | some _ => .error .typeError

/-- Decode a canonical document tree into a store. -/
def parseStore (j : Json) : Except PyErr Store :=
  match j with
  | .obj l => do
      let affine ←
        match jlookup l "dcmmeta_affine" with
        | some a => parseMat a
        | Option.none => .error (.invalidExt "Missing one or more required keys")
      let sliceDim ←
        match jlookup l "dcmmeta_slice_dim" with
        | some d => parseSliceDim d
        | Option.none => .error (.invalidExt "Missing one or more required keys")
      let shape ←
        match jlookup l "dcmmeta_shape" with
        | some sh => parseShape sh
        | Option.none => .error (.invalidExt "Missing one or more required keys")
      let version ←
        match jlookup l "dcmmeta_version" with
        | some v => parseQ v
        | Option.none => .error (.invalidExt "Missing one or more required keys")
      let glob ←
        match jlookup l "global" with
        | some g => do
            let c ←
              match g with
              | .obj gl =>
                  match jlookup gl "const" with
                  | some cj => parseDict cj
                  | Option.none => .error (.invalidExt "Missing required sub classification")
              | _ => .error .typeError
            let sl ←
              match g with
              | .obj gl =>
                  match jlookup gl "slices" with
                  | some sj => parseDict sj
                  | Option.none => .error (.invalidExt "Missing required sub classification")
              | _ => .error .typeError
            pure (c, sl)
        | Option.none => .error (.invalidExt "Missing one or more required keys")
      let time? ← parseGroup l "time" "samples" "slices"
      let vector? ← parseGroup l "vector" "samples" "slices"
      .ok { affine := affine
            slice_dim := sliceDim
            shape := shape
            version := version
            gConst := glob.1
            gSlices := glob.2
            time := time?
            vector := vector? }
  | _ => .error .typeError

/-- Source from_json: decode the document and re-validate. -/
def from_json (j : Json) : Except PyErr Store := do
  let s ← parseStore j
  Store.check_valid s
  .ok s

/-! Specification-side definitions used to state the claims. -/

/-- The valid classifications of a store as a plain list (empty for a
shape outside three to five axes). -/
def validClassesOf (s : Store) : List Cls :=
  match s.get_valid_classes with
  | .ok l => l
  | .error _ => []

/-- The key is present in the content dictionary of the given
classification (false when the group is absent). -/
def inClass (s : Store) (c : Cls) (k : String) : Bool :=
  match s.classDict? c with
  | some d => dictContains d k
  | Option.none => false

/-- In how many classifications valid for the shape the key appears. -/
def keyCountValid (s : Store) (k : String) : Nat :=
  ((validClassesOf s).filter (fun c => inClass s c k)).length

/-- In how many allocated content dictionaries (of the six
classification positions) the key appears. -/
def keyCountAll (s : Store) (k : String) : Nat :=
  (classifications.filter (fun c => inClass s c k)).length

/-- The key is present in some allocated content dictionary. -/
def presentSomewhere (s : Store) (k : String) : Bool :=
  classifications.any (fun c => inClass s c k)

/-- Uniqueness invariant of the data model: every metadata key appears
in exactly one classification dictionary among the classes valid for
the store's shape. -/
def UniqueKeys (s : Store) : Prop :=
  ∀ k, presentSomewhere s k = true → keyCountValid s k = 1

/-- Every present key appears in exactly one allocated content
dictionary (a shape-independent strengthening used through merge
intermediates). -/
def UniqueAlloc (s : Store) : Prop :=
  ∀ k, presentSomewhere s k = true → keyCountAll s k = 1

/-- Every occupied classification position is valid for the store's
shape. -/
def OccValid (s : Store) : Prop :=
  ∀ c k, inClass s c k = true → c ∈ validClassesOf s

/-- The association-list dictionaries have no duplicate keys (Python
dictionaries cannot hold duplicates). -/
def StoreWF (s : Store) : Prop :=
  ∀ c : Cls,
    match s.classDict? c with
    | some d => (dictKeys d).Nodup
    | Option.none => True

/-- No stray groups: every allocated classification group is valid for
the store's shape. -/
def NoStray (s : Store) : Prop :=
  (s.time.isSome = true → (Base.time, Sub.samples) ∈ validClassesOf s) ∧
  (s.vector.isSome = true → (Base.vector, Sub.samples) ∈ validClassesOf s)

/-- The well-formedness bundle under which the mutating operations
preserve the uniqueness invariant. -/
def GoodStore (s : Store) : Prop :=
  StoreWF s ∧ UniqueKeys s ∧ OccValid s ∧ NoStray s

/-- Every classification valid for the shape has its content dictionary
allocated. -/
def GroupsPresent (s : Store) : Prop :=
  ∀ c ∈ validClassesOf s, (s.classDict? c).isSome = true

/-- The multiplicity table of the data-model section of the
specification, with the slices rows yielding zero when the slice axis
is absent. -/
def multiplicityTable (shape : List Nat) (slice_dim : Option Nat) :
    Cls → Nat
  | (.glob, .const) => 1
  | (.glob, .slices) =>
      match slice_dim with
      | some d => shape.getD d 0 * (shape.drop 3).prod
      | Option.none => 0
  | (.time, .samples) =>
      if shape.length = 5 then shape.getD 3 0 * shape.getD 4 0
      else shape.getD 3 0
  | (.time, .slices) =>
      match slice_dim with
      | some d => shape.getD d 0
      | Option.none => 0
  | (.vector, .samples) => shape.getD 4 0
  | (.vector, .slices) =>
      match slice_dim with
      | some d => shape.getD d 0 * shape.getD 3 0
      | Option.none => 0
  | _ => 0

/-- The four classifications the specification assigns to a five-axis
shape whose fourth axis has length one. -/
def fourClassList : List Cls :=
  [(.glob, .const), (.glob, .slices), (.vector, .samples), (.vector, .slices)]

/-- A required classification dictionary is missing (check condition of
the validity checker). -/
def CondMissingGroup (s : Store) : Prop :=
  ∃ c ∈ validClassesOf s, s.baseInContent c.1 = false

/-- Some value list's length differs from its classification's
multiplicity while that multiplicity is greater than one. -/
def CondBadLen (s : Store) : Prop :=
  ∃ c ∈ validClassesOf s, ∃ d m, s.classDict? c = some d ∧
    s.get_multiplicity (some c) = .ok m ∧ 1 < m ∧
    ∃ kv ∈ d, pyLen kv.2 ≠ some m

/-- A slices dictionary is non-empty while its multiplicity is zero. -/
def CondSliceNonempty (s : Store) : Prop :=
  ∃ c ∈ validClassesOf s, ∃ d, s.classDict? c = some d ∧
    s.get_multiplicity (some c) = .ok 0 ∧ d ≠ []

/-- Some key appears in more than one valid classification
dictionary. -/
def CondMultiClass (s : Store) : Prop :=
  ∃ k, ∃ c1 ∈ validClassesOf s, ∃ c2 ∈ validClassesOf s,
    c1 ≠ c2 ∧ inClass s c1 k = true ∧ inClass s c2 k = true

/-- Values of every valid classification of multiplicity greater than
one are sized (lists or strings), so that the Python len call in the
checker cannot itself raise. -/
def ValsSized (s : Store) : Prop :=
  ∀ c ∈ validClassesOf s, ∀ d m, s.classDict? c = some d →
    s.get_multiplicity (some c) = .ok m → 1 < m →
    ∀ kv ∈ d, (pyLen kv.2).isSome = true

/-- Reachability by the mutating operations of the claim: simplify,
promote (change_class), subset and merge, starting from a store. -/
inductive Reaches : Store → Store → Prop where
  | refl (s : Store) : Reaches s s
  | simp_step (a b c : Store) (k : String) (x : Bool) :
      Reaches a b → simplify b k = .ok (x, c) → Reaches a c
  | change_step (a b c : Store) (k : String) (nc : Option Cls) :
      Reaches a b → change_class b k nc = .ok c → Reaches a c
  | subset_step (a b c : Store) (dim idx : Nat) :
      Reaches a b → get_subset b dim idx = .ok c → Reaches a c
  | merge_step (a b c : Store) (others : List Store) (dim : Nat)
      (aff : Option (List (List Frac))) (sd : Option Nat) :
      Reaches a b → (∀ o ∈ others, GoodStore o ∧ GroupsPresent o) →
      from_sequence (b :: others) dim aff sd = .ok c → Reaches a c

/-! Concrete stores used by counterexamples, witnesses and the
scenario claims. -/

/-- The identity affine. -/
def idAff : List (List Frac) :=
  [[1, 0, 0, 0], [0, 1, 0, 0], [0, 0, 1, 0], [0, 0, 0, 1]]

/-- A three-dimensional store holding a single global-const key
EchoTime with the given value (scenario stores of the merge claims). -/
def mkEcho (x y z : Nat) (v : Int) : Store :=
  { affine := idAff
    slice_dim := some 2
    shape := [x, y, z]
    version := ⟨1, 2⟩
    gConst := [("EchoTime", .int v)]
    gSlices := []
    time := Option.none
    vector := Option.none }

/-- A five-axis store whose fourth (time) axis has length two and whose
fifth (vector) axis has length one. -/
def timeTwoVecOneStore : Store :=
  { affine := idAff
    slice_dim := Option.none
    shape := [1, 1, 1, 2, 1]
    version := ⟨1, 2⟩
    gConst := []
    gSlices := []
    time := some ([], [])
    vector := some ([], []) }

/-- A store with a multiplicity-one global-slices classification
holding a wrong-length value list. -/
def multOneStore : Store :=
  { affine := idAff
    slice_dim := some 0
    shape := [1, 1, 1]
    version := ⟨1, 2⟩
    gConst := []
    gSlices := [("k", .list [.int 1, .int 2, .int 3])]
    time := Option.none
    vector := Option.none }

/-- A store holding a key with the None value in global const. -/
def noneConstStore : Store :=
  { affine := idAff
    slice_dim := some 2
    shape := [1, 1, 1]
    version := ⟨1, 2⟩
    gConst := [("k", .none)]
    gSlices := []
    time := Option.none
    vector := Option.none }

/-- The store left after simplify deletes the None-valued key of
noneConstStore. -/
def noneConstSimplified : Store :=
  { affine := idAff
    slice_dim := some 2
    shape := [1, 1, 1]
    version := ⟨1, 2⟩
    gConst := []
    gSlices := []
    time := Option.none
    vector := Option.none }

/-- An empty three-dimensional store. -/
def emptyThreeStore : Store :=
  { affine := idAff
    slice_dim := some 0
    shape := [1, 1, 1]
    version := ⟨1, 2⟩
    gConst := []
    gSlices := []
    time := Option.none
    vector := Option.none }

/-- An empty four-dimensional store whose fourth axis has length five
(not one). -/
def sizeFiveStore : Store :=
  { affine := idAff
    slice_dim := some 0
    shape := [1, 1, 1, 5]
    version := ⟨1, 2⟩
    gConst := []
    gSlices := []
    time := some ([], [])
    vector := Option.none }

/-- A four-dimensional store without the required time group. -/
def noTimeStore : Store :=
  { affine := idAff
    slice_dim := Option.none
    shape := [1, 1, 1, 2]
    version := ⟨1, 2⟩
    gConst := []
    gSlices := []
    time := Option.none
    vector := Option.none }

/-- The expected result of merging three EchoTime stores with constant
values 5, 5 and 10 along the time axis: EchoTime classified
(time, samples) with value list 5, 5, 10. -/
def echoExpected (x y z : Nat) : Store :=
  { affine := idAff
    slice_dim := some 2
    shape := [x, y, z, 3]
    version := ⟨1, 2⟩
    gConst := []
    gSlices := []
    time := some ([("EchoTime", .list [.int 5, .int 5, .int 10])], [])
    vector := Option.none }

/-- The valid classes of a three-axis shape. -/
theorem gvc_len3 (s : Store) (h : s.shape.length = 3) :
    s.get_valid_classes = .ok [(.glob, .const), (.glob, .slices)] := by
  simp [Store.get_valid_classes, h, classifications]

/-- The valid classes of a four-axis shape. -/
theorem gvc_len4 (s : Store) (h : s.shape.length = 4) :
    s.get_valid_classes =
      .ok [(.glob, .const), (.glob, .slices), (.time, .samples), (.time, .slices)] := by
  simp [Store.get_valid_classes, h, classifications]

/-- The valid classes of a five-axis shape with a non-singleton fourth
axis. -/
theorem gvc_len5_ne (s : Store) (h : s.shape.length = 5)
    (ht : s.shape.getD 3 0 ≠ 1) :
    s.get_valid_classes = .ok classifications := by
  have h3 : (3 : ℕ) < s.shape.length := by omega
  rw [List.getD_eq_getElem s.shape 0 h3] at ht
  simp [Store.get_valid_classes, h, ht]

/-- The valid classes of a five-axis shape with a singleton fourth
axis. -/
theorem gvc_len5_one (s : Store) (h : s.shape.length = 5)
    (ht : s.shape.getD 3 0 = 1) :
    s.get_valid_classes = .ok fourClassList := by
  have h3 : (3 : ℕ) < s.shape.length := by omega
  rw [List.getD_eq_getElem s.shape 0 h3] at ht
  simp [Store.get_valid_classes, h, ht, classifications, fourClassList]

/-- validClassesOf agrees with get_valid_classes when the latter
succeeds. -/
theorem validClassesOf_eq (s : Store) (l : List Cls)
    (h : s.get_valid_classes = .ok l) : validClassesOf s = l := by
  simp [validClassesOf, h]

/-- get_valid_classes succeeds for shapes with three to five axes and
returns validClassesOf. -/
theorem gvc_ok (s : Store) (h3 : 3 ≤ s.shape.length)
    (h6 : s.shape.length < 6) :
    s.get_valid_classes = .ok (validClassesOf s) := by
  have h : s.shape.length = 3 ∨ s.shape.length = 4 ∨ s.shape.length = 5 := by
    omega
  rcases h with h | h | h
  · rw [gvc_len3 s h, validClassesOf_eq s _ (gvc_len3 s h)]
  · rw [gvc_len4 s h, validClassesOf_eq s _ (gvc_len4 s h)]
  · by_cases ht : s.shape.getD 3 0 = 1
    · rw [gvc_len5_one s h ht, validClassesOf_eq s _ (gvc_len5_one s h ht)]
    · rw [gvc_len5_ne s h ht, validClassesOf_eq s _ (gvc_len5_ne s h ht)]

/-- C4, counterexample: a five-axis store whose vector (fifth) axis has
length one but whose fourth axis has length two is assigned all six
classifications by get_valid_classes, not the four the claim lists. -/
theorem C4_counterexample :
    timeTwoVecOneStore.shape.length = 5 ∧
    timeTwoVecOneStore.shape.getD 4 0 = 1 ∧
    timeTwoVecOneStore.get_valid_classes = .ok classifications ∧
    classifications ≠ fourClassList := by decide

/-- C4, amended: for a five-entry shape the valid-classification set is
decided by the fourth (time) axis, not the fifth (vector) axis: length
one there gives the four classifications global-const, global-slices,
vector-samples and vector-slices, anything else gives all six. -/
theorem C4_valid_classes (s : Store) (h5 : s.shape.length = 5) :
    (s.shape.getD 3 0 = 1 → s.get_valid_classes = .ok fourClassList) ∧
    (s.shape.getD 3 0 ≠ 1 → s.get_valid_classes = .ok classifications) :=
  ⟨fun ht => gvc_len5_one s h5 ht, fun ht => gvc_len5_ne s h5 ht⟩

/-- C4, witness: the amended statement applied to the concrete
five-axis store with fourth axis of length two. -/
theorem C4_witness :
    timeTwoVecOneStore.get_valid_classes = .ok classifications :=
  (C4_valid_classes timeTwoVecOneStore (by decide)).2 (by decide)

/-- C8, counterexample: merging an empty three-dimensional store with a
four-dimensional store whose size along the merge axis is five succeeds
instead of raising, because only the first input's size along the axis
is checked. -/
theorem C8_counterexample :
    sizeFiveStore.shape.getD 3 0 ≠ 1 ∧
    (from_sequence [emptyThreeStore, sizeFiveStore] 3 Option.none
        Option.none).isOk = true := by
  decide

/-- C8, amended: from_sequence checks only the first input: when the
merge axis exists in the first input's shape with a size other than
one, it raises ValueError; later inputs' sizes along the axis are not
checked. -/
theorem C8_first_input_checked (seq : List Store) (dim : Nat)
    (aff : Option (List (List Frac))) (sd : Option Nat) (first : Store)
    (rest : List Store) (hseq : seq = first :: rest) (hdim : dim < 5)
    (hlen : dim < first.shape.length) (hsz : first.shape.getD dim 0 ≠ 1) :
    from_sequence seq dim aff sd =
      .error (.valueError "The dim must be singular or not exist for the inputs.") := by
  subst hseq
  rw [List.getD_eq_getElem first.shape 0 hlen] at hsz
  simp [from_sequence, hdim, hlen, hsz]

/-- C8, witness: the amended statement applied to a singleton sequence
whose first input has size five along the merge axis. -/
theorem C8_witness :
    from_sequence [sizeFiveStore] 3 Option.none Option.none =
      .error (.valueError "The dim must be singular or not exist for the inputs.") :=
  C8_first_input_checked [sizeFiveStore] 3 Option.none Option.none
    sizeFiveStore [] rfl (by decide) (by decide) (by decide)

/-- Helper: walking the classification list for a key absent everywhere
(with all groups allocated) returns the Python None. -/
theorem get_classification_go_none (s : Store) (k : String) :
    ∀ l : List Cls, (∀ c ∈ l, (s.classDict? c).isSome = true) →
      (∀ c ∈ l, inClass s c k = false) →
      Store.get_classification_go s k l = .ok Option.none := by
  intro l
  induction l with
  | nil => intro _ _; rfl
  | cons c rest ih =>
      intro hp habs
      have hpc := hp c (by simp)
      have hac := habs c (by simp)
      rcases hd : s.classDict? c with _ | d
      · rw [hd] at hpc; simp at hpc
      · have : dictContains d k = false := by
          have := hac
          rw [inClass, hd] at this
          exact this
        simp only [Store.get_classification_go, hd, this]
        exact ih (fun c hc => hp c (by simp [hc]))
          (fun c hc => habs c (by simp [hc]))

/-- C10, counterexample: a four-dimensional store without the required
time group makes get_classification raise KeyError for an absent key
instead of returning None. -/
theorem C10_counterexample :
    (validClassesOf noTimeStore).all
        (fun c => !(inClass noTimeStore c "k")) = true ∧
    noTimeStore.get_classification "k" = .error .keyError := by decide

/-- C10, amended: for every store of valid shape whose valid
classification groups are all allocated, a key absent from every valid
classification dictionary makes get_classification return None,
get_values return None and get_values_and_class return (None, None);
the lookups are pure and raise nothing. -/
theorem C10_lookup_missing (s : Store) (k : String)
    (h3 : 3 ≤ s.shape.length) (h6 : s.shape.length < 6)
    (hgp : GroupsPresent s)
    (habs : ∀ c ∈ validClassesOf s, inClass s c k = false) :
    s.get_classification k = .ok Option.none ∧
    s.get_values k = .ok .none ∧
    s.get_values_and_class k = .ok (.none, Option.none) := by
  have hvc := gvc_ok s h3 h6
  have hcls : s.get_classification k = .ok Option.none := by
    rw [Store.get_classification, hvc]
    exact get_classification_go_none s k _ hgp habs
  refine ⟨hcls, ?_, ?_⟩
  · rw [Store.get_values, hcls]; rfl
  · rw [Store.get_values_and_class, hcls]; rfl

/-- C10, witness: the amended statement applied to an empty
three-dimensional store. -/
theorem C10_witness :
    emptyThreeStore.get_classification "zz" = .ok Option.none ∧
    emptyThreeStore.get_values "zz" = .ok .none ∧
    emptyThreeStore.get_values_and_class "zz" = .ok (.none, Option.none) :=
  C10_lookup_missing emptyThreeStore "zz" (by decide) (by decide)
    (by unfold GroupsPresent; decide) (by decide)

/-- C5, counterexample: a store holding a wrong-length value list in a
classification of multiplicity one (nonzero) passes check_valid, because
the checker only compares lengths when the multiplicity exceeds one. -/
theorem C5_counterexample :
    multOneStore.get_multiplicity (some (.glob, .slices)) = .ok 1 ∧
    dictGet? multOneStore.gSlices "k" =
      some (.list [.int 1, .int 2, .int 3]) ∧
    pyLen (.list [.int 1, .int 2, .int 3]) = some 3 ∧
    multOneStore.check_valid = .ok () := by decide

set_option maxHeartbeats 4000000 in
/-- C7: merging three 3-dimensional stores along axis 3 (the spatial
sizes of the inputs being immaterial: 2 by 3 by 4, 5 by 6 by 7 and
8 by 9 by 1 here), all holding EchoTime in (global,const) with values
5, 5 and 10, yields a store of shape 2, 3, 4, 3 in which EchoTime is
classified (time,samples) with value list 5, 5, 10: the equal constant
is appended by broadcasting and the first differing constant is
promoted to (time,samples), never to a slice classification. -/
theorem C7_merge_promotes_to_time_samples :
    from_sequence
        [mkEcho 2 3 4 5, mkEcho 5 6 7 5, mkEcho 8 9 1 10]
        3 Option.none Option.none = .ok (echoExpected 2 3 4) := by
  decide

/-- Helper: a list of length three is a literal triple. -/
theorem len_eq_three {α : Type} (l : List α) (h : l.length = 3) :
    ∃ a b c, l = [a, b, c] := by
  rcases l with _ | ⟨a, l⟩; · simp at h
  rcases l with _ | ⟨b, l⟩; · simp at h
  rcases l with _ | ⟨c, l⟩; · simp at h
  rcases l with _ | ⟨d, l⟩
  · exact ⟨a, b, c, rfl⟩
  · simp at h

/-- Helper: a list of length four is a literal quadruple. -/
theorem len_eq_four {α : Type} (l : List α) (h : l.length = 4) :
    ∃ a b c d, l = [a, b, c, d] := by
  rcases l with _ | ⟨a, l⟩; · simp at h
  rcases l with _ | ⟨b, l⟩; · simp at h
  rcases l with _ | ⟨c, l⟩; · simp at h
  rcases l with _ | ⟨d, l⟩; · simp at h
  rcases l with _ | ⟨e, l⟩
  · exact ⟨a, b, c, d, rfl⟩
  · simp at h

/-- Helper: a list of length five is a literal quintuple. -/
theorem len_eq_five {α : Type} (l : List α) (h : l.length = 5) :
    ∃ a b c d e, l = [a, b, c, d, e] := by
  rcases l with _ | ⟨a, l⟩; · simp at h
  rcases l with _ | ⟨b, l⟩; · simp at h
  rcases l with _ | ⟨c, l⟩; · simp at h
  rcases l with _ | ⟨d, l⟩; · simp at h
  rcases l with _ | ⟨e, l⟩; · simp at h
  rcases l with _ | ⟨f, l⟩
  · exact ⟨a, b, c, d, e, rfl⟩
  · simp at h

/-- The multiplicity of a classification valid for a well-formed shape
follows the data-model table. -/
theorem mult_table_of_valid (s : Store) (h3 : 3 ≤ s.shape.length)
    (h6 : s.shape.length < 6)
    (hsd : ∀ d, s.slice_dim = some d → d < 3) :
    ∀ c ∈ validClassesOf s,
      s.get_multiplicity (some c) =
        .ok (multiplicityTable s.shape s.slice_dim c) := by
  intro c hc
  have hlen : s.shape.length = 3 ∨ s.shape.length = 4 ∨
      s.shape.length = 5 := by omega
  rcases hlen with hlen | hlen | hlen
  · obtain ⟨a, b, c0, hS⟩ := len_eq_three s.shape hlen
    have hv3 : s.get_valid_classes =
        .ok [(.glob, .const), (.glob, .slices)] :=
      gvc_len3 s (by rw [hS]; rfl)
    rw [validClassesOf_eq s _ hv3] at hc
    simp at hc
    rcases hsl : s.slice_dim with _ | d
    · rcases hc with rfl | rfl <;>
        simp [Store.get_multiplicity, hv3, Store.n_slicesE, hS, hsl,
          multiplicityTable, Store.natAt, Bind.bind, Except.bind]
    · have hd := hsd d hsl
      rcases hc with rfl | rfl <;> interval_cases d <;>
        simp [Store.get_multiplicity, hv3, Store.n_slicesE, hS, hsl,
          multiplicityTable, Store.natAt, List.getD, Bind.bind, Except.bind]
  · obtain ⟨a, b, c0, t, hS⟩ := len_eq_four s.shape hlen
    have hv4 : s.get_valid_classes =
        .ok [(.glob, .const), (.glob, .slices),
             (.time, .samples), (.time, .slices)] :=
      gvc_len4 s (by rw [hS]; rfl)
    rw [validClassesOf_eq s _ hv4] at hc
    simp at hc
    rcases hsl : s.slice_dim with _ | d
    · rcases hc with rfl | rfl | rfl | rfl <;>
        simp [Store.get_multiplicity, hv4, Store.n_slicesE, hS, hsl,
          multiplicityTable, Store.natAt, List.getD, Bind.bind, Except.bind]
    · have hd := hsd d hsl
      rcases hc with rfl | rfl | rfl | rfl <;> interval_cases d <;>
        simp [Store.get_multiplicity, hv4, Store.n_slicesE, hS, hsl,
          multiplicityTable, Store.natAt, List.getD, Bind.bind, Except.bind]
  · obtain ⟨a, b, c0, t, v, hS⟩ := len_eq_five s.shape hlen
    by_cases ht : t = 1
    · subst ht
      have hv5 : s.get_valid_classes = .ok fourClassList :=
        gvc_len5_one s (by rw [hS]; rfl) (by rw [hS]; rfl)
      rw [validClassesOf_eq s _ hv5] at hc
      simp [fourClassList] at hc
      rcases hsl : s.slice_dim with _ | d
      · rcases hc with rfl | rfl | rfl | rfl <;>
          simp [Store.get_multiplicity, hv5, Store.n_slicesE, hS, hsl,
            multiplicityTable, Store.natAt, fourClassList, List.getD,
            Bind.bind, Except.bind]
      · have hd := hsd d hsl
        rcases hc with rfl | rfl | rfl | rfl <;> interval_cases d <;>
          simp [Store.get_multiplicity, hv5, Store.n_slicesE, hS, hsl,
            multiplicityTable, Store.natAt, fourClassList, List.getD,
            Nat.mul_assoc, Bind.bind, Except.bind]
    · have hv5 : s.get_valid_classes = .ok classifications :=
        gvc_len5_ne s (by rw [hS]; rfl) (by rw [hS]; simpa using ht)
      rw [validClassesOf_eq s _ hv5] at hc
      simp [classifications] at hc
      rcases hsl : s.slice_dim with _ | d
      · rcases hc with rfl | rfl | rfl | rfl | rfl | rfl <;>
          simp [Store.get_multiplicity, hv5, Store.n_slicesE, hS, hsl,
            multiplicityTable, Store.natAt, classifications, List.getD,
            Bind.bind, Except.bind]
      · have hd := hsd d hsl
        rcases hc with rfl | rfl | rfl | rfl | rfl | rfl <;>
          interval_cases d <;>
          simp [Store.get_multiplicity, hv5, Store.n_slicesE, hS, hsl,
            multiplicityTable, Store.natAt, classifications, List.getD,
            Nat.mul_assoc, Bind.bind, Except.bind]
/-- The multiplicity lookup of a classification invalid for the shape
raises ValueError. -/
theorem mult_invalid (s : Store) (h3 : 3 ≤ s.shape.length)
    (h6 : s.shape.length < 6) :
    ∀ c, c ∉ validClassesOf s →
      s.get_multiplicity (some c) =
        .error (.valueError "Invalid classification") := by
  have hvc := gvc_ok s h3 h6
  intro c hc
  rw [validClassesOf_eq s _ hvc] at hc
  simp [Store.get_multiplicity, hvc, hc, Bind.bind, Except.bind]

/-- C1: for every store with a valid shape (3 to 5 axes, slice axis
absent or spatial), get_multiplicity returns exactly the multiplicity
table of the data model for every classification valid for the shape,
and raises ValueError for every other classification. -/
theorem C1_multiplicity (s : Store) (h3 : 3 ≤ s.shape.length)
    (h6 : s.shape.length < 6)
    (hsd : ∀ d, s.slice_dim = some d → d < 3) :
    (∀ c ∈ validClassesOf s,
       s.get_multiplicity (some c) =
         .ok (multiplicityTable s.shape s.slice_dim c)) ∧
    (∀ c, c ∉ validClassesOf s →
       s.get_multiplicity (some c) =
         .error (.valueError "Invalid classification")) :=
  ⟨mult_table_of_valid s h3 h6 hsd, mult_invalid s h3 h6⟩

/-- C1, witness: the table instantiated on a concrete five-axis store
with a slice axis, for the global-slices classification, and the
ValueError for a classification invalid for a three-axis store. -/
theorem C1_witness :
    multOneStore.get_multiplicity (some (.glob, .slices)) =
      .ok (multiplicityTable multOneStore.shape multOneStore.slice_dim
            (.glob, .slices)) ∧
    multOneStore.get_multiplicity (some (.time, .samples)) =
      .error (.valueError "Invalid classification") :=
  ⟨(C1_multiplicity multOneStore (by decide) (by decide)
      (by intro d hd; cases hd; decide)).1 (.glob, .slices) (by decide),
   (C1_multiplicity multOneStore (by decide) (by decide)
      (by intro d hd; cases hd; decide)).2 (.time, .samples) (by decide)⟩

/-- The valid-classification list of any store takes one of five
forms. -/
theorem validClassesOf_cases (s : Store) :
    validClassesOf s = [] ∨
    validClassesOf s = [(.glob, .const), (.glob, .slices)] ∨
    validClassesOf s =
      [(.glob, .const), (.glob, .slices), (.time, .samples), (.time, .slices)] ∨
    validClassesOf s = classifications ∨
    validClassesOf s = fourClassList := by
  rcases hL : s.shape.length with _ | _ | _ | _ | _ | _ | n
  · left; simp [validClassesOf, Store.get_valid_classes, hL]
  · left; simp [validClassesOf, Store.get_valid_classes, hL]
  · left; simp [validClassesOf, Store.get_valid_classes, hL]
  · right; left
    simp [validClassesOf, Store.get_valid_classes, hL, classifications]
  · right; right; left
    simp [validClassesOf, Store.get_valid_classes, hL, classifications]
  · by_cases ht : s.shape.getD 3 0 = 1
    · right; right; right; right
      rw [validClassesOf_eq s _ (gvc_len5_one s hL ht)]
    · right; right; right; left
      rw [validClassesOf_eq s _ (gvc_len5_ne s hL ht)]
  · left; simp [validClassesOf, Store.get_valid_classes, hL]

/-- Every valid classification is one of the six canonical ones. -/
theorem validClassesOf_sub (s : Store) :
    ∀ c ∈ validClassesOf s, c ∈ classifications := by
  intro c hc
  rcases validClassesOf_cases s with h | h | h | h | h <;> rw [h] at hc
  · simp at hc
  · simp [classifications] at hc ⊢; tauto
  · simp [classifications] at hc ⊢; tauto
  · exact hc
  · simp [classifications, fourClassList] at hc ⊢; tauto

/-- A canonical classification with its base group allocated has its
content dictionary present. -/
theorem classDict_isSome_of_base (s : Store) (c : Cls)
    (hc : c ∈ classifications) (hb : s.baseInContent c.1 = true) :
    ∃ d, s.classDict? c = some d := by
  simp [classifications] at hc
  rcases hc with rfl | rfl | rfl | rfl | rfl | rfl
  · exact ⟨s.gConst, rfl⟩
  · exact ⟨s.gSlices, rfl⟩
  all_goals
    simp only [Store.baseInContent] at hb
  · rcases ht : s.time with _ | g
    · rw [ht] at hb; simp at hb
    · exact ⟨g.1, by simp [Store.classDict?, ht]⟩
  · rcases ht : s.time with _ | g
    · rw [ht] at hb; simp at hb
    · exact ⟨g.2, by simp [Store.classDict?, ht]⟩
  · rcases ht : s.vector with _ | g
    · rw [ht] at hb; simp at hb
    · exact ⟨g.1, by simp [Store.classDict?, ht]⟩
  · rcases ht : s.vector with _ | g
    · rw [ht] at hb; simp at hb
    · exact ⟨g.2, by simp [Store.classDict?, ht]⟩

/-- The per-key length check succeeds exactly when every value has the
required length (values assumed sized). -/
theorem checkLens_ok_iff (d : Dict) (m : Nat)
    (hsz : ∀ kv ∈ d, (pyLen kv.2).isSome = true) :
    (Store.checkLens d m = .ok () ↔ ∀ kv ∈ d, pyLen kv.2 = some m) := by
  induction d with
  | nil => simp [Store.checkLens]
  | cons kv rest ih =>
      rcases kv with ⟨k, v⟩
      have h1 := hsz (k, v) (by simp)
      rcases hp : pyLen v with _ | n
      · rw [hp] at h1; simp at h1
      · have ih2 := ih (fun kv hkv => hsz kv (by simp [hkv]))
        by_cases hn : n = m
        · subst hn
          simp [Store.checkLens, hp, ih2]
        · simp [Store.checkLens, hp, hn]

/-- The per-key length check only raises the invalid-extension error
(values assumed sized). -/
theorem checkLens_err (d : Dict) (m : Nat)
    (hsz : ∀ kv ∈ d, (pyLen kv.2).isSome = true) :
    ∀ e, Store.checkLens d m = .error e → ∃ msg, e = .invalidExt msg := by
  induction d with
  | nil => intro e he; simp [Store.checkLens] at he
  | cons kv rest ih =>
      rcases kv with ⟨k, v⟩
      have h1 := hsz (k, v) (by simp)
      rcases hp : pyLen v with _ | n
      · rw [hp] at h1; simp at h1
      · intro e he
        by_cases hn : n = m
        · subst hn
          simp [Store.checkLens, hp] at he
          exact ih (fun kv hkv => hsz kv (by simp [hkv])) e he
        · simp [Store.checkLens, hp, hn] at he
          exact ⟨_, he.symm⟩

/-- The per-classification pass of check_valid succeeds exactly when
every listed classification has its group allocated, an empty
dictionary at multiplicity zero, and right-length values at
multiplicity above one. -/
theorem checkClasses_ok_iff (s : Store) (h3 : 3 ≤ s.shape.length)
    (h6 : s.shape.length < 6) (hsd : ∀ d, s.slice_dim = some d → d < 3)
    (hsz : ValsSized s) :
    ∀ l, (∀ c ∈ l, c ∈ validClassesOf s) →
    (Store.checkClasses s l = .ok () ↔
      ∀ c ∈ l, s.baseInContent c.1 = true ∧
        ∀ d, s.classDict? c = some d →
          (s.get_multiplicity (some c) = .ok 0 → d = []) ∧
          (∀ m, s.get_multiplicity (some c) = .ok m → 1 < m →
             ∀ kv ∈ d, pyLen kv.2 = some m)) := by
  intro l
  induction l with
  | nil => simp [Store.checkClasses]
  | cons c rest ih =>
      intro hval
      have hc := hval c (by simp)
      have hmult := mult_table_of_valid s h3 h6 hsd c hc
      have ih2 := ih (fun c hc => hval c (by simp [hc]))
      by_cases hb : s.baseInContent c.1 = true
      · obtain ⟨d, hd⟩ :=
          classDict_isSome_of_base s c (validClassesOf_sub s c hc) hb
        have hstep : Store.checkClasses s (c :: rest) =
            (if multiplicityTable s.shape s.slice_dim c = 0 then
               if d = [] then Store.checkClasses s rest
               else .error (.invalidExt
                 "Slice dim is None but per-slice meta data is present")
             else if 1 < multiplicityTable s.shape s.slice_dim c then do
               Store.checkLens d (multiplicityTable s.shape s.slice_dim c)
               Store.checkClasses s rest
             else Store.checkClasses s rest) := by
          simp [Store.checkClasses, hb, Store.get_class_dict, hd, hmult,
            Bind.bind, Except.bind]
        rw [hstep]
        by_cases hm0 : multiplicityTable s.shape s.slice_dim c = 0
        · rw [if_pos hm0]
          by_cases hde : d = []
          · subst hde
            rw [if_pos rfl, ih2]
            constructor
            · intro h
              refine List.forall_mem_cons.mpr ⟨⟨hb, ?_⟩, h⟩
              intro d' hd'
              rw [hd] at hd'
              cases hd'
              exact ⟨fun _ => rfl, fun m hm hm1 kv hkv => by simp at hkv⟩
            · intro h
              exact (List.forall_mem_cons.mp h).2
          · rw [if_neg hde]
            constructor
            · intro h; cases h
            · intro h
              obtain ⟨⟨_, hdd⟩, _⟩ := List.forall_mem_cons.mp h
              exact absurd ((hdd d hd).1 (by rw [hmult, hm0])) hde
        · rw [if_neg hm0]
          by_cases hm1 : 1 < multiplicityTable s.shape s.slice_dim c
          · rw [if_pos hm1]
            have hszd : ∀ kv ∈ d, (pyLen kv.2).isSome = true :=
              hsz c hc d _ hd hmult hm1
            constructor
            · intro h
              rcases hlen : Store.checkLens d
                  (multiplicityTable s.shape s.slice_dim c) with e | u
              · simp [hlen, Bind.bind, Except.bind] at h
              · have hrest : Store.checkClasses s rest = .ok () := by
                  simpa [hlen, Bind.bind, Except.bind] using h
                refine List.forall_mem_cons.mpr ⟨⟨hb, ?_⟩, ih2.mp hrest⟩
                intro d' hd'
                rw [hd] at hd'
                cases hd'
                refine ⟨fun habs => ?_, fun m hm hm1x kv hkv => ?_⟩
                · rw [hmult] at habs
                  injection habs with h2
                  omega
                · rw [hmult] at hm
                  injection hm with h2
                  subst h2
                  exact (checkLens_ok_iff d _ hszd).mp hlen kv hkv
            · intro h
              obtain ⟨⟨_, hdd⟩, hrest⟩ := List.forall_mem_cons.mp h
              have hlen : Store.checkLens d
                  (multiplicityTable s.shape s.slice_dim c) = .ok () :=
                (checkLens_ok_iff d _ (hsz c hc d _ hd hmult hm1)).mpr
                  (fun kv hkv => (hdd d hd).2 _ hmult hm1 kv hkv)
              simp only [hlen, Bind.bind, Except.bind]
              exact ih2.mpr hrest
          · rw [if_neg hm1]
            rw [ih2]
            constructor
            · intro h
              refine List.forall_mem_cons.mpr ⟨⟨hb, ?_⟩, h⟩
              intro d' hd'
              rw [hd] at hd'
              cases hd'
              refine ⟨fun habs => ?_, fun m hm hm1x kv hkv => ?_⟩
              · rw [hmult] at habs; injection habs with h2; omega
              · rw [hmult] at hm; injection hm with h2; omega
            · intro h
              exact (List.forall_mem_cons.mp h).2
      · simp only [Bool.not_eq_true] at hb
        constructor
        · intro h
          exfalso
          rw [show Store.checkClasses s (c :: rest) =
              .error (.invalidExt "Missing required base classification") by
            simp [Store.checkClasses, hb]] at h
          cases h
        · intro h
          exact absurd (List.forall_mem_cons.mp h).1.1 (by simp [hb])

/-- The per-classification pass only raises the invalid-extension
error under the structural and sizing premises. -/
theorem checkClasses_err (s : Store) (h3 : 3 ≤ s.shape.length)
    (h6 : s.shape.length < 6) (hsd : ∀ d, s.slice_dim = some d → d < 3)
    (hsz : ValsSized s) :
    ∀ l, (∀ c ∈ l, c ∈ validClassesOf s) →
    ∀ e, Store.checkClasses s l = .error e → ∃ msg, e = .invalidExt msg := by
  intro l
  induction l with
  | nil => intro _ e he; simp [Store.checkClasses] at he
  | cons c rest ih =>
      intro hval e he
      have hc := hval c (by simp)
      have hmult := mult_table_of_valid s h3 h6 hsd c hc
      have ih2 := ih (fun c hc => hval c (by simp [hc]))
      by_cases hb : s.baseInContent c.1 = true
      · obtain ⟨d, hd⟩ :=
          classDict_isSome_of_base s c (validClassesOf_sub s c hc) hb
        rw [show Store.checkClasses s (c :: rest) =
            (if multiplicityTable s.shape s.slice_dim c = 0 then
               if d = [] then Store.checkClasses s rest
               else .error (.invalidExt
                 "Slice dim is None but per-slice meta data is present")
             else if 1 < multiplicityTable s.shape s.slice_dim c then do
               Store.checkLens d (multiplicityTable s.shape s.slice_dim c)
               Store.checkClasses s rest
             else Store.checkClasses s rest) by
          simp [Store.checkClasses, hb, Store.get_class_dict, hd, hmult,
            Bind.bind, Except.bind]] at he
        by_cases hm0 : multiplicityTable s.shape s.slice_dim c = 0
        · rw [if_pos hm0] at he
          by_cases hde : d = []
          · rw [if_pos hde] at he
            exact ih2 e he
          · rw [if_neg hde] at he
            cases he
            exact ⟨_, rfl⟩
        · rw [if_neg hm0] at he
          by_cases hm1 : 1 < multiplicityTable s.shape s.slice_dim c
          · rw [if_pos hm1] at he
            have hszd : ∀ kv ∈ d, (pyLen kv.2).isSome = true :=
              hsz c hc d _ hd hmult hm1
            rcases hlen : Store.checkLens d
                (multiplicityTable s.shape s.slice_dim c) with e' | u
            · simp only [hlen, Bind.bind, Except.bind] at he
              cases he
              exact checkLens_err d _ hszd _ hlen
            · simp only [hlen, Bind.bind, Except.bind] at he
              exact ih2 e he
          · rw [if_neg hm1] at he
            exact ih2 e he
      · simp only [Bool.not_eq_true] at hb
        rw [show Store.checkClasses s (c :: rest) =
            .error (.invalidExt "Missing required base classification") by
          simp [Store.checkClasses, hb]] at he
        cases he
        exact ⟨_, rfl⟩

/-- The inner loop of the uniqueness check succeeds exactly when no key
of the scanned dictionary occurs in any other present dictionary of the
list. -/
theorem checkUniqInner_ok_iff (s : Store) (c : Cls) (dc : Dict) :
    ∀ l : List Cls, (∀ oc ∈ l, (s.classDict? oc).isSome = true) →
    (Store.checkUniqInner s c dc l = .ok () ↔
      ∀ oc ∈ l, oc ≠ c → ∀ od, s.classDict? oc = some od →
        (dictKeys dc).any (fun k => dictContains od k) = false) := by
  intro l
  induction l with
  | nil => simp [Store.checkUniqInner]
  | cons oc rest ih =>
      intro hp
      have ih2 := ih (fun x hx => hp x (by simp [hx]))
      by_cases heq : oc = c
      · rw [show Store.checkUniqInner s c dc (oc :: rest) =
            Store.checkUniqInner s c dc rest by
          simp [Store.checkUniqInner, heq]]
        rw [ih2]
        constructor
        · intro h
          exact List.forall_mem_cons.mpr
            ⟨fun hne _ _ => absurd heq hne, h⟩
        · exact fun h => (List.forall_mem_cons.mp h).2
      · obtain ⟨od, hod⟩ := Option.isSome_iff_exists.mp (hp oc (by simp))
        by_cases hany :
            (dictKeys dc).any (fun k => dictContains od k) = true
        · rw [show Store.checkUniqInner s c dc (oc :: rest) =
              .error (.invalidExt
                "One or more keys have multiple classifications") by
            simp [Store.checkUniqInner, heq, Store.get_class_dict, hod,
              hany, Bind.bind, Except.bind]]
          constructor
          · intro h; cases h
          · intro h
            have hx := (List.forall_mem_cons.mp h).1 heq od hod
            rw [hany] at hx
            cases hx
        · rw [show Store.checkUniqInner s c dc (oc :: rest) =
              Store.checkUniqInner s c dc rest by
            simp [Store.checkUniqInner, heq, Store.get_class_dict, hod,
              hany, Bind.bind, Except.bind]]
          rw [ih2]
          constructor
          · intro h
            refine List.forall_mem_cons.mpr ⟨fun _ od' hod' => ?_, h⟩
            rw [hod] at hod'
            cases hod'
            exact Bool.not_eq_true _ |>.mp hany
          · exact fun h => (List.forall_mem_cons.mp h).2

/-- The inner loop of the uniqueness check only raises the
invalid-extension error when every listed dictionary is present. -/
theorem checkUniqInner_err (s : Store) (c : Cls) (dc : Dict) :
    ∀ l : List Cls, (∀ oc ∈ l, (s.classDict? oc).isSome = true) →
    ∀ e, Store.checkUniqInner s c dc l = .error e →
      ∃ msg, e = .invalidExt msg := by
  intro l
  induction l with
  | nil => intro _ e he; simp [Store.checkUniqInner] at he
  | cons oc rest ih =>
      intro hp e he
      have ih2 := ih (fun x hx => hp x (by simp [hx]))
      by_cases heq : oc = c
      · rw [show Store.checkUniqInner s c dc (oc :: rest) =
            Store.checkUniqInner s c dc rest by
          simp [Store.checkUniqInner, heq]] at he
        exact ih2 e he
      · obtain ⟨od, hod⟩ := Option.isSome_iff_exists.mp (hp oc (by simp))
        by_cases hany :
            (dictKeys dc).any (fun k => dictContains od k) = true
        · rw [show Store.checkUniqInner s c dc (oc :: rest) =
              .error (.invalidExt
                "One or more keys have multiple classifications") by
            simp [Store.checkUniqInner, heq, Store.get_class_dict, hod,
              hany, Bind.bind, Except.bind]] at he
          cases he
          exact ⟨_, rfl⟩
        · rw [show Store.checkUniqInner s c dc (oc :: rest) =
              Store.checkUniqInner s c dc rest by
            simp [Store.checkUniqInner, heq, Store.get_class_dict, hod,
              hany, Bind.bind, Except.bind]] at he
          exact ih2 e he

/-- The outer loop of the uniqueness check succeeds exactly when no key
of any scanned dictionary occurs in a different present dictionary. -/
theorem checkUniqOuter_ok_iff (s : Store) (all : List Cls)
    (hpa : ∀ oc ∈ all, (s.classDict? oc).isSome = true) :
    ∀ l : List Cls, (∀ c ∈ l, (s.classDict? c).isSome = true) →
    (Store.checkUniqOuter s all l = .ok () ↔
      ∀ c ∈ l, ∀ d, s.classDict? c = some d →
        ∀ oc ∈ all, oc ≠ c → ∀ od, s.classDict? oc = some od →
          (dictKeys d).any (fun k => dictContains od k) = false) := by
  intro l
  induction l with
  | nil => simp [Store.checkUniqOuter]
  | cons c rest ih =>
      intro hp
      have ih2 := ih (fun x hx => hp x (by simp [hx]))
      obtain ⟨d, hd⟩ := Option.isSome_iff_exists.mp (hp c (by simp))
      rcases hin : Store.checkUniqInner s c d all with e | u
      · rw [show Store.checkUniqOuter s all (c :: rest) = .error e by
          simp [Store.checkUniqOuter, Store.get_class_dict, hd, hin,
            Bind.bind, Except.bind]]
        constructor
        · intro h; cases h
        · intro h
          have hok : Store.checkUniqInner s c d all = .ok () :=
            (checkUniqInner_ok_iff s c d all hpa).mpr
              (fun oc hoc hne od hod =>
                (List.forall_mem_cons.mp h).1 d hd oc hoc hne od hod)
          rw [hin] at hok
          cases hok
      · rw [show Store.checkUniqOuter s all (c :: rest) =
            Store.checkUniqOuter s all rest by
          simp [Store.checkUniqOuter, Store.get_class_dict, hd, hin,
            Bind.bind, Except.bind]]
        rw [ih2]
        constructor
        · intro h
          refine List.forall_mem_cons.mpr ⟨fun d' hd' => ?_, h⟩
          rw [hd] at hd'
          cases hd'
          exact (checkUniqInner_ok_iff s c d all hpa).mp hin
        · exact fun h => (List.forall_mem_cons.mp h).2

/-- The outer loop of the uniqueness check only raises the
invalid-extension error when every dictionary is present. -/
theorem checkUniqOuter_err (s : Store) (all : List Cls)
    (hpa : ∀ oc ∈ all, (s.classDict? oc).isSome = true) :
    ∀ l : List Cls, (∀ c ∈ l, (s.classDict? c).isSome = true) →
    ∀ e, Store.checkUniqOuter s all l = .error e →
      ∃ msg, e = .invalidExt msg := by
  intro l
  induction l with
  | nil => intro _ e he; simp [Store.checkUniqOuter] at he
  | cons c rest ih =>
      intro hp e he
      have ih2 := ih (fun x hx => hp x (by simp [hx]))
      obtain ⟨d, hd⟩ := Option.isSome_iff_exists.mp (hp c (by simp))
      rcases hin : Store.checkUniqInner s c d all with e' | u
      · rw [show Store.checkUniqOuter s all (c :: rest) = .error e' by
          simp [Store.checkUniqOuter, Store.get_class_dict, hd, hin,
            Bind.bind, Except.bind]] at he
        cases he
        exact checkUniqInner_err s c d all hpa _ hin
      · rw [show Store.checkUniqOuter s all (c :: rest) =
            Store.checkUniqOuter s all rest by
          simp [Store.checkUniqOuter, Store.get_class_dict, hd, hin,
            Bind.bind, Except.bind]] at he
        exact ih2 e he

/-- Dictionary membership test agrees with membership in the key
list. -/
theorem dictContains_mem (d : Dict) (k : String) :
    dictContains d k = true ↔ k ∈ dictKeys d := by
  simp only [dictContains, dictKeys, List.find?_isSome, List.mem_map,
    beq_iff_eq]

/-- C5: for a store whose affine, slice dimension and shape pass the
structural checks and whose values are sized, check_valid succeeds
exactly when none of the following holds: a required classification
dictionary missing, a wrong-length value list at multiplicity above
one, a non-empty dictionary at multiplicity zero, or a key present in
two valid classifications; and every failure raises the
invalid-extension error.  (A wrong-length list at multiplicity exactly
one is NOT detected: the length check runs only above one.) -/
theorem C5_check_valid (s : Store)
    (haff : Store.affine4x4 s.affine = true)
    (hsd : ∀ d, s.slice_dim = some d → d < 3)
    (h3 : 3 ≤ s.shape.length) (h6 : s.shape.length < 6)
    (hsz : ValsSized s) :
    (Store.check_valid s = .ok () ↔
      ¬(CondMissingGroup s ∨ CondBadLen s ∨ CondSliceNonempty s ∨
        CondMultiClass s)) ∧
    (∀ e, Store.check_valid s = .error e → ∃ msg, e = .invalidExt msg) := by
  have hval : ∀ c ∈ validClassesOf s, c ∈ validClassesOf s := fun c hc => hc
  have hstep : Store.check_valid s = (do
      Store.checkClasses s (validClassesOf s)
      Store.checkUniqOuter s (validClassesOf s) (validClassesOf s)) := by
    rcases hsl : s.slice_dim with _ | d
    · simp [Store.check_valid, haff, hsl, h3, h6, gvc_ok s h3 h6,
        Bind.bind, Except.bind]
    · have hd3 := hsd d hsl
      simp [Store.check_valid, haff, hsl, hd3, h3, h6, gvc_ok s h3 h6,
        Bind.bind, Except.bind]
  have hcc := checkClasses_ok_iff s h3 h6 hsd hsz (validClassesOf s) hval
  have hccT : Store.checkClasses s (validClassesOf s) = .ok () ↔
      ¬(CondMissingGroup s ∨ CondBadLen s ∨ CondSliceNonempty s) := by
    rw [hcc]
    constructor
    · intro h hcond
      rcases hcond with ⟨c, hc, hb⟩ |
        ⟨c, hc, d, m, hd, hm, hm1, kv, hkv, hne⟩ | ⟨c, hc, d, hd, hm, hne⟩
      · rw [(h c hc).1] at hb; cases hb
      · exact hne (((h c hc).2 d hd).2 m hm hm1 kv hkv)
      · exact hne (((h c hc).2 d hd).1 hm)
    · intro h c hc
      constructor
      · cases hb : s.baseInContent c.1
        · exact absurd (Or.inl ⟨c, hc, hb⟩) h
        · rfl
      · intro d hd
        constructor
        · intro hm0
          by_contra hne
          exact h (Or.inr (Or.inr ⟨c, hc, d, hd, hm0, hne⟩))
        · intro m hm hm1 kv hkv
          by_contra hne
          exact h (Or.inr (Or.inl ⟨c, hc, d, m, hd, hm, hm1, kv, hkv, hne⟩))
  rcases hcase : Store.checkClasses s (validClassesOf s) with e | u
  · have hv : Store.check_valid s = .error e := by
      rw [hstep]
      simp [hcase, Bind.bind, Except.bind]
    refine ⟨?_, ?_⟩
    · rw [hv]
      constructor
      · intro h; cases h
      · intro h
        have hok : Store.checkClasses s (validClassesOf s) = .ok () :=
          hccT.mpr (fun hx => h (by tauto))
        rw [hcase] at hok
        cases hok
    · intro e' he'
      rw [hv] at he'
      cases he'
      exact checkClasses_err s h3 h6 hsd hsz (validClassesOf s) hval e hcase
  · cases u
    have hRc := hcc.mp hcase
    have hpres : ∀ c ∈ validClassesOf s, (s.classDict? c).isSome = true := by
      intro c hc
      obtain ⟨d, hd⟩ := classDict_isSome_of_base s c
        (validClassesOf_sub s c hc) (hRc c hc).1
      rw [hd]; rfl
    have hv2 : Store.check_valid s =
        Store.checkUniqOuter s (validClassesOf s) (validClassesOf s) := by
      rw [hstep]
      simp [hcase, Bind.bind, Except.bind]
    have huo := checkUniqOuter_ok_iff s (validClassesOf s) hpres
      (validClassesOf s) hpres
    have huoT : Store.checkUniqOuter s (validClassesOf s)
        (validClassesOf s) = .ok () ↔ ¬ CondMultiClass s := by
      rw [huo]
      constructor
      · intro h hcond
        rcases hcond with ⟨k, c1, hc1, c2, hc2, hne, hk1, hk2⟩
        obtain ⟨d1, hd1⟩ := Option.isSome_iff_exists.mp (hpres c1 hc1)
        obtain ⟨d2, hd2⟩ := Option.isSome_iff_exists.mp (hpres c2 hc2)
        have hcon1 : dictContains d1 k = true := by
          simp only [inClass, hd1] at hk1; exact hk1
        have hcon2 : dictContains d2 k = true := by
          simp only [inClass, hd2] at hk2; exact hk2
        have hfalse := h c1 hc1 d1 hd1 c2 hc2 (Ne.symm hne) d2 hd2
        have hany : (dictKeys d1).any (fun k => dictContains d2 k) = true := by
          rw [List.any_eq_true]
          exact ⟨k, (dictContains_mem d1 k).mp hcon1, hcon2⟩
        rw [hfalse] at hany
        cases hany
      · intro h c hc d hd oc hoc hne od hod
        by_contra hany
        rw [Bool.not_eq_false, List.any_eq_true] at hany
        obtain ⟨k, hk, hck⟩ := hany
        exact h ⟨k, c, hc, oc, hoc, Ne.symm hne,
          by simp only [inClass, hd]; exact (dictContains_mem d k).mpr hk,
          by simp only [inClass, hod]; exact hck⟩
    rcases hcase2 : Store.checkUniqOuter s (validClassesOf s)
        (validClassesOf s) with e | u2
    · refine ⟨?_, ?_⟩
      · rw [hv2, hcase2]
        constructor
        · intro h; cases h
        · intro h
          have hok := huoT.mpr (fun hx => h (by tauto))
          rw [hcase2] at hok
          cases hok
      · intro e' he'
        rw [hv2, hcase2] at he'
        cases he'
        exact checkUniqOuter_err s (validClassesOf s) hpres
          (validClassesOf s) hpres e hcase2
    · cases u2
      refine ⟨?_, ?_⟩
      · rw [hv2, hcase2]
        have h1 := hccT.mp hcase
        have h2 := huoT.mp hcase2
        constructor
        · intro _
          rintro (h | h | h | h)
          · exact h1 (Or.inl h)
          · exact h1 (Or.inr (Or.inl h))
          · exact h1 (Or.inr (Or.inr h))
          · exact h2 h
        · intro _; rfl
      · intro e' he'
        rw [hv2, hcase2] at he'
        cases he'

/-- A successful check_valid implies the structural facts: 4-by-4
affine, spatial slice dimension, three to five axes. -/
theorem check_valid_structural (s : Store)
    (hv : Store.check_valid s = .ok ()) :
    Store.affine4x4 s.affine = true ∧
    (∀ d, s.slice_dim = some d → d < 3) ∧
    3 ≤ s.shape.length ∧ s.shape.length < 6 := by
  rw [Store.check_valid] at hv
  by_cases haff : Store.affine4x4 s.affine = true
  · refine ⟨haff, ?_, ?_⟩
    · intro d hd
      by_contra hd3
      rw [show (if ¬ Store.affine4x4 s.affine = true then
            (.error (.invalidExt "Affine has incorrect shape") :
              Except PyErr Unit)
          else _) = _ from if_neg (by simp [haff])] at hv
      simp only [hd, hd3] at hv
      simp [Bind.bind, Except.bind] at hv
    · by_contra hsh
      rw [show (if ¬ Store.affine4x4 s.affine = true then
            (.error (.invalidExt "Affine has incorrect shape") :
              Except PyErr Unit)
          else _) = _ from if_neg (by simp [haff])] at hv
      rcases hd : s.slice_dim with _ | d
      · simp only [hd] at hv
        simp [Bind.bind, Except.bind, hsh] at hv
      · simp only [hd] at hv
        by_cases hd3 : d < 3
        · simp [Bind.bind, Except.bind, hd3, hsh] at hv
        · simp [Bind.bind, Except.bind, hd3] at hv
  · rw [if_pos (by simp [haff])] at hv
    cases hv

/-- A successful per-classification pass implies every listed base
group and dictionary is present. -/
theorem checkClasses_ok_presence (s : Store) :
    ∀ l, Store.checkClasses s l = .ok () →
      (∀ c ∈ l, s.baseInContent c.1 = true) ∧
      (∀ c ∈ l, (s.classDict? c).isSome = true) := by
  intro l
  induction l with
  | nil => intro _; exact ⟨by simp, by simp⟩
  | cons c rest ih =>
      intro h
      by_cases hb : s.baseInContent c.1 = true
      · rcases hcd : s.classDict? c with _ | d
        · rw [show Store.checkClasses s (c :: rest) = .error .keyError by
            simp [Store.checkClasses, hb, Store.get_class_dict, hcd,
              Bind.bind, Except.bind]] at h
          cases h
        · have hrest : Store.checkClasses s rest = .ok () := by
            rcases hm : s.get_multiplicity (some c) with e | m
            · rw [show Store.checkClasses s (c :: rest) = .error e by
                simp [Store.checkClasses, hb, Store.get_class_dict, hcd,
                  hm, Bind.bind, Except.bind]] at h
              cases h
            · rw [show Store.checkClasses s (c :: rest) =
                  (if m = 0 then
                    if d = [] then Store.checkClasses s rest
                    else .error (.invalidExt
                      "Slice dim is None but per-slice meta data is present")
                  else if 1 < m then do
                    Store.checkLens d m
                    Store.checkClasses s rest
                  else Store.checkClasses s rest) by
                simp [Store.checkClasses, hb, Store.get_class_dict, hcd,
                  hm, Bind.bind, Except.bind]] at h
              by_cases hm0 : m = 0
              · rw [if_pos hm0] at h
                by_cases hde : d = []
                · rwa [if_pos hde] at h
                · rw [if_neg hde] at h
                  cases h
              · rw [if_neg hm0] at h
                by_cases hm1 : 1 < m
                · rw [if_pos hm1] at h
                  rcases hlen : Store.checkLens d m with e | u
                  · simp [hlen, Bind.bind, Except.bind] at h
                  · simpa [hlen, Bind.bind, Except.bind] using h
                · rwa [if_neg hm1] at h
          have hih := ih hrest
          refine ⟨List.forall_mem_cons.mpr ⟨hb, hih.1⟩,
            List.forall_mem_cons.mpr ⟨by rw [hcd]; rfl, hih.2⟩⟩
      · rw [show Store.checkClasses s (c :: rest) =
            .error (.invalidExt "Missing required base classification") by
          simp [Store.checkClasses, hb]] at h
        cases h

/-- A successful check_valid passes the per-classification checks, so
every valid classification dictionary is present. -/
theorem check_valid_presence (s : Store)
    (hv : Store.check_valid s = .ok ()) :
    ∀ c ∈ validClassesOf s, (s.classDict? c).isSome = true := by
  obtain ⟨haff, hsd, h3, h6⟩ := check_valid_structural s hv
  have hstep : Store.check_valid s = (do
      Store.checkClasses s (validClassesOf s)
      Store.checkUniqOuter s (validClassesOf s) (validClassesOf s)) := by
    rcases hsl : s.slice_dim with _ | d
    · simp [Store.check_valid, haff, hsl, h3, h6, gvc_ok s h3 h6,
        Bind.bind, Except.bind]
    · have hd3 := hsd d hsl
      simp [Store.check_valid, haff, hsl, hd3, h3, h6, gvc_ok s h3 h6,
        Bind.bind, Except.bind]
  rw [hstep] at hv
  rcases hcase : Store.checkClasses s (validClassesOf s) with e | u
  · rw [hcase] at hv
    simp [Bind.bind, Except.bind] at hv
  · cases u
    exact (checkClasses_ok_presence s _ hcase).2

/-- numpy closeness of a fraction to itself. -/
theorem ratClose_refl (a : Frac) : ratClose a a = true := by
  simp only [ratClose, Frac.sub, Frac.abs, Frac.add, Frac.mul, Frac.fle,
    decide_eq_true_eq]
  have h1 : a.num * (a.den : Int) - a.num * (a.den : Int) = 0 := by ring
  rw [h1]
  simp only [Int.natAbs_zero, Int.natCast_zero, zero_mul]
  positivity

/-- A pointwise-true test holds over the self zip of a list. -/
theorem zipSelf_all {α : Type} (l : List α) (f : α × α → Bool)
    (h : ∀ x ∈ l, f (x, x) = true) : (l.zip l).all f = true := by
  induction l with
  | nil => rfl
  | cons x xs ih =>
      simpa [h x (by simp)] using ih (fun y hy => h y (by simp [hy]))

/-- numpy closeness of a vector to itself. -/
theorem listClose_refl (v : List Frac) : listClose v v = true := by
  rw [listClose, zipSelf_all v _ (fun x _ => ratClose_refl x)]
  simp

/-- numpy closeness of a matrix to itself. -/
theorem allcloseMatE_refl (m : List (List Frac)) :
    allcloseMatE m m = .ok true := by
  rw [allcloseMatE, if_pos]
  · rw [zipSelf_all m _ (fun row _ => listClose_refl row)]
  · exact ⟨rfl, zipSelf_all m _ (fun row _ => by simp)⟩

/-- In a duplicate-free dictionary, lookup of any stored pair's key
returns that pair's value. -/
theorem dictGet_self (d : Dict) (h : (dictKeys d).Nodup) :
    ∀ p ∈ d, dictGet? d p.1 = some p.2 := by
  induction d with
  | nil => simp
  | cons q rest ih =>
      intro p hp
      have hcons : (q.1 :: dictKeys rest).Nodup := by
        simpa [dictKeys] using h
      rcases List.mem_cons.mp hp with rfl | hp2
      · simp [dictGet?]
      · have hne : (q.1 == p.1) = false := by
          rw [beq_eq_false_iff_ne]
          intro he
          have hk : p.1 ∈ dictKeys rest := List.mem_map.mpr ⟨p, hp2, rfl⟩
          rw [← he] at hk
          exact (List.nodup_cons.mp hcons).1 hk
        have hrest : (dictKeys rest).Nodup := (List.nodup_cons.mp hcons).2
        simpa [dictGet?, List.find?, hne] using ih hrest p hp2

/-- A duplicate-free dictionary is Python-equal to itself. -/
theorem dictPyEq_refl (d : Dict) (h : (dictKeys d).Nodup) :
    dictPyEq d d = true := by
  simp only [dictPyEq, beq_self_eq_true, Bool.true_and, List.all_eq_true]
  intro p hp
  simp [dictGet_self d h p hp]

/-- The classwise dictionary comparison of a duplicate-free store with
itself succeeds over present classifications. -/
theorem store_eq_classes_refl (a : Store) (hwf : StoreWF a) :
    ∀ l, (∀ c ∈ l, (a.classDict? c).isSome = true) →
    store_eq_classes_go a a l = .ok true := by
  intro l
  induction l with
  | nil => intro _; rfl
  | cons c rest ih =>
      intro hp
      obtain ⟨d, hd⟩ := Option.isSome_iff_exists.mp (hp c (by simp))
      have hnd : (dictKeys d).Nodup := by
        have := hwf c
        rw [hd] at this
        exact this
      rw [show store_eq_classes_go a a (c :: rest) =
          store_eq_classes_go a a rest by
        simp [store_eq_classes_go, Store.get_class_dict, hd,
          dictPyEq_refl d hnd, Bind.bind, Except.bind]]
      exact ih (fun x hx => hp x (by simp [hx]))

mutual

/-- Decoding inverts encoding on Python values. -/
theorem jsonToPy_pyToJson : ∀ v : PyVal, jsonToPy (pyToJson v) = .ok v
  | .none => rfl
  | .int n => by simp [pyToJson, jsonToPy, Frac.ofInt]
  | .str s => rfl
  | .list l => by
      simp [pyToJson, jsonToPy, jsonListToPy_pyListToJson l, Bind.bind,
        Except.bind]

/-- Decoding inverts encoding on lists of Python values. -/
theorem jsonListToPy_pyListToJson :
    ∀ l : List PyVal, jsonListToPy (pyListToJson l) = .ok l
  | [] => rfl
  | x :: xs => by
      simp [pyListToJson, jsonListToPy, jsonToPy_pyToJson x,
        jsonListToPy_pyListToJson xs, Bind.bind, Except.bind]

end

/-- Decoding inverts encoding on meta data dictionaries. -/
theorem jsonToDict_dictToJson (d : Dict) :
    jsonToDict (dictToJson d) = .ok d := by
  induction d with
  | nil => rfl
  | cons p rest ih =>
      simp only [dictToJson] at ih
      simp [dictToJson, jsonToDict, jsonToPy_pyToJson p.2, ih,
        Bind.bind, Except.bind]

/-- Decoding inverts encoding on affine rows, with an accumulator. -/
theorem parseRow_loop (row : List Frac) :
    ∀ acc, List.mapM.loop parseQ (row.map Json.num) acc =
      .ok (acc.reverse ++ row) := by
  induction row with
  | nil => intro acc; simp [List.mapM.loop, Pure.pure, Except.pure]
  | cons q rest ih =>
      intro acc
      simp [List.mapM.loop, parseQ, ih, Bind.bind, Except.bind]

/-- Decoding inverts encoding on affine rows. -/
theorem parseRow_inv (row : List Frac) :
    parseRow (.arr (row.map Json.num)) = .ok row := by
  simpa [parseRow, List.mapM] using parseRow_loop row []

/-- Decoding inverts encoding on affine matrices, with an
accumulator. -/
theorem parseMat_loop (m : List (List Frac)) :
    ∀ acc, List.mapM.loop parseRow
        (m.map (fun row => .arr (row.map Json.num))) acc =
      .ok (acc.reverse ++ m) := by
  induction m with
  | nil => intro acc; simp [List.mapM.loop, Pure.pure, Except.pure]
  | cons row rest ih =>
      intro acc
      simp [List.mapM.loop, parseRow_inv row, ih, Bind.bind, Except.bind]

/-- Decoding inverts encoding on affine matrices. -/
theorem parseMat_inv (m : List (List Frac)) :
    parseMat (.arr (m.map (fun row => .arr (row.map Json.num)))) =
      .ok m := by
  simpa [parseMat, List.mapM] using parseMat_loop m []

/-- Decoding inverts encoding on natural numbers. -/
theorem parseNat_inv (n : Nat) :
    parseNat (.num (Frac.ofInt (n : Int))) = .ok n := by
  simp [parseNat, Frac.ofInt]

/-- Decoding inverts encoding on shapes, with an accumulator. -/
theorem parseShape_loop (sh : List Nat) :
    ∀ acc, List.mapM.loop parseNat
        (sh.map (fun n : Nat => .num (Frac.ofInt (n : Int)))) acc =
      .ok (acc.reverse ++ sh) := by
  induction sh with
  | nil => intro acc; simp [List.mapM.loop, Pure.pure, Except.pure]
  | cons n rest ih =>
      intro acc
      simp [List.mapM.loop, parseNat_inv n, ih, Bind.bind, Except.bind]

/-- Decoding inverts encoding on shapes. -/
theorem parseShape_inv (sh : List Nat) :
    parseShape
        (.arr (sh.map (fun n : Nat => .num (Frac.ofInt (n : Int))))) =
      .ok sh := by
  simpa [parseShape, List.mapM] using parseShape_loop sh []

/-- Decoding inverts encoding on whole stores. -/
theorem parseStore_encode (s : Store) :
    parseStore (encodeStore s) = .ok s := by
  obtain ⟨aff, sd?, sh, ver, gc, gs, t, vec⟩ := s
  rcases t with _ | gt <;> rcases vec with _ | gv <;> rcases sd? with _ | sd <;>
    simp [encodeStore, parseStore, jlookup, parseMat_inv, parseShape_inv,
      parseQ, parseSliceDim, parseNat_inv, parseDict, jsonToDict_dictToJson,
      parseGroup, Bind.bind, Except.bind, Pure.pure, Except.pure]

/-- C3: for every store with duplicate-free dictionaries that passes
check_valid, to_json encodes it as the canonical document, from_json
decodes that document back to the very same store, and the source
equality comparison (affine within numpy tolerance, everything else
exact) accepts the result. -/
theorem C3_round_trip (s : Store) (hwf : StoreWF s)
    (hv : Store.check_valid s = .ok ()) :
    to_json s = .ok (encodeStore s) ∧
    from_json (encodeStore s) = .ok s ∧
    store_eq s s = .ok true := by
  obtain ⟨haff, hsd, h3, h6⟩ := check_valid_structural s hv
  have hpres := check_valid_presence s hv
  refine ⟨?_, ?_, ?_⟩
  · simp [to_json, hv, Bind.bind, Except.bind]
  · simp [from_json, parseStore_encode s, hv, Bind.bind, Except.bind]
  · have hmat := allcloseMatE_refl s.affine
    have hgo := store_eq_classes_refl s hwf (validClassesOf s) hpres
    simp [store_eq, hmat, gvc_ok s h3 h6, hgo, Bind.bind, Except.bind]

/-- Witness: C3 applied to the empty three-dimensional store. -/
theorem C3_witness :
    to_json emptyThreeStore = .ok (encodeStore emptyThreeStore) ∧
    from_json (encodeStore emptyThreeStore) = .ok emptyThreeStore ∧
    store_eq emptyThreeStore emptyThreeStore = .ok true :=
  C3_round_trip emptyThreeStore
    (by
      intro c
      rcases c with ⟨b, sub⟩
      rcases b <;> rcases sub <;>
        simp [Store.classDict?, emptyThreeStore, dictKeys])
    (by decide)

/-- Setting a key makes lookup of that key return the new value. -/
theorem dictGet_set_self (d : Dict) (k : String) (v : PyVal) :
    dictGet? (dictSet d k v) k = some v := by
  induction d with
  | nil => simp [dictGet?, dictSet, List.find?]
  | cons p rest ih =>
      by_cases h : p.1 = k
      · rcases p with ⟨k', v'⟩
        simp only at h
        simp [dictSet, h, dictGet?, List.find?]
      · rcases p with ⟨k', v'⟩
        simp only at h
        simp only [dictSet, if_neg h, dictGet?, List.find?,
          beq_eq_false_iff_ne.mpr h]
        exact ih

/-- Setting one key leaves lookup of a different key unchanged. -/
theorem dictGet_set_ne (d : Dict) (k k' : String) (v : PyVal)
    (h : k ≠ k') : dictGet? (dictSet d k' v) k = dictGet? d k := by
  induction d with
  | nil =>
      simp [dictGet?, dictSet, List.find?,
        beq_eq_false_iff_ne.mpr (Ne.symm h)]
  | cons p rest ih =>
      rcases p with ⟨k₀, v₀⟩
      by_cases h0 : k₀ = k'
      · simp only [dictSet, if_pos h0, dictGet?, List.find?,
          beq_eq_false_iff_ne.mpr (Ne.symm h), h0]
      · simp only [dictSet, if_neg h0, dictGet?, List.find?]
        rcases hbe : (k₀ == k) with _ | _
        · simpa [dictGet?] using ih
        · rfl

/-- Lookup skips a head with a different key. -/
theorem dictGet_cons_ne (p : String × PyVal) (l : Dict) (k : String)
    (h : (p.1 == k) = false) : dictGet? (p :: l) k = dictGet? l k := by
  simp [dictGet?, List.find?, h]

/-- Lookup stops at a head with the matching key. -/
theorem dictGet_cons_eq (p : String × PyVal) (l : Dict) (k : String)
    (h : (p.1 == k) = true) : dictGet? (p :: l) k = some p.2 := by
  simp [dictGet?, List.find?, h]

/-- A successful lookup implies membership. -/
theorem dictContains_of_get (d : Dict) (k : String) (x : PyVal)
    (h : dictGet? d k = some x) : dictContains d k = true := by
  simp only [dictGet?] at h
  rcases hf : List.find? (fun p => p.1 == k) d with _ | p
  · rw [hf] at h; cases h
  · simp [dictContains, hf]

/-- Deleting a key makes lookup of that key return nothing. -/
theorem dictGet_erase_self (d : Dict) (k : String) :
    dictGet? (dictErase d k) k = Option.none := by
  induction d with
  | nil => rfl
  | cons p rest ih =>
      rw [dictErase, List.filter_cons]
      by_cases h : p.1 = k
      · rw [if_neg (by simp [h])]
        exact ih
      · rw [if_pos (by simp [h])]
        rw [dictGet_cons_ne p _ k (beq_eq_false_iff_ne.mpr h)]
        exact ih

/-- Deleting one key leaves lookup of a different key unchanged. -/
theorem dictGet_erase_ne (d : Dict) (k k' : String) (h : k ≠ k') :
    dictGet? (dictErase d k') k = dictGet? d k := by
  induction d with
  | nil => rfl
  | cons p rest ih =>
      rw [dictErase, List.filter_cons]
      by_cases h0 : p.1 = k'
      · rw [if_neg (by simp [h0])]
        rw [dictGet_cons_ne p rest k
          (beq_eq_false_iff_ne.mpr (by rw [h0]; exact Ne.symm h))]
        exact ih
      · rw [if_pos (by simp [h0])]
        rcases hbe : (p.1 == k) with _ | _
        · rw [dictGet_cons_ne p _ k hbe, dictGet_cons_ne p rest k hbe]
          exact ih
        · rw [dictGet_cons_eq p _ k hbe, dictGet_cons_eq p rest k hbe]

/-- The fuel-driven strided take of the empty list is empty. -/
theorem takeEveryF_nil {α : Type} (fuel n : Nat) :
    takeEveryF fuel n ([] : List α) = [] := by
  cases fuel <;> rfl

/-- A strided take whose stride reaches past the list keeps only the
head. -/
theorem takeEvery_singleton {α : Type} (x : α) (xs : List α) (n : Nat)
    (h : xs.length ≤ n - 1) : takeEvery n (x :: xs) = [x] := by
  show takeEveryF (xs.length + 1) n (x :: xs) = [x]
  rw [show takeEveryF (xs.length + 1) n (x :: xs) =
      x :: takeEveryF xs.length n (xs.drop (n - 1)) from rfl]
  rw [List.drop_eq_nil_of_le h, takeEveryF_nil]

/-- Field changes of withClassDict: shape and slice dimension are
untouched, and the global constants only through their own
classification. -/
theorem withClassDict_frame (s : Store) (c : Cls) (d : Dict) :
    (s.withClassDict c d).shape = s.shape ∧
    (s.withClassDict c d).slice_dim = s.slice_dim ∧
    (c ≠ (.glob, .const) → (s.withClassDict c d).gConst = s.gConst) := by
  rcases c with ⟨b, sub⟩
  rcases b <;> rcases sub <;> simp [Store.withClassDict]

/-- A successful class-dictionary assignment is a withClassDict of a
dictSet. -/
theorem setItemE_eq (s : Store) (c : Cls) (k' : String) (v : PyVal)
    (s' : Store) (h : s.setItemE c k' v = .ok s') :
    ∃ d, s.classDict? c = some d ∧
      s' = s.withClassDict c (dictSet d k' v) := by
  rw [Store.setItemE, Store.get_class_dict] at h
  rcases hcd : s.classDict? c with _ | d
  · rw [hcd] at h
    simp [Bind.bind, Except.bind] at h
  · rw [hcd] at h
    simp only [Bind.bind, Except.bind, Except.ok.injEq] at h
    exact ⟨d, rfl, h.symm⟩

/-- A successful class-dictionary deletion is a withClassDict of a
dictErase. -/
theorem delItemE_eq (s : Store) (c : Cls) (k' : String)
    (s' : Store) (h : s.delItemE c k' = .ok s') :
    ∃ d, s.classDict? c = some d ∧ dictContains d k' = true ∧
      s' = s.withClassDict c (dictErase d k') := by
  rw [Store.delItemE, Store.get_class_dict] at h
  rcases hcd : s.classDict? c with _ | d
  · rw [hcd] at h
    simp [Bind.bind, Except.bind] at h
  · rw [hcd] at h
    simp only [Bind.bind, Except.bind] at h
    by_cases hcon : dictContains d k' = true
    · rw [if_pos hcon] at h
      cases h
      exact ⟨d, rfl, hcon, rfl⟩
    · rw [if_neg hcon] at h
      cases h

/-- A class-dictionary assignment leaves the shape, the slice dimension
and the global constants at other keys unchanged. -/
theorem setItemE_frame (s : Store) (c : Cls) (k' : String) (v : PyVal)
    (s' : Store) (h : s.setItemE c k' v = .ok s') :
    s'.shape = s.shape ∧ s'.slice_dim = s.slice_dim ∧
    ∀ k, k ≠ k' → dictGet? s'.gConst k = dictGet? s.gConst k := by
  obtain ⟨d, hd, rfl⟩ := setItemE_eq s c k' v s' h
  obtain ⟨h1, h2, h3⟩ := withClassDict_frame s c (dictSet d k' v)
  refine ⟨h1, h2, ?_⟩
  intro k hk
  by_cases hc : c = (.glob, .const)
  · subst hc
    rw [show s.classDict? (.glob, .const) = some s.gConst from rfl] at hd
    injection hd with hd
    subst hd
    show dictGet? (dictSet s.gConst k' v) k = dictGet? s.gConst k
    exact dictGet_set_ne s.gConst k k' v hk
  · rw [h3 hc]

/-- A class-dictionary deletion leaves the shape, the slice dimension
and the global constants at other keys unchanged. -/
theorem delItemE_frame (s : Store) (c : Cls) (k' : String)
    (s' : Store) (h : s.delItemE c k' = .ok s') :
    s'.shape = s.shape ∧ s'.slice_dim = s.slice_dim ∧
    ∀ k, k ≠ k' → dictGet? s'.gConst k = dictGet? s.gConst k := by
  obtain ⟨d, hd, _, rfl⟩ := delItemE_eq s c k' s' h
  obtain ⟨h1, h2, h3⟩ := withClassDict_frame s c (dictErase d k')
  refine ⟨h1, h2, ?_⟩
  intro k hk
  by_cases hc : c = (.glob, .const)
  · subst hc
    rw [show s.classDict? (.glob, .const) = some s.gConst from rfl] at hd
    injection hd with hd
    subst hd
    show dictGet? (dictErase s.gConst k') k = dictGet? s.gConst k
    exact dictGet_erase_ne s.gConst k k' hk
  · rw [h3 hc]

/-- The constant-candidate loop of simplify only writes at its own key:
shape, slice dimension and other global constants are untouched. -/
theorem simplifyConstLoop_frame (a : Store) (k' : String) (curr : Cls)
    (values : PyVal) :
    ∀ l s₁, simplifyConstLoop a k' curr values l = .ok (some s₁) →
      s₁.shape = a.shape ∧ s₁.slice_dim = a.slice_dim ∧
      ∀ k, k ≠ k' → dictGet? s₁.gConst k = dictGet? a.gConst k := by
  intro l
  induction l with
  | nil => intro s₁ h; simp [simplifyConstLoop] at h
  | cons d rest ih =>
      intro s₁ h
      by_cases hb : a.baseInContent d.1 = true
      · rcases hp : get_const_period a curr d with e | period
        · rw [show simplifyConstLoop a k' curr values (d :: rest) =
              .error e by
            simp [simplifyConstLoop, hb, hp, Bind.bind, Except.bind]] at h
          cases h
        · rcases hc : is_constant values period with e | b
          · rw [show simplifyConstLoop a k' curr values (d :: rest) =
                .error e by
              simp [simplifyConstLoop, hb, hp, hc, Bind.bind,
                Except.bind]] at h
            cases h
          · rcases b with _ | _
            · rw [show simplifyConstLoop a k' curr values (d :: rest) =
                  simplifyConstLoop a k' curr values rest by
                simp [simplifyConstLoop, hb, hp, hc, Bind.bind,
                  Except.bind]] at h
              exact ih s₁ h
            · rcases hsv : pySliceStep values period with e | sv
              · rw [show simplifyConstLoop a k' curr values (d :: rest) =
                    .error e by
                  simp [simplifyConstLoop, hb, hp, hc, hsv, Bind.bind,
                    Except.bind]] at h
                cases h
              · rcases hset : a.setItemE d k' sv with e | s₂
                · rw [show simplifyConstLoop a k' curr values (d :: rest) =
                      .error e by
                    simp [simplifyConstLoop, hb, hp, hc, hsv, hset,
                      Bind.bind, Except.bind]] at h
                  cases h
                · rw [show simplifyConstLoop a k' curr values (d :: rest) =
                      .ok (some s₂) by
                    simp [simplifyConstLoop, hb, hp, hc, hsv, hset,
                      Bind.bind, Except.bind]] at h
                  cases h
                  exact setItemE_frame a d k' sv _ hset
      · rw [show simplifyConstLoop a k' curr values (d :: rest) =
            simplifyConstLoop a k' curr values rest by
          simp [simplifyConstLoop, hb]] at h
        exact ih s₁ h

/-- The repeat-candidate loop of simplify only writes at its own key. -/
theorem simplifyRepeatLoop_frame (a : Store) (k' : String)
    (values : PyVal) :
    ∀ l s₁, simplifyRepeatLoop a k' values l = .ok (some s₁) →
      s₁.shape = a.shape ∧ s₁.slice_dim = a.slice_dim ∧
      ∀ k, k ≠ k' → dictGet? s₁.gConst k = dictGet? a.gConst k := by
  intro l
  induction l with
  | nil => intro s₁ h; simp [simplifyRepeatLoop] at h
  | cons d rest ih =>
      intro s₁ h
      by_cases hb : a.baseInContent d.1 = true
      · rcases hm : a.get_multiplicity (some d) with e | dm
        · rw [show simplifyRepeatLoop a k' values (d :: rest) =
              .error e by
            simp [simplifyRepeatLoop, hb, hm, Bind.bind, Except.bind]] at h
          cases h
        · rcases hc : is_repeating values dm with e | b
          · rw [show simplifyRepeatLoop a k' values (d :: rest) =
                .error e by
              simp [simplifyRepeatLoop, hb, hm, hc, Bind.bind,
                Except.bind]] at h
            cases h
          · rcases b with _ | _
            · rw [show simplifyRepeatLoop a k' values (d :: rest) =
                  simplifyRepeatLoop a k' values rest by
                simp [simplifyRepeatLoop, hb, hm, hc, Bind.bind,
                  Except.bind]] at h
              exact ih s₁ h
            · rcases htv : pyTake values dm with e | tv
              · rw [show simplifyRepeatLoop a k' values (d :: rest) =
                    .error e by
                  simp [simplifyRepeatLoop, hb, hm, hc, htv, Bind.bind,
                    Except.bind]] at h
                cases h
              · rcases hset : a.setItemE d k' tv with e | s₂
                · rw [show simplifyRepeatLoop a k' values (d :: rest) =
                      .error e by
                    simp [simplifyRepeatLoop, hb, hm, hc, htv, hset,
                      Bind.bind, Except.bind]] at h
                  cases h
                · rw [show simplifyRepeatLoop a k' values (d :: rest) =
                      .ok (some s₂) by
                    simp [simplifyRepeatLoop, hb, hm, hc, htv, hset,
                      Bind.bind, Except.bind]] at h
                  cases h
                  exact setItemE_frame a d k' tv _ hset
      · rw [show simplifyRepeatLoop a k' values (d :: rest) =
            simplifyRepeatLoop a k' values rest by
          simp [simplifyRepeatLoop, hb]] at h
        exact ih s₁ h

/-- simplify only writes at its own key: the shape, the slice dimension
and the global constants at other keys are untouched. -/
theorem simplify_frame (a : Store) (k' : String) (p : Bool × Store)
    (h : simplify a k' = .ok p) :
    p.2.shape = a.shape ∧ p.2.slice_dim = a.slice_dim ∧
    ∀ k, k ≠ k' → dictGet? p.2.gConst k = dictGet? a.gConst k := by
  rw [simplify] at h
  rcases hvc : a.get_values_and_class k' with e | vc
  · rw [hvc] at h
    simp [Bind.bind, Except.bind] at h
  · rw [hvc] at h
    simp only [Bind.bind, Except.bind] at h
    rcases hm : a.get_multiplicity vc.2 with e | m
    · simp only [hm] at h
      cases h
    · simp only [hm] at h
      by_cases h1 : vc.2 = some (.glob, .const)
      · rw [if_pos h1] at h
        by_cases h2 : vc.1 = .none
        · rw [if_pos h2] at h
          rcases hdel : a.delItemE (.glob, .const) k' with e | s₁
          · simp only [hdel] at h
            cases h
          · simp only [hdel, Except.ok.injEq] at h
            rw [← h]
            exact delItemE_frame a (.glob, .const) k' s₁ hdel
        · rw [if_neg h2] at h
          simp only [Except.ok.injEq] at h
          rw [← h]
          exact ⟨rfl, rfl, fun k _ => rfl⟩
      · rw [if_neg h1] at h
        rcases hc2 : vc.2 with _ | curr
        · simp only [hc2] at h
          cases h
        · simp only [hc2] at h
          rcases hloop : simplifyConstLoop a k' curr vc.1
              (const_tests curr) with e | r
          · simp only [hloop] at h
            cases h
          · simp only [hloop] at h
            rcases r with _ | s₁
            · rcases hrt : repeat_tests? curr with _ | rl
              · simp only [hrt, Except.ok.injEq] at h
                rw [← h]
                exact ⟨rfl, rfl, fun k _ => rfl⟩
              · simp only [hrt] at h
                rcases hr2 : simplifyRepeatLoop a k' vc.1 rl with e | r2
                · simp only [hr2] at h
                  cases h
                · simp only [hr2] at h
                  rcases r2 with _ | s₁
                  · simp only [Except.ok.injEq] at h
                    rw [← h]
                    exact ⟨rfl, rfl, fun k _ => rfl⟩
                  · rcases hdel : s₁.delItemE curr k' with e | s₂
                    · simp only [hdel] at h
                      cases h
                    · simp only [hdel, Except.ok.injEq] at h
                      rw [← h]
                      obtain ⟨f1, f2, f3⟩ :=
                        simplifyRepeatLoop_frame a k' vc.1 rl s₁ hr2
                      obtain ⟨g1, g2, g3⟩ :=
                        delItemE_frame s₁ curr k' s₂ hdel
                      exact ⟨g1.trans f1, g2.trans f2,
                        fun k hk => (g3 k hk).trans (f3 k hk)⟩
            · rcases hdel : s₁.delItemE curr k' with e | s₂
              · simp only [hdel] at h
                cases h
              · simp only [hdel, Except.ok.injEq] at h
                rw [← h]
                obtain ⟨f1, f2, f3⟩ :=
                  simplifyConstLoop_frame a k' curr vc.1
                    (const_tests curr) s₁ hloop
                obtain ⟨g1, g2, g3⟩ := delItemE_frame s₁ curr k' s₂ hdel
                exact ⟨g1.trans f1, g2.trans f2,
                  fun k hk => (g3 k hk).trans (f3 k hk)⟩

/-- Copying a dictionary into the global constants always succeeds and
leaves the shape unchanged. -/
theorem copy_dict_go_const_ok :
    ∀ (l : List (String × PyVal)) (r : Store), ∃ r₁,
      copy_dict_go r (some (.glob, .const)) l = .ok r₁ ∧
      r₁.shape = r.shape := by
  intro l
  induction l with
  | nil => intro r; exact ⟨r, rfl, rfl⟩
  | cons p rest ih =>
      intro r
      rcases p with ⟨k₁, v₁⟩
      obtain ⟨r₁, h1, h2⟩ :=
        ih (r.withClassDict (.glob, .const) (dictSet r.gConst k₁ v₁))
      refine ⟨r₁, ?_, ?_⟩
      · rw [show copy_dict_go r (some (.glob, .const)) ((k₁, v₁) :: rest) =
            copy_dict_go
              (r.withClassDict (.glob, .const) (dictSet r.gConst k₁ v₁))
              (some (.glob, .const)) rest from rfl]
        exact h1
      · rw [h2]
        rfl

/-- Dropping to a present index exposes that element in front. -/
theorem drop_cons_of_get {α : Type} (l : List α) (i : Nat) (x : α)
    (h : l.get? i = some x) : l.drop i = x :: l.drop (i + 1) := by
  induction l generalizing i with
  | nil => simp at h
  | cons y ys ih =>
      cases i with
      | zero =>
          simp only [List.get?] at h
          cases h
          rfl
      | succ j =>
          simp only [List.get?] at h
          simp only [List.drop_succ_cons]
          exact ih j h

/-- Assignment into the global constants, explicitly. -/
theorem setItemE_gconst (s : Store) (k : String) (v : PyVal) :
    s.setItemE (.glob, .const) k v =
      .ok (s.withClassDict (.glob, .const) (dictSet s.gConst k v)) := rfl

/-- simplify on a key held in the global constants of a
three-dimensional store: it deletes a None value and otherwise leaves
the store untouched. -/
theorem simplify_const_found (a : Store) (k : String) (x : PyVal)
    (h3 : a.shape.length = 3)
    (hget : dictGet? a.gConst k = some x) :
    (x ≠ PyVal.none → simplify a k = .ok (false, a)) ∧
    (x = PyVal.none → ∃ a', simplify a k = .ok (true, a') ∧
      a'.shape = a.shape ∧ dictGet? a'.gConst k = Option.none ∧
      a' = a.withClassDict ((.glob : Base), (.const : Sub))
        (dictErase a.gConst k)) := by
  have hvcs : a.get_valid_classes = .ok [(.glob, .const), (.glob, .slices)] :=
    gvc_len3 a h3
  have hcon : dictContains a.gConst k = true := dictContains_of_get _ _ _ hget
  have hclass : a.get_classification k = .ok (some (.glob, .const)) := by
    rw [Store.get_classification, hvcs]
    simp [Bind.bind, Except.bind, Store.get_classification_go,
      Store.classDict?, hcon]
  have hgvc : a.get_values_and_class k = .ok (x, some (.glob, .const)) := by
    rw [Store.get_values_and_class]
    rw [hclass]
    simp [Bind.bind, Except.bind, Store.get_class_dict, Store.classDict?,
      hget]
  have hmult : a.get_multiplicity (some (.glob, .const)) = .ok 1 := by
    rw [Store.get_multiplicity, hvcs]
    simp [Bind.bind, Except.bind]
  constructor
  · intro hx
    rw [simplify]
    rw [hgvc]
    simp only [Bind.bind, Except.bind]
    simp only [hmult]
    simp [hx]
  · intro hx
    subst hx
    have hdel : a.delItemE (.glob, .const) k =
        .ok (a.withClassDict (.glob, .const) (dictErase a.gConst k)) := by
      rw [Store.delItemE]
      simp [Store.get_class_dict, Store.classDict?, hcon, Bind.bind,
        Except.bind]
    refine ⟨a.withClassDict (.glob, .const) (dictErase a.gConst k),
      ?_, ?_, ?_, rfl⟩
    · rw [simplify]
      rw [hgvc]
      simp only [Bind.bind, Except.bind]
      simp only [hmult]
      simp [hdel, Bind.bind, Except.bind]
    · exact (withClassDict_frame a (.glob, .const) _).1
    · show dictGet?
        (a.withClassDict (.glob, .const) (dictErase a.gConst k)).gConst k =
        Option.none
      rw [show (a.withClassDict (.glob, .const)
          (dictErase a.gConst k)).gConst = dictErase a.gConst k from rfl]
      exact dictGet_erase_self a.gConst k

/-- One step of the per-key slice-copy loop, with the scalarization
conditional as a single effectful value. -/
theorem copy_slice_go_cons (a : Store) (dest : Cls) (stride : Option Nat)
    (idx : Nat) (k₁ : String) (vals : PyVal)
    (rest : List (String × PyVal)) :
    copy_slice_go a dest stride idx ((k₁, vals) :: rest) = (do
      let sv ← pySliceFrom vals idx stride
      let sv' ← (if pyLen sv = some 1 then pyIndex sv 0 else pure sv)
      let r₁ ← a.setItemE dest k₁ sv'
      let br ← simplify r₁ k₁
      copy_slice_go br.2 dest stride idx rest) := by
  simp only [copy_slice_go, Bind.bind, Except.bind]
  rcases hsv : pySliceFrom vals idx stride with e | sv
  · simp only [hsv]
  · simp only [hsv]
    by_cases h1 : pyLen sv = some 1
    · rw [if_pos h1, if_pos h1]
    · rw [if_neg h1, if_neg h1]

/-- The per-key slice-copy loop leaves the shape and the global
constants at untouched keys unchanged. -/
theorem copy_slice_go_frame (dest : Cls) (stride : Option Nat)
    (idx : Nat) (k : String) :
    ∀ l a r, copy_slice_go a dest stride idx l = .ok r →
      k ∉ l.map Prod.fst →
      r.shape = a.shape ∧ dictGet? r.gConst k = dictGet? a.gConst k := by
  intro l
  induction l with
  | nil =>
      intro a r h _
      cases h
      exact ⟨rfl, rfl⟩
  | cons p rest ih =>
      intro a r h hk
      rcases p with ⟨k₁, vals⟩
      have hk1 : k ≠ k₁ := by
        intro he
        exact hk (by simp [he])
      have hk2 : k ∉ rest.map Prod.fst := by
        intro he
        exact hk (by simp [he])
      rw [copy_slice_go_cons] at h
      simp only [Bind.bind, Except.bind] at h
      rcases hsv : pySliceFrom vals idx stride with e | sv
      · simp only [hsv] at h
        cases h
      · simp only [hsv] at h
        rcases hif : (if pyLen sv = some 1 then pyIndex sv 0
            else pure sv) with e | sv'
        · simp only [hif] at h
          cases h
        · simp only [hif] at h
          rcases hset : a.setItemE dest k₁ sv' with e | a₂
          · simp only [hset] at h
            cases h
          · simp only [hset] at h
            rcases hsimp : simplify a₂ k₁ with e | br
            · simp only [hsimp] at h
              cases h
            · simp only [hsimp] at h
              obtain ⟨f1, f2⟩ := ih br.2 r h hk2
              obtain ⟨g1, _, g3⟩ := setItemE_frame a dest k₁ sv' a₂ hset
              obtain ⟨m1, _, m3⟩ := simplify_frame a₂ k₁ br hsimp
              exact ⟨f1.trans (m1.trans g1),
                (f2.trans (m3 k hk1)).trans (g3 k hk1)⟩

/-- The per-key slice-copy loop into the global constants of a
three-dimensional result: a key with a length-n value list ends with
its idx-th element scalarized into the global constants, unless that
element is None, in which case simplify deletes the key. -/
theorem copy_slice_go_spec (n idx : Nat) (k : String) (v : List PyVal)
    (hidx : idx < n) (hlen : v.length = n) :
    ∀ l a r, copy_slice_go a (.glob, .const) (some n) idx l = .ok r →
      a.shape.length = 3 →
      (l.map Prod.fst).Nodup →
      dictGet? l k = some (.list v) →
      (∀ x, v.get? idx = some x → x ≠ PyVal.none →
         dictGet? r.gConst k = some x) ∧
      (v.get? idx = some PyVal.none →
         dictGet? r.gConst k = Option.none) := by
  intro l
  induction l with
  | nil =>
      intro a r h _ _ hget
      simp [dictGet?] at hget
  | cons p rest ih =>
      intro a r h hsh hnd hget
      rcases p with ⟨k₁, vals⟩
      have hndc : (k₁ :: rest.map Prod.fst).Nodup := by simpa using hnd
      rw [copy_slice_go_cons] at h
      simp only [Bind.bind, Except.bind] at h
      by_cases hkk : k₁ = k
      · subst hkk
        have hvals : vals = .list v := by
          rw [dictGet_cons_eq (k₁, vals) rest k₁ (by simp)] at hget
          exact Option.some.inj hget
        subst hvals
        have hn0 : n ≠ 0 := by omega
        have hidx2 : idx < v.length := by omega
        rcases hx : v.get? idx with _ | x
        · rw [List.get?_eq_none] at hx
          omega
        · have hdropeq := drop_cons_of_get v idx x hx
          have hsingle : takeEvery n (v.drop idx) = [x] := by
            rw [hdropeq]
            apply takeEvery_singleton
            have hdl : (v.drop (idx + 1)).length =
                v.length - (idx + 1) := by simp
            omega
          have hsv : pySliceFrom (.list v) idx (some n) =
              .ok (.list [x]) := by
            simp [pySliceFrom, hn0, hsingle]
          have hif : (if pyLen (.list [x]) = some 1
              then pyIndex (.list [x]) 0
              else pure (.list [x])) = .ok x := by
            have hc : pyLen (.list [x]) = some 1 := rfl
            rw [if_pos hc]
            rfl
          simp only [hsv] at h
          simp only [hif] at h
          simp only [setItemE_gconst] at h
          have hga2 : dictGet? (a.withClassDict (.glob, .const)
              (dictSet a.gConst k₁ x)).gConst k₁ = some x := by
            rw [show (a.withClassDict (.glob, .const)
                (dictSet a.gConst k₁ x)).gConst =
                dictSet a.gConst k₁ x from rfl]
            exact dictGet_set_self a.gConst k₁ x
          have ha2sh : (a.withClassDict (.glob, .const)
              (dictSet a.gConst k₁ x)).shape.length = 3 := by
            rw [(withClassDict_frame a (.glob, .const) _).1]
            exact hsh
          obtain ⟨hsimpF, hsimpT⟩ :=
            simplify_const_found _ k₁ x ha2sh hga2
          have hk2 : k₁ ∉ rest.map Prod.fst :=
            (List.nodup_cons.mp hndc).1
          by_cases hxn : x = PyVal.none
          · obtain ⟨a₃, hsimp, _, ha₃get, _⟩ := hsimpT hxn
            simp only [hsimp] at h
            obtain ⟨_, hfr⟩ := copy_slice_go_frame (.glob, .const)
              (some n) idx k₁ rest a₃ r h hk2
            constructor
            · intro x2 hx2 hne2
              have hxx := Option.some.inj hx2
              rw [← hxx, hxn] at hne2
              exact absurd rfl hne2
            · intro _
              rw [hfr, ha₃get]
          · have hsimp := hsimpF hxn
            simp only [hsimp] at h
            obtain ⟨_, hfr⟩ := copy_slice_go_frame (.glob, .const)
              (some n) idx k₁ rest _ r h hk2
            constructor
            · intro x2 hx2 hne2
              have hxx := Option.some.inj hx2
              rw [← hxx]
              rw [hfr, hga2]
            · intro hnone
              have hxx := Option.some.inj hnone
              exact absurd hxx hxn
      · have hget2 : dictGet? rest k = some (.list v) := by
          rw [dictGet_cons_ne (k₁, vals) rest k
            (beq_eq_false_iff_ne.mpr hkk)] at hget
          exact hget
        rcases hsv : pySliceFrom vals idx (some n) with e | sv
        · simp only [hsv] at h
          cases h
        · simp only [hsv] at h
          rcases hif : (if pyLen sv = some 1 then pyIndex sv 0
              else pure sv) with e | sv'
          · simp only [hif] at h
            cases h
          · simp only [hif] at h
            rcases hset : a.setItemE (.glob, .const) k₁ sv' with e | a₂
            · simp only [hset] at h
              cases h
            · simp only [hset] at h
              rcases hsimp : simplify a₂ k₁ with e | br
              · simp only [hsimp] at h
                cases h
              · simp only [hsimp] at h
                have hsh2 : br.2.shape.length = 3 := by
                  obtain ⟨f1, _, _⟩ := simplify_frame a₂ k₁ br hsimp
                  obtain ⟨g1, _, _⟩ :=
                    setItemE_frame a (.glob, .const) k₁ sv' a₂ hset
                  rw [f1, g1]
                  exact hsh
                exact ih br.2 r h hsh2 (List.nodup_cons.mp hndc).2 hget2

/-- get_subset_go over the two classifications of a three-dimensional
source whose subset axis is the slice axis. -/
theorem get_subset_go_two (s r0 : Store) (dim idx : Nat)
    (hsd : s.slice_dim = some dim) :
    get_subset_go s dim idx r0 [(.glob, .const), (.glob, .slices)] = (do
      let d ← s.get_class_dict (some (.glob, .const))
      let r1 ← copy_dict_go r0 (some (.glob, .const)) d
      let r2 ← copy_slice r1 s (.glob, .slices) idx
      .ok r2) := by
  simp [get_subset_go, hsd, Bind.bind, Except.bind]

/-- The strided take does not depend on the fuel, once sufficient. -/
theorem takeEveryF_congr {α : Type} :
    ∀ (f₁ f₂ n : Nat) (l : List α), l.length ≤ f₁ → l.length ≤ f₂ →
      takeEveryF f₁ n l = takeEveryF f₂ n l := by
  intro f₁
  induction f₁ with
  | zero =>
      intro f₂ n l h1 h2
      have hl : l = [] := List.eq_nil_of_length_eq_zero (by omega)
      subst hl
      rw [takeEveryF_nil, takeEveryF_nil]
  | succ f ih =>
      intro f₂ n l h1 h2
      rcases l with _ | ⟨x, xs⟩
      · rw [takeEveryF_nil, takeEveryF_nil]
      · rcases f₂ with _ | f₂'
        · simp at h2
        · show x :: takeEveryF f n (xs.drop (n - 1)) =
            x :: takeEveryF f₂' n (xs.drop (n - 1))
          congr 1
          apply ih
          · simp at h1 ⊢
            omega
          · simp at h2 ⊢
            omega

/-- Unfolding of the strided take on a cons cell. -/
theorem takeEvery_cons {α : Type} (n : Nat) (x : α) (xs : List α) :
    takeEvery n (x :: xs) = x :: takeEvery n (xs.drop (n - 1)) := by
  show takeEveryF (xs.length + 1) n (x :: xs) = _
  rw [show takeEveryF (xs.length + 1) n (x :: xs) =
      x :: takeEveryF xs.length n (xs.drop (n - 1)) from rfl]
  congr 1
  apply takeEveryF_congr
  · simp
  · exact le_rfl

/-- Optional indexing after a drop. -/
theorem get_drop {α : Type} (l : List α) (i j : Nat) :
    (l.drop i).get? j = l.get? (i + j) := by
  simp [List.get?_eq_getElem?, List.getElem?_drop]

/-- Optional indexing inside a take. -/
theorem get_take {α : Type} (l : List α) (i j : Nat) (h : j < i) :
    (l.take i).get? j = l.get? j := by
  simp [List.get?_eq_getElem?, List.getElem?_take_of_lt h]

/-- In-range optional indexing yields a value. -/
theorem get_of_lt {α : Type} (l : List α) (i : Nat) (h : i < l.length) :
    ∃ x, l.get? i = some x :=
  ⟨l.get ⟨i, h⟩, List.get?_eq_get h⟩

/-- A successful optional index is in range. -/
theorem lt_of_get {α : Type} (l : List α) (i : Nat) (x : α)
    (h : l.get? i = some x) : i < l.length := by
  rw [List.get?_eq_getElem?] at h
  exact (List.getElem?_eq_some_iff.mp h).1

/-- The strided take selects the elements at the multiples of the
stride. -/
theorem takeEvery_get {α : Type} (n : Nat) (hn : 0 < n) :
    ∀ (L : Nat) (l : List α), l.length ≤ L → ∀ i,
      (takeEvery n l).get? i = l.get? (i * n) := by
  intro L
  induction L with
  | zero =>
      intro l hl i
      have hnil : l = [] := List.eq_nil_of_length_eq_zero (by omega)
      subst hnil
      show (takeEveryF 0 n []).get? i = _
      rw [takeEveryF_nil]
      simp
  | succ L ih =>
      intro l hl i
      rcases l with _ | ⟨x, xs⟩
      · show (takeEveryF 0 n []).get? i = _
        rw [takeEveryF_nil]
        simp
      · rw [takeEvery_cons]
        cases i with
        | zero => simp
        | succ j =>
            show (takeEvery n (xs.drop (n - 1))).get? j =
              (x :: xs).get? ((j + 1) * n)
            rw [ih (xs.drop (n - 1)) (by simp at hl ⊢; omega) j]
            rw [get_drop]
            have harith : (j + 1) * n = ((n - 1) + j * n) + 1 := by
              have : (j + 1) * n = j * n + n := by ring
              omega
            rw [harith]
            rfl

/-- A list is allEqual exactly when any two of its elements are
equal. -/
theorem allEqual_iff (l : List PyVal) :
    allEqual l = true ↔
      ∀ i j x y, l.get? i = some x → l.get? j = some y → x = y := by
  rcases l with _ | ⟨h, t⟩
  · simp [show allEqual ([] : List PyVal) = true from rfl]
  · rw [show allEqual (h :: t) = t.all (· == h) from rfl, List.all_eq_true]
    constructor
    · intro hall i j x y hx hy
      have key : ∀ m z, (h :: t).get? m = some z → z = h := by
        intro m z hz
        cases m with
        | zero =>
            cases hz
            rfl
        | succ m2 =>
            have hmem := List.get?_mem (show t.get? m2 = some z from hz)
            have := hall z hmem
            exact beq_iff_eq.mp this
      rw [key i x hx, key j y hy]
    · intro hp z hz
      obtain ⟨m, hm⟩ := List.get?_of_mem hz
      have := hp (m + 1) 0 z h hm rfl
      simp [this]

/-- The chunking of a list does not depend on the fuel, once
sufficient. -/
theorem chunkListF_congr {α : Type} :
    ∀ (f₁ f₂ p : Nat) (l : List α), 0 < p → l.length ≤ f₁ →
      l.length ≤ f₂ → chunkListF f₁ p l = chunkListF f₂ p l := by
  intro f₁
  induction f₁ with
  | zero =>
      intro f₂ p l hp h1 h2
      have hl : l = [] := List.eq_nil_of_length_eq_zero (by omega)
      subst hl
      cases f₂ with
      | zero => rfl
      | succ f => simp [chunkListF]
  | succ f ih =>
      intro f₂ p l hp h1 h2
      by_cases hl : l.length = 0
      · have hln : l = [] := List.eq_nil_of_length_eq_zero hl
        subst hln
        cases f₂ with
        | zero => simp [chunkListF]
        | succ g => simp [chunkListF]
      · cases f₂ with
        | zero => omega
        | succ g =>
            rw [show chunkListF (f + 1) p l =
                (if p = 0 ∨ l.length = 0 then []
                 else l.take p :: chunkListF f p (l.drop p)) from rfl]
            rw [show chunkListF (g + 1) p l =
                (if p = 0 ∨ l.length = 0 then []
                 else l.take p :: chunkListF g p (l.drop p)) from rfl]
            rw [if_neg (by omega), if_neg (by omega)]
            congr 1
            apply ih
            · exact hp
            · simp
              omega
            · simp
              omega

/-- Unfolding of the chunking of a non-empty list. -/
theorem chunkList_cons {α : Type} (p : Nat) (l : List α) (hp : 0 < p)
    (hl : l ≠ []) :
    chunkList p l = l.take p :: chunkList p (l.drop p) := by
  have hlen : l.length ≠ 0 := by
    intro h
    exact hl (List.eq_nil_of_length_eq_zero h)
  rcases hfl : l.length with _ | f
  · omega
  · show chunkListF l.length p l = _
    rw [hfl]
    rw [show chunkListF (f + 1) p l =
        (if p = 0 ∨ l.length = 0 then []
         else l.take p :: chunkListF f p (l.drop p)) from rfl]
    rw [if_neg (by omega)]
    congr 1
    apply chunkListF_congr
    · exact hp
    · simp
      omega
    · exact le_rfl

/-- A list has constant blocks exactly when elements in a common block
are equal. -/
theorem blocksConstant_iff (p : Nat) (hp : 0 < p) :
    ∀ (L : Nat) (l : List PyVal), l.length ≤ L →
      (blocksConstant p l = true ↔
        ∀ i j x y, i / p = j / p → l.get? i = some x →
          l.get? j = some y → x = y) := by
  intro L
  induction L with
  | zero =>
      intro l hl
      have hnil : l = [] := List.eq_nil_of_length_eq_zero (by omega)
      subst hnil
      simp [show blocksConstant p ([] : List PyVal) = true from rfl]
  | succ L ih =>
      intro l hl
      rcases l with _ | ⟨x0, xs⟩
      · simp [show blocksConstant p ([] : List PyVal) = true from rfl]
      · rw [show blocksConstant p (x0 :: xs) =
            (chunkList p (x0 :: xs)).all allEqual from rfl]
        rw [chunkList_cons p _ hp (by simp)]
        rw [List.all_cons]
        rw [show (chunkList p ((x0 :: xs).drop p)).all allEqual =
            blocksConstant p ((x0 :: xs).drop p) from rfl]
        rw [Bool.and_eq_true]
        rw [ih ((x0 :: xs).drop p) (by simp at hl ⊢; omega)]
        rw [allEqual_iff]
        constructor
        · rintro ⟨htake, hdrop⟩ i j x y hij hx hy
          by_cases hi : i < p
          · have hj : j < p := by
              have h1 : i / p = 0 := Nat.div_eq_of_lt hi
              by_contra hjn
              have h2 : p ≤ j := by omega
              have : 1 ≤ j / p := Nat.one_le_div_iff hp |>.mpr h2
              omega
            exact htake i j x y
              (by rw [get_take _ _ _ hi]; exact hx)
              (by rw [get_take _ _ _ hj]; exact hy)
          · have hppi : p ≤ i := by omega
            have hppj : p ≤ j := by
              by_contra hjn
              have h1 : j / p = 0 := Nat.div_eq_of_lt (by omega)
              have : 1 ≤ i / p := Nat.one_le_div_iff hp |>.mpr hppi
              omega
            refine hdrop (i - p) (j - p) x y ?_
              (by rw [get_drop]
                  rw [show p + (i - p) = i by omega]
                  exact hx)
              (by rw [get_drop]
                  rw [show p + (j - p) = j by omega]
                  exact hy)
            have hi2 : i - p + p = i := by omega
            have hj2 : j - p + p = j := by omega
            have e1 : i / p = (i - p) / p + 1 := by
              rw [← hi2, Nat.add_div_right _ hp, hi2]
            have e2 : j / p = (j - p) / p + 1 := by
              rw [← hj2, Nat.add_div_right _ hp, hj2]
            omega
        · intro hall
          constructor
          · intro i j x y hx hy
            have hi : i < p := by
              have := lt_of_get _ _ _ hx
              have hlt : ((x0 :: xs).take p).length ≤ p := by
                simp
              omega
            have hj : j < p := by
              have := lt_of_get _ _ _ hy
              have hlt : ((x0 :: xs).take p).length ≤ p := by
                simp
              omega
            refine hall i j x y ?_
              (by rw [get_take _ _ _ hi] at hx; exact hx)
              (by rw [get_take _ _ _ hj] at hy; exact hy)
            rw [Nat.div_eq_of_lt hi, Nat.div_eq_of_lt hj]
          · intro i j x y hij hx hy
            refine hall (p + i) (p + j) x y ?_
              (by rw [← get_drop]; exact hx)
              (by rw [← get_drop]; exact hy)
            have e1 : (p + i) / p = i / p + 1 := by
              rw [Nat.add_comm, Nat.add_div_right _ hp]
            have e2 : (p + j) / p = j / p + 1 := by
              rw [Nat.add_comm, Nat.add_div_right _ hp]
            omega

/-- All chunks of a list equal a fixed block exactly when the block
length divides the list length and every element matches the block at
its index modulo the block length. -/
theorem chunksEq_iff (m : Nat) (hm : 0 < m) (b : List PyVal)
    (hb : b.length = m) :
    ∀ (L : Nat) (l : List PyVal), l.length ≤ L →
      ((chunkList m l).all (fun c => c == b) = true ↔
        (l.length % m = 0 ∧
          ∀ i x, l.get? i = some x → b.get? (i % m) = some x)) := by
  intro L
  induction L with
  | zero =>
      intro l hl
      have hnil : l = [] := List.eq_nil_of_length_eq_zero (by omega)
      subst hnil
      simp [show chunkList m ([] : List PyVal) = [] from rfl,
        Nat.zero_mod]
  | succ L ih =>
      intro l hl
      rcases l with _ | ⟨x0, xs⟩
      · simp [show chunkList m ([] : List PyVal) = [] from rfl,
          Nat.zero_mod]
      · rw [chunkList_cons m _ hm (by simp), List.all_cons,
          Bool.and_eq_true,
          ih ((x0 :: xs).drop m) (by simp at hl ⊢; omega)]
        have hdl : ((x0 :: xs).drop m).length = (x0 :: xs).length - m := by
          simp
        constructor
        · rintro ⟨hhead, hmod, hrest⟩
          have htake : (x0 :: xs).take m = b := beq_iff_eq.mp hhead
          have hlenm : m ≤ (x0 :: xs).length := by
            have hlt := congrArg List.length htake
            rw [List.length_take, hb] at hlt
            omega
          constructor
          · have he : (x0 :: xs).length = m + ((x0 :: xs).drop m).length := by
              omega
            rw [he, Nat.add_mod_left]
            exact hmod
          · intro i x hx
            by_cases hi : i < m
            · rw [Nat.mod_eq_of_lt hi, ← htake, get_take _ _ _ hi]
              exact hx
            · have he : i % m = (i - m) % m := by
                have h2 : i = m + (i - m) := by omega
                rw [h2, Nat.add_mod_left, Nat.add_sub_cancel_left]
              rw [he]
              refine hrest (i - m) x ?_
              rw [get_drop]
              rw [show m + (i - m) = i by omega]
              exact hx
        · rintro ⟨hmod, hall⟩
          have hlenm : m ≤ (x0 :: xs).length := by
            have hpos : 0 < (x0 :: xs).length := by simp
            exact Nat.le_of_dvd hpos (Nat.dvd_of_mod_eq_zero hmod)
          refine ⟨?_, ?_, ?_⟩
          · apply beq_iff_eq.mpr
            apply List.ext_get?
            intro i
            by_cases hi : i < m
            · rw [get_take _ _ _ hi]
              rcases hgx : (x0 :: xs).get? i with _ | x
              · exfalso
                have := List.get?_eq_none.mp hgx
                omega
              · have := hall i x hgx
                rw [Nat.mod_eq_of_lt hi] at this
                exact this.symm
            · rw [List.get?_eq_none.mpr, List.get?_eq_none.mpr]
              · omega
              · rw [List.length_take]
                omega
          · have he : (x0 :: xs).length = m + ((x0 :: xs).drop m).length := by
              omega
            rw [he, Nat.add_mod_left] at hmod
            exact hmod
          · intro i x hx
            rw [get_drop] at hx
            have := hall (m + i) x hx
            rw [Nat.add_mod_left] at this
            exact this

/-- Dividing the remainder by a divisor of the modulus. -/
theorem mod_div_arith (p t i : Nat) (hp : 0 < p) (ht : 0 < t) :
    (i % (p * t)) / p = (i / p) % t := by
  have hpt : 0 < p * t := by positivity
  have hdm := Nat.div_add_mod i (p * t)
  have hsplit : i = i % (p * t) + p * (t * (i / (p * t))) := by
    have : p * (t * (i / (p * t))) = p * t * (i / (p * t)) := by ring
    omega
  have hq : i / p = (i % (p * t)) / p + t * (i / (p * t)) := by
    conv_lhs => rw [hsplit]
    rw [Nat.add_mul_div_left _ _ hp]
  have hlt : (i % (p * t)) / p < t := by
    have h1 : i % (p * t) < p * t := Nat.mod_lt _ hpt
    have h2 : (i % (p * t)) / p < t ↔ i % (p * t) < t * p :=
      Nat.div_lt_iff_lt_mul hp
    have h3 : t * p = p * t := Nat.mul_comm t p
    rw [h2, h3]
    omega
  rw [hq, Nat.add_mul_mod_self_left, Nat.mod_eq_of_lt hlt]

/-- The strided take of the elements of a constant-blocks list cannot
be constant unless the whole list is. -/
theorem lemA (p : Nat) (hp : 0 < p) (l : List PyVal)
    (hb : blocksConstant p l = true)
    (ha : allEqual (takeEvery p l) = true) : allEqual l = true := by
  rw [allEqual_iff]
  intro i j x y hx hy
  have hi := lt_of_get _ _ _ hx
  have hj := lt_of_get _ _ _ hy
  have hip : i / p * p ≤ i := Nat.div_mul_le_self i p
  have hjp : j / p * p ≤ j := Nat.div_mul_le_self j p
  obtain ⟨x0, hx0⟩ := get_of_lt l (i / p * p) (by omega)
  obtain ⟨y0, hy0⟩ := get_of_lt l (j / p * p) (by omega)
  have hbc := (blocksConstant_iff p hp l.length l le_rfl).mp hb
  have e1 : x = x0 :=
    hbc i (i / p * p) x x0 (by rw [Nat.mul_div_cancel _ hp]) hx hx0
  have e2 : y = y0 :=
    hbc j (j / p * p) y y0 (by rw [Nat.mul_div_cancel _ hp]) hy hy0
  have t1 : (takeEvery p l).get? (i / p) = some x0 := by
    rw [takeEvery_get p hp l.length l le_rfl]
    exact hx0
  have t2 : (takeEvery p l).get? (j / p) = some y0 := by
    rw [takeEvery_get p hp l.length l le_rfl]
    exact hy0
  have := (allEqual_iff _).mp ha (i / p) (j / p) x0 y0 t1 t2
  rw [e1, e2, this]

/-- Blocks of blocks: a p-blocks-constant list whose strided take is
q-blocks-constant is pq-blocks-constant. -/
theorem lemB (p q : Nat) (hp : 0 < p) (hq : 0 < q) (l : List PyVal)
    (h1 : blocksConstant p l = true)
    (h2 : blocksConstant q (takeEvery p l) = true) :
    blocksConstant (p * q) l = true := by
  rw [blocksConstant_iff (p * q) (by positivity) l.length l le_rfl]
  intro i j x y hij hx hy
  have hbp := (blocksConstant_iff p hp l.length l le_rfl).mp h1
  have hbq := (blocksConstant_iff q hq _ _ le_rfl).mp h2
  have hi := lt_of_get _ _ _ hx
  have hj := lt_of_get _ _ _ hy
  have hip : i / p * p ≤ i := Nat.div_mul_le_self i p
  have hjp : j / p * p ≤ j := Nat.div_mul_le_self j p
  obtain ⟨x1, hx1⟩ := get_of_lt l (i / p * p) (by omega)
  obtain ⟨y1, hy1⟩ := get_of_lt l (j / p * p) (by omega)
  have ex1 : x = x1 :=
    hbp i (i / p * p) x x1 (by rw [Nat.mul_div_cancel _ hp]) hx hx1
  have ey1 : y = y1 :=
    hbp j (j / p * p) y y1 (by rw [Nat.mul_div_cancel _ hp]) hy hy1
  have tx : (takeEvery p l).get? (i / p) = some x1 := by
    rw [takeEvery_get p hp l.length l le_rfl]
    exact hx1
  have ty : (takeEvery p l).get? (j / p) = some y1 := by
    rw [takeEvery_get p hp l.length l le_rfl]
    exact hy1
  have hdiv : i / p / q = j / p / q := by
    rw [Nat.div_div_eq_div_mul, Nat.div_div_eq_div_mul]
    exact hij
  have := hbq (i / p) (j / p) x1 y1 hdiv tx ty
  rw [ex1, ey1, this]

/-- A repetition whose period block is constant is wholly constant. -/
theorem lemC (m : Nat) (hm : 0 < m) (l : List PyVal)
    (hrep : (chunkList m l).all (fun c => c == l.take m) = true)
    (ha : allEqual (l.take m) = true) : allEqual l = true := by
  by_cases hml : l.length ≤ m
  · rwa [List.take_of_length_le hml] at ha
  · obtain ⟨hmod, hall⟩ := (chunksEq_iff m hm (l.take m)
      (by rw [List.length_take]; omega) l.length l le_rfl).mp hrep
    rw [allEqual_iff]
    intro i j x y hx hy
    exact (allEqual_iff _).mp ha (i % m) (j % m) x y (hall i x hx)
      (hall j y hy)

/-- A repetition is p-blocks-constant as soon as its period block is,
for p dividing the period. -/
theorem lemE (p m : Nat) (hp : 0 < p) (hm : 0 < m) (hdvd : p ∣ m)
    (l : List PyVal) (hml : m ≤ l.length)
    (hrep : (chunkList m l).all (fun c => c == l.take m) = true)
    (hbt : blocksConstant p (l.take m) = true) :
    blocksConstant p l = true := by
  obtain ⟨t, rfl⟩ := hdvd
  have ht : 0 < t := by
    rcases Nat.eq_zero_or_pos t with h0 | h
    · subst h0
      simp at hm
    · exact h
  rw [blocksConstant_iff p hp _ _ le_rfl]
  intro i j x y hij hx hy
  obtain ⟨hmod, hall⟩ := (chunksEq_iff (p * t) hm (l.take (p * t))
    (by rw [List.length_take]; omega) l.length l le_rfl).mp hrep
  have h1 := hall i x hx
  have h2 := hall j y hy
  have hbtc := (blocksConstant_iff p hp _ _ le_rfl).mp hbt
  refine hbtc (i % (p * t)) (j % (p * t)) x y ?_ h1 h2
  rw [mod_div_arith p t i hp ht, mod_div_arith p t j hp ht, hij]

/-- A repetition repeats with any divisor period with which its period
block repeats. -/
theorem lemR (p m : Nat) (hp : 0 < p) (hm : 0 < m) (hdvd : p ∣ m)
    (l : List PyVal) (hml : m ≤ l.length)
    (hrep : (chunkList m l).all (fun c => c == l.take m) = true)
    (hrt : (chunkList p (l.take m)).all
      (fun c => c == (l.take m).take p) = true) :
    (chunkList p l).all (fun c => c == l.take p) = true := by
  have hpm : p ≤ m := Nat.le_of_dvd hm hdvd
  obtain ⟨hmod, hall⟩ := (chunksEq_iff m hm (l.take m)
    (by rw [List.length_take]; omega) l.length l le_rfl).mp hrep
  have htt : (l.take m).take p = l.take p := by
    rw [List.take_take, Nat.min_eq_left hpm]
  rw [htt] at hrt
  obtain ⟨hmod2, hall2⟩ := (chunksEq_iff p hp (l.take p)
    (by rw [List.length_take]; omega) (l.take m).length (l.take m)
    le_rfl).mp hrt
  rw [chunksEq_iff p hp (l.take p) (by rw [List.length_take]; omega)
    l.length l le_rfl]
  constructor
  · rcases hdvd with ⟨t, rfl⟩
    rcases Nat.dvd_of_mod_eq_zero hmod with ⟨u, hu⟩
    rw [hu]
    rw [show p * t * u = p * (t * u) by ring]
    exact Nat.mul_mod_right _ _
  · intro i x hx
    have h1 := hall i x hx
    have h2 := hall2 (i % m) x h1
    rw [Nat.mod_mod_of_dvd i hdvd] at h2
    exact h2

/-- The length of the strided take. -/
theorem takeEvery_length {α : Type} (n : Nat) (hn : 0 < n) :
    ∀ (L : Nat) (l : List α), l.length ≤ L →
      (takeEvery n l).length = (l.length + n - 1) / n := by
  intro L
  induction L with
  | zero =>
      intro l hl
      have hnil : l = [] := List.eq_nil_of_length_eq_zero (by omega)
      subst hnil
      show (takeEveryF 0 n []).length = _
      rw [takeEveryF_nil]
      simp [Nat.div_eq_of_lt (by omega : n - 1 < n)]
  | succ L ih =>
      intro l hl
      rcases l with _ | ⟨x, xs⟩
      · show (takeEveryF 0 n []).length = _
        rw [takeEveryF_nil]
        simp [Nat.div_eq_of_lt (by omega : n - 1 < n)]
      · rw [takeEvery_cons]
        rw [List.length_cons,
          ih (xs.drop (n - 1)) (by simp at hl ⊢; omega)]
        rw [List.length_drop]
        have htar : (x :: xs).length + n - 1 = xs.length + n := by
          simp only [List.length_cons]
          omega
        rw [htar, Nat.add_div_right _ hn]
        by_cases hc : n - 1 ≤ xs.length
        · have : xs.length - (n - 1) + n - 1 = xs.length := by omega
          rw [this]
        · have h0 : xs.length - (n - 1) = 0 := by omega
          rw [h0]
          rw [Nat.div_eq_of_lt (by omega : 0 + n - 1 < n)]
          rw [Nat.div_eq_of_lt (by omega : xs.length < n)]

/-- The strided take of an exactly divisible list has the quotient
length. -/
theorem takeEvery_length_dvd {α : Type} (n : Nat) (hn : 0 < n)
    (l : List α) (hd : l.length % n = 0) :
    (takeEvery n l).length = l.length / n := by
  rw [takeEvery_length n hn l.length l le_rfl]
  rcases Nat.dvd_of_mod_eq_zero hd with ⟨t, ht⟩
  rw [ht]
  rcases Nat.eq_zero_or_pos t with h0 | hpos
  · subst h0
    simp [Nat.div_eq_of_lt (by omega : n - 1 < n)]
  · have he : n * t + n - 1 = n * t + (n - 1) := by omega
    rw [he, Nat.mul_add_div hn, Nat.div_eq_of_lt (by omega : n - 1 < n),
      Nat.mul_div_cancel_left _ hn]
    omega

/-- The strided take commutes with map. -/
theorem map_takeEvery {α β : Type} (f : α → β) (n : Nat) (hn : 0 < n)
    (l : List α) : (takeEvery n l).map f = takeEvery n (l.map f) := by
  apply List.ext_get?
  intro i
  rw [List.get?_map, takeEvery_get n hn l.length l le_rfl,
    takeEvery_get n hn (l.map f).length (l.map f) le_rfl,
    List.get?_map]

/-- Inversion of a successful constancy test. -/
theorem is_constant_ok_inv (v : PyVal) (per : Option Nat) (b : Bool)
    (h : is_constant v per = .ok b) :
    ∃ l, pySeq v = some l ∧
      ((per = Option.none ∧ b = allEqual l) ∨
       (∃ p, per = some p ∧ 1 < p ∧ l.length % p = 0 ∧
          b = blocksConstant p l)) := by
  rcases per with _ | p
  · rw [is_constant] at h
    rcases hs : pySeq v with _ | l
    · simp only [hs] at h
      cases h
    · simp only [hs] at h
      cases h
      exact ⟨l, rfl, Or.inl ⟨rfl, rfl⟩⟩
  · rw [is_constant] at h
    by_cases hp : p ≤ 1
    · rw [if_pos hp] at h
      cases h
    · rw [if_neg hp] at h
      rcases hs : pySeq v with _ | l
      · simp only [hs] at h
        cases h
      · simp only [hs] at h
        by_cases hd : l.length % p ≠ 0
        · rw [if_pos hd] at h
          cases h
        · rw [if_neg hd] at h
          cases h
          exact ⟨l, rfl, Or.inr ⟨p, rfl, by omega, by omega, rfl⟩⟩

/-- Computation of the constancy test with no period. -/
theorem is_constant_none_eq (v : PyVal) (l : List PyVal)
    (hl : pySeq v = some l) :
    is_constant v Option.none = .ok (allEqual l) := by
  rw [is_constant]
  simp only [hl]

/-- Computation of the constancy test with a period. -/
theorem is_constant_some_eq (v : PyVal) (l : List PyVal) (p : Nat)
    (hl : pySeq v = some l) (hp : 1 < p) (hd : l.length % p = 0) :
    is_constant v (some p) = .ok (blocksConstant p l) := by
  rw [is_constant]
  rw [if_neg (by omega : ¬ p ≤ 1)]
  simp only [hl]
  rw [if_neg (by omega)]

/-- Inversion of a successful repetition test. -/
theorem is_repeating_ok_inv (v : PyVal) (m : Nat) (b : Bool)
    (h : is_repeating v m = .ok b) :
    ∃ l, pySeq v = some l ∧ 1 < m ∧ m < l.length ∧ l.length % m = 0 ∧
      b = (chunkList m l).all (fun c => c == l.take m) := by
  rw [is_repeating] at h
  rcases hs : pySeq v with _ | l
  · simp only [hs] at h
    cases h
  · simp only [hs] at h
    by_cases hc1 : m ≤ 1 ∨ m ≥ l.length
    · rw [if_pos hc1] at h
      cases h
    · rw [if_neg hc1] at h
      by_cases hd : l.length % m ≠ 0
      · rw [if_pos hd] at h
        cases h
      · rw [if_neg hd] at h
        cases h
        exact ⟨l, rfl, by omega, by omega, by omega, rfl⟩

/-- Computation of the repetition test. -/
theorem is_repeating_eq (v : PyVal) (l : List PyVal) (m : Nat)
    (hl : pySeq v = some l) (hm : 1 < m) (hml : m < l.length)
    (hd : l.length % m = 0) :
    is_repeating v m =
      .ok ((chunkList m l).all (fun c => c == l.take m)) := by
  rw [is_repeating]
  simp only [hl]
  rw [if_neg (by omega), if_neg (by omega)]

/-- A strided Python slice of an iterable, at the sequence level. -/
theorem pySliceStep_some_seq (v : PyVal) (p : Nat) (l : List PyVal)
    (hl : pySeq v = some l) (hp : 0 < p) :
    ∃ w, pySliceStep v (some p) = .ok w ∧
      pySeq w = some (takeEvery p l) ∧ w ≠ PyVal.none := by
  rcases v with _ | n | s | xs
  · cases hl
  · cases hl
  · cases hl
    refine ⟨.str (String.mk (takeEvery p s.data)), ?_, ?_, by simp⟩
    · rw [pySliceStep]
      rw [if_neg (by omega)]
    · show some ((takeEvery p s.data).map
        (fun c => PyVal.str (String.mk [c]))) = _
      rw [map_takeEvery _ p hp]
  · cases hl
    refine ⟨.list (takeEvery p l), ?_, rfl, by simp⟩
    rw [pySliceStep]
    rw [if_neg (by omega)]

/-- An unstrided Python slice copies the iterable. -/
theorem pySliceStep_none_seq (v : PyVal) (l : List PyVal)
    (hl : pySeq v = some l) :
    pySliceStep v Option.none = .ok v := by
  rcases v with _ | n | s | xs
  · cases hl
  · cases hl
  · rfl
  · rfl

/-- A Python take of an iterable, at the sequence level. -/
theorem pyTake_seq (v : PyVal) (m : Nat) (l : List PyVal)
    (hl : pySeq v = some l) :
    ∃ w, pyTake v m = .ok w ∧ pySeq w = some (l.take m) ∧
      w ≠ PyVal.none := by
  rcases v with _ | n | s | xs
  · cases hl
  · cases hl
  · cases hl
    refine ⟨.str (String.mk (s.data.take m)), rfl, ?_, by simp⟩
    show some ((s.data.take m).map (fun c => PyVal.str (String.mk [c]))) = _
    rw [List.map_take]
  · cases hl
    exact ⟨.list (l.take m), rfl, rfl, by simp⟩

/-- Membership in a dictionary is definedness of its lookup. -/
theorem dictContains_eq_isSome (d : Dict) (k : String) :
    dictContains d k = (dictGet? d k).isSome := by
  simp [dictContains, dictGet?]

/-- Replacing a class dictionary of a present group makes that the
dictionary of the class. -/
theorem classDict_with_same (s : Store) (c : Cls) (d : Dict)
    (hpres : (s.classDict? c).isSome = true) :
    (s.withClassDict c d).classDict? c = some d := by
  obtain ⟨aff, sd, sh, ver, gc, gs, t, vec⟩ := s
  rcases c with ⟨cb, cs⟩
  rcases t with _ | tp <;> rcases vec with _ | vp <;>
    rcases cb <;> rcases cs <;>
    simp_all [Store.withClassDict, Store.classDict?]

/-- Replacing one class dictionary leaves every other class dictionary
unchanged. -/
theorem classDict_with_other (s : Store) (c : Cls) (d : Dict) (c' : Cls)
    (hne : c' ≠ c) :
    (s.withClassDict c d).classDict? c' = s.classDict? c' := by
  obtain ⟨aff, sd, sh, ver, gc, gs, t, vec⟩ := s
  rcases c with ⟨cb, cs⟩
  rcases c' with ⟨cb', cs'⟩
  rcases t with _ | tp <;> rcases vec with _ | vp <;>
    rcases cb <;> rcases cs <;> rcases cb' <;> rcases cs' <;>
    simp_all [Store.withClassDict, Store.classDict?]

/-- Replacing a class dictionary does not change group allocation. -/
theorem base_with (s : Store) (c : Cls) (d : Dict) (b : Base) :
    (s.withClassDict c d).baseInContent b = s.baseInContent b := by
  obtain ⟨aff, sd, sh, ver, gc, gs, t, vec⟩ := s
  rcases c with ⟨cb, cs⟩
  rcases t with _ | tp <;> rcases vec with _ | vp <;>
    rcases cb <;> rcases cs <;> rcases b <;>
    simp_all [Store.withClassDict, Store.baseInContent]

/-- Effect of the reclassifying write of simplify on the key
placement: the key holds the new value in the destination, is gone from
the source classification, and is untouched elsewhere; allocation,
shape and slice dimension are unchanged. -/
theorem first_call_placement (s : Store) (k : String) (curr dest : Cls)
    (sv : PyVal) (s₂ s₁ : Store)
    (hne : dest ≠ curr)
    (hset : s.setItemE dest k sv = .ok s₂)
    (hdel : s₂.delItemE curr k = .ok s₁) :
    s₁.shape = s.shape ∧ s₁.slice_dim = s.slice_dim ∧
    (∀ b, s₁.baseInContent b = s.baseInContent b) ∧
    (∀ c, (s₁.classDict? c).isSome = (s.classDict? c).isSome) ∧
    (∀ d, s₁.classDict? dest = some d → dictGet? d k = some sv) ∧
    (∀ d, s₁.classDict? curr = some d → dictGet? d k = Option.none) ∧
    (∀ c, c ≠ dest → c ≠ curr → ∀ d d', s₁.classDict? c = some d →
       s.classDict? c = some d' → dictGet? d k = dictGet? d' k) := by
  obtain ⟨dd, hdd, rfl⟩ := setItemE_eq s dest k sv s₂ hset
  obtain ⟨dc, hdc, hcon, rfl⟩ := delItemE_eq _ curr k s₁ hdel
  have hdc2 : s.classDict? curr = some dc := by
    rw [← classDict_with_other s dest (dictSet dd k sv) curr
      (Ne.symm hne)]
    exact hdc
  refine ⟨?_, ?_, ?_, ?_, ?_, ?_, ?_⟩
  · rw [(withClassDict_frame _ curr _).1, (withClassDict_frame _ dest _).1]
  · rw [(withClassDict_frame _ curr _).2.1,
      (withClassDict_frame _ dest _).2.1]
  · intro b
    rw [base_with, base_with]
  · intro c
    by_cases hc1 : c = curr
    · rw [hc1, classDict_with_same _ curr _ (by rw [hdc]; rfl), hdc2]
      rfl
    · rw [classDict_with_other _ curr _ c hc1]
      by_cases hc2 : c = dest
      · rw [hc2, classDict_with_same _ dest _ (by rw [hdd]; rfl), hdd]
        rfl
      · rw [classDict_with_other _ dest _ c hc2]
  · intro d hd
    rw [classDict_with_other _ curr _ dest hne,
      classDict_with_same _ dest _ (by rw [hdd]; rfl)] at hd
    cases hd
    exact dictGet_set_self dd k sv
  · intro d hd
    rw [classDict_with_same _ curr _ (by rw [hdc]; rfl)] at hd
    cases hd
    exact dictGet_erase_self dc k
  · intro c hcdest hccurr d d' hd hd'
    rw [classDict_with_other _ curr _ c hccurr,
      classDict_with_other _ dest _ c hcdest, hd'] at hd
    cases hd
    rfl

/-- Inversion of the constant-candidate loop of simplify when it
matches: the candidate list splits at the matched destination, every
earlier candidate has its base group absent or fails the constancy
test, and the result is a write of the strided slice into the
destination. -/
theorem simplifyConstLoop_some_inv (a : Store) (k : String) (curr : Cls)
    (values : PyVal) :
    ∀ l s₂, simplifyConstLoop a k curr values l = .ok (some s₂) →
      ∃ pre dest post, l = pre ++ dest :: post ∧
        (∀ d ∈ pre, a.baseInContent d.1 = false ∨
          ∃ per, get_const_period a curr d = .ok per ∧
            is_constant values per = .ok false) ∧
        a.baseInContent dest.1 = true ∧
        ∃ per sv, get_const_period a curr dest = .ok per ∧
          is_constant values per = .ok true ∧
          pySliceStep values per = .ok sv ∧
          a.setItemE dest k sv = .ok s₂ := by
  intro l
  induction l with
  | nil => intro s₂ h; simp [simplifyConstLoop] at h
  | cons d rest ih =>
      intro s₂ h
      by_cases hb : a.baseInContent d.1 = true
      · rcases hp : get_const_period a curr d with e | period
        · rw [show simplifyConstLoop a k curr values (d :: rest) =
              .error e by
            simp [simplifyConstLoop, hb, hp, Bind.bind, Except.bind]] at h
          cases h
        · rcases hc : is_constant values period with e | b
          · rw [show simplifyConstLoop a k curr values (d :: rest) =
                .error e by
              simp [simplifyConstLoop, hb, hp, hc, Bind.bind,
                Except.bind]] at h
            cases h
          · rcases b with _ | _
            · rw [show simplifyConstLoop a k curr values (d :: rest) =
                  simplifyConstLoop a k curr values rest by
                simp [simplifyConstLoop, hb, hp, hc, Bind.bind,
                  Except.bind]] at h
              obtain ⟨pre, dst, post, hsplit, hpre, hrest⟩ := ih s₂ h
              exact ⟨d :: pre, dst, post, by rw [hsplit]; rfl,
                by
                  intro x hx
                  rcases List.mem_cons.mp hx with rfl | hx
                  · exact Or.inr ⟨period, hp, hc⟩
                  · exact hpre x hx,
                hrest⟩
            · rcases hsv : pySliceStep values period with e | sv
              · rw [show simplifyConstLoop a k curr values (d :: rest) =
                    .error e by
                  simp [simplifyConstLoop, hb, hp, hc, hsv, Bind.bind,
                    Except.bind]] at h
                cases h
              · rcases hset : a.setItemE d k sv with e | s₃
                · rw [show simplifyConstLoop a k curr values (d :: rest) =
                      .error e by
                    simp [simplifyConstLoop, hb, hp, hc, hsv, hset,
                      Bind.bind, Except.bind]] at h
                  cases h
                · rw [show simplifyConstLoop a k curr values (d :: rest) =
                      .ok (some s₃) by
                    simp [simplifyConstLoop, hb, hp, hc, hsv, hset,
                      Bind.bind, Except.bind]] at h
                  cases h
                  exact ⟨[], d, rest, rfl, by simp, hb, period, sv, hp,
                    hc, hsv, hset⟩
      · rw [show simplifyConstLoop a k curr values (d :: rest) =
            simplifyConstLoop a k curr values rest by
          simp [simplifyConstLoop, hb]] at h
        obtain ⟨pre, dst, post, hsplit, hpre, hrest⟩ := ih s₂ h
        refine ⟨d :: pre, dst, post, by rw [hsplit]; rfl, ?_, hrest⟩
        intro x hx
        rcases List.mem_cons.mp hx with rfl | hx
        · exact Or.inl (by revert hb; cases a.baseInContent x.1 <;> simp)
        · exact hpre x hx

/-- Inversion of the constant-candidate loop when nothing matched:
every candidate has its base group absent or fails the test with a
definite period. -/
theorem simplifyConstLoop_none_inv (a : Store) (k : String) (curr : Cls)
    (values : PyVal) :
    ∀ l, simplifyConstLoop a k curr values l = .ok Option.none →
      ∀ d ∈ l, a.baseInContent d.1 = false ∨
        ∃ per, get_const_period a curr d = .ok per ∧
          is_constant values per = .ok false := by
  intro l
  induction l with
  | nil => intro _ d hd; simp at hd
  | cons d rest ih =>
      intro h x hx
      by_cases hb : a.baseInContent d.1 = true
      · rcases hp : get_const_period a curr d with e | period
        · rw [show simplifyConstLoop a k curr values (d :: rest) =
              .error e by
            simp [simplifyConstLoop, hb, hp, Bind.bind, Except.bind]] at h
          cases h
        · rcases hc : is_constant values period with e | b
          · rw [show simplifyConstLoop a k curr values (d :: rest) =
                .error e by
              simp [simplifyConstLoop, hb, hp, hc, Bind.bind,
                Except.bind]] at h
            cases h
          · rcases b with _ | _
            · rw [show simplifyConstLoop a k curr values (d :: rest) =
                  simplifyConstLoop a k curr values rest by
                simp [simplifyConstLoop, hb, hp, hc, Bind.bind,
                  Except.bind]] at h
              rcases List.mem_cons.mp hx with rfl | hx
              · exact Or.inr ⟨period, hp, hc⟩
              · exact ih h x hx
            · rcases hsv : pySliceStep values period with e | sv
              · rw [show simplifyConstLoop a k curr values (d :: rest) =
                    .error e by
                  simp [simplifyConstLoop, hb, hp, hc, hsv, Bind.bind,
                    Except.bind]] at h
                cases h
              · rcases hset : a.setItemE d k sv with e | s₃
                · rw [show simplifyConstLoop a k curr values (d :: rest) =
                      .error e by
                    simp [simplifyConstLoop, hb, hp, hc, hsv, hset,
                      Bind.bind, Except.bind]] at h
                  cases h
                · rw [show simplifyConstLoop a k curr values (d :: rest) =
                      .ok (some s₃) by
                    simp [simplifyConstLoop, hb, hp, hc, hsv, hset,
                      Bind.bind, Except.bind]] at h
                  cases h
      · rw [show simplifyConstLoop a k curr values (d :: rest) =
            simplifyConstLoop a k curr values rest by
          simp [simplifyConstLoop, hb]] at h
        rcases List.mem_cons.mp hx with rfl | hx
        · exact Or.inl (by revert hb; cases a.baseInContent x.1 <;> simp)
        · exact ih h x hx

/-- The constant-candidate loop reports no match when every candidate
has its base group absent or fails the test. -/
theorem simplifyConstLoop_none_of (a : Store) (k : String) (curr : Cls)
    (values : PyVal) :
    ∀ l, (∀ d ∈ l, a.baseInContent d.1 = false ∨
        ∃ per, get_const_period a curr d = .ok per ∧
          is_constant values per = .ok false) →
      simplifyConstLoop a k curr values l = .ok Option.none := by
  intro l
  induction l with
  | nil => intro _; rfl
  | cons d rest ih =>
      intro h
      have hrest := ih (fun x hx => h x (by simp [hx]))
      rcases h d (by simp) with hb | ⟨per, hp, hc⟩
      · simp [simplifyConstLoop, hb, hrest]
      · by_cases hb : a.baseInContent d.1 = true
        · simp [simplifyConstLoop, hb, hp, hc, hrest, Bind.bind,
            Except.bind]
        · simp [simplifyConstLoop, hb, hrest]

/-- Inversion of the repeat-candidate loop of simplify when it
matches. -/
theorem simplifyRepeatLoop_some_inv (a : Store) (k : String)
    (values : PyVal) :
    ∀ l s₂, simplifyRepeatLoop a k values l = .ok (some s₂) →
      ∃ pre dest post, l = pre ++ dest :: post ∧
        (∀ d ∈ pre, a.baseInContent d.1 = false ∨
          ∃ dm, a.get_multiplicity (some d) = .ok dm ∧
            is_repeating values dm = .ok false) ∧
        a.baseInContent dest.1 = true ∧
        ∃ dm tv, a.get_multiplicity (some dest) = .ok dm ∧
          is_repeating values dm = .ok true ∧
          pyTake values dm = .ok tv ∧
          a.setItemE dest k tv = .ok s₂ := by
  intro l
  induction l with
  | nil => intro s₂ h; simp [simplifyRepeatLoop] at h
  | cons d rest ih =>
      intro s₂ h
      by_cases hb : a.baseInContent d.1 = true
      · rcases hp : a.get_multiplicity (some d) with e | dm
        · rw [show simplifyRepeatLoop a k values (d :: rest) = .error e by
            simp [simplifyRepeatLoop, hb, hp, Bind.bind, Except.bind]] at h
          cases h
        · rcases hc : is_repeating values dm with e | b
          · rw [show simplifyRepeatLoop a k values (d :: rest) =
                .error e by
              simp [simplifyRepeatLoop, hb, hp, hc, Bind.bind,
                Except.bind]] at h
            cases h
          · rcases b with _ | _
            · rw [show simplifyRepeatLoop a k values (d :: rest) =
                  simplifyRepeatLoop a k values rest by
                simp [simplifyRepeatLoop, hb, hp, hc, Bind.bind,
                  Except.bind]] at h
              obtain ⟨pre, dst, post, hsplit, hpre, hrest⟩ := ih s₂ h
              exact ⟨d :: pre, dst, post, by rw [hsplit]; rfl,
                by
                  intro x hx
                  rcases List.mem_cons.mp hx with rfl | hx
                  · exact Or.inr ⟨dm, hp, hc⟩
                  · exact hpre x hx,
                hrest⟩
            · rcases htv : pyTake values dm with e | tv
              · rw [show simplifyRepeatLoop a k values (d :: rest) =
                    .error e by
                  simp [simplifyRepeatLoop, hb, hp, hc, htv, Bind.bind,
                    Except.bind]] at h
                cases h
              · rcases hset : a.setItemE d k tv with e | s₃
                · rw [show simplifyRepeatLoop a k values (d :: rest) =
                      .error e by
                    simp [simplifyRepeatLoop, hb, hp, hc, htv, hset,
                      Bind.bind, Except.bind]] at h
                  cases h
                · rw [show simplifyRepeatLoop a k values (d :: rest) =
                      .ok (some s₃) by
                    simp [simplifyRepeatLoop, hb, hp, hc, htv, hset,
                      Bind.bind, Except.bind]] at h
                  cases h
                  exact ⟨[], d, rest, rfl, by simp, hb, dm, tv, hp, hc,
                    htv, hset⟩
      · rw [show simplifyRepeatLoop a k values (d :: rest) =
            simplifyRepeatLoop a k values rest by
          simp [simplifyRepeatLoop, hb]] at h
        obtain ⟨pre, dst, post, hsplit, hpre, hrest⟩ := ih s₂ h
        refine ⟨d :: pre, dst, post, by rw [hsplit]; rfl, ?_, hrest⟩
        intro x hx
        rcases List.mem_cons.mp hx with rfl | hx
        · exact Or.inl (by revert hb; cases a.baseInContent x.1 <;> simp)
        · exact hpre x hx

/-- Inversion of the repeat-candidate loop when nothing matched. -/
theorem simplifyRepeatLoop_none_inv (a : Store) (k : String)
    (values : PyVal) :
    ∀ l, simplifyRepeatLoop a k values l = .ok Option.none →
      ∀ d ∈ l, a.baseInContent d.1 = false ∨
        ∃ dm, a.get_multiplicity (some d) = .ok dm ∧
          is_repeating values dm = .ok false := by
  intro l
  induction l with
  | nil => intro _ d hd; simp at hd
  | cons d rest ih =>
      intro h x hx
      by_cases hb : a.baseInContent d.1 = true
      · rcases hp : a.get_multiplicity (some d) with e | dm
        · rw [show simplifyRepeatLoop a k values (d :: rest) = .error e by
            simp [simplifyRepeatLoop, hb, hp, Bind.bind, Except.bind]] at h
          cases h
        · rcases hc : is_repeating values dm with e | b
          · rw [show simplifyRepeatLoop a k values (d :: rest) =
                .error e by
              simp [simplifyRepeatLoop, hb, hp, hc, Bind.bind,
                Except.bind]] at h
            cases h
          · rcases b with _ | _
            · rw [show simplifyRepeatLoop a k values (d :: rest) =
                  simplifyRepeatLoop a k values rest by
                simp [simplifyRepeatLoop, hb, hp, hc, Bind.bind,
                  Except.bind]] at h
              rcases List.mem_cons.mp hx with rfl | hx
              · exact Or.inr ⟨dm, hp, hc⟩
              · exact ih h x hx
            · rcases htv : pyTake values dm with e | tv
              · rw [show simplifyRepeatLoop a k values (d :: rest) =
                    .error e by
                  simp [simplifyRepeatLoop, hb, hp, hc, htv, Bind.bind,
                    Except.bind]] at h
                cases h
              · rcases hset : a.setItemE d k tv with e | s₃
                · rw [show simplifyRepeatLoop a k values (d :: rest) =
                      .error e by
                    simp [simplifyRepeatLoop, hb, hp, hc, htv, hset,
                      Bind.bind, Except.bind]] at h
                  cases h
                · rw [show simplifyRepeatLoop a k values (d :: rest) =
                      .ok (some s₃) by
                    simp [simplifyRepeatLoop, hb, hp, hc, htv, hset,
                      Bind.bind, Except.bind]] at h
                  cases h
      · rw [show simplifyRepeatLoop a k values (d :: rest) =
            simplifyRepeatLoop a k values rest by
          simp [simplifyRepeatLoop, hb]] at h
        rcases List.mem_cons.mp hx with rfl | hx
        · exact Or.inl (by revert hb; cases a.baseInContent x.1 <;> simp)
        · exact ih h x hx

/-- The repeat-candidate loop reports no match when every candidate has
its base group absent or fails the test. -/
theorem simplifyRepeatLoop_none_of (a : Store) (k : String)
    (values : PyVal) :
    ∀ l, (∀ d ∈ l, a.baseInContent d.1 = false ∨
        ∃ dm, a.get_multiplicity (some d) = .ok dm ∧
          is_repeating values dm = .ok false) →
      simplifyRepeatLoop a k values l = .ok Option.none := by
  intro l
  induction l with
  | nil => intro _; rfl
  | cons d rest ih =>
      intro h
      have hrest := ih (fun x hx => h x (by simp [hx]))
      rcases h d (by simp) with hb | ⟨dm, hp, hc⟩
      · simp [simplifyRepeatLoop, hb, hrest]
      · by_cases hb : a.baseInContent d.1 = true
        · simp [simplifyRepeatLoop, hb, hp, hc, hrest, Bind.bind,
            Except.bind]
        · simp [simplifyRepeatLoop, hb, hrest]

/-- Inversion of the classification walk: it reports the first
classification holding the key, or none when no listed classification
holds it. -/
theorem get_classification_go_inv (s : Store) (k : String) :
    ∀ l r, Store.get_classification_go s k l = .ok r →
      (r = Option.none ∧ ∀ c ∈ l, inClass s c k = false) ∨
      (∃ c, r = some c ∧ c ∈ l ∧ inClass s c k = true) := by
  intro l
  induction l with
  | nil =>
      intro r h
      cases h
      exact Or.inl ⟨rfl, by simp⟩
  | cons c rest ih =>
      intro r h
      rw [Store.get_classification_go] at h
      rcases hd : s.classDict? c with _ | d
      · simp only [hd] at h
        cases h
      · simp only [hd] at h
        cases hcon : dictContains d k
        · rw [if_neg (by simp [hcon])] at h
          rcases ih r h with ⟨hr, hall⟩ | ⟨c', hr, hc', hin⟩
          · refine Or.inl ⟨hr, ?_⟩
            intro x hx
            rcases List.mem_cons.mp hx with rfl | hx
            · simp [inClass, hd, hcon]
            · exact hall x hx
          · exact Or.inr ⟨c', hr, by simp [hc'], hin⟩
        · rw [if_pos hcon] at h
          cases h
          exact Or.inr ⟨c, rfl, by simp, by simp [inClass, hd, hcon]⟩

/-- The classification walk finds the unique listed classification
holding the key. -/
theorem get_classification_go_mem (s : Store) (k : String) (c : Cls) :
    ∀ l, (∀ c' ∈ l, (s.classDict? c').isSome = true) → c ∈ l →
      (∀ c' ∈ l, c' ≠ c → inClass s c' k = false) →
      inClass s c k = true →
      Store.get_classification_go s k l = .ok (some c) := by
  intro l
  induction l with
  | nil =>
      intro _ hc _ _
      simp at hc
  | cons c' rest ih =>
      intro hp hc habs hin
      obtain ⟨d, hd⟩ := Option.isSome_iff_exists.mp (hp c' (by simp))
      rw [Store.get_classification_go]
      simp only [hd]
      by_cases he : c' = c
      · subst he
        have hcon : dictContains d k = true := by
          simp only [inClass, hd] at hin
          exact hin
        rw [if_pos hcon]
      · have hf : inClass s c' k = false := habs c' (by simp) he
        have hcon : dictContains d k = false := by
          simp only [inClass, hd] at hf
          exact hf
        rw [if_neg (by simp [hcon])]
        refine ih (fun x hx => hp x (by simp [hx])) ?_
          (fun x hx hxc => habs x (by simp [hx]) hxc) hin
        rcases List.mem_cons.mp hc with h0 | h0
        · exact absurd h0.symm he
        · exact h0

/-- Computation of get_values_and_class from the classification walk
and the stored value. -/
theorem gvac_compute (s : Store) (k : String) (c : Cls) (w : PyVal)
    (d : Dict) (vcs : List Cls)
    (hvcs : s.get_valid_classes = .ok vcs)
    (hgo : Store.get_classification_go s k vcs = .ok (some c))
    (hd : s.classDict? c = some d)
    (hw : dictGet? d k = some w) :
    s.get_values_and_class k = .ok (w, some c) := by
  have hgc : s.get_classification k = .ok (some c) := by
    rw [Store.get_classification, hvcs]
    simpa [Bind.bind, Except.bind] using hgo
  rw [Store.get_values_and_class, hgc]
  simp [Bind.bind, Except.bind, Store.get_class_dict, hd, hw]

/-- Inversion of get_values_and_class: the found pair carries the
classification, its dictionary, and the stored value. -/
theorem gvac_inv (s : Store) (k : String) (vc : PyVal × Option Cls)
    (h : s.get_values_and_class k = .ok vc) :
    (vc = (.none, Option.none) ∧
      s.get_classification k = .ok Option.none) ∨
    (∃ c d, vc.2 = some c ∧ s.get_classification k = .ok (some c) ∧
      s.classDict? c = some d ∧ dictGet? d k = some vc.1) := by
  rw [Store.get_values_and_class] at h
  rcases hgc : s.get_classification k with e | r
  · rw [hgc] at h
    simp [Bind.bind, Except.bind] at h
  · rw [hgc] at h
    simp only [Bind.bind, Except.bind] at h
    rcases r with _ | c
    · cases h
      exact Or.inl ⟨rfl, rfl⟩
    · simp only [Store.get_class_dict] at h
      rcases hd : s.classDict? c with _ | d
      · simp only [hd, Bind.bind, Except.bind] at h
        cases h
      · simp only [hd, Bind.bind, Except.bind] at h
        rcases hw : dictGet? d k with _ | v
        · simp only [hw] at h
          cases h
        · simp only [hw] at h
          cases h
          exact Or.inr ⟨c, d, rfl, rfl, hd, hw⟩

/-- The classification walk of get_classification, extracted. -/
theorem get_classification_inv (s : Store) (k : String) (vcs : List Cls)
    (hvcs : s.get_valid_classes = .ok vcs) (r : Option Cls)
    (h : s.get_classification k = .ok r) :
    Store.get_classification_go s k vcs = .ok r := by
  rw [Store.get_classification, hvcs] at h
  simpa [Bind.bind, Except.bind] using h

/-- A simplify call that finds the key in a non-constant classification
and fails every reduction test returns false with the store
unchanged. -/
theorem simplify_false_of (a : Store) (k : String) (w : PyVal)
    (dest : Cls) (m : Nat)
    (hgvac : a.get_values_and_class k = .ok (w, some dest))
    (hm : a.get_multiplicity (some dest) = .ok m)
    (hne : ¬ dest = ((.glob : Base), (.const : Sub)))
    (hconst : simplifyConstLoop a k dest w (const_tests dest) =
      .ok Option.none)
    (hrep : ∀ rl, repeat_tests? dest = some rl →
      simplifyRepeatLoop a k w rl = .ok Option.none) :
    simplify a k = .ok (false, a) := by
  rcases hrt : repeat_tests? dest with _ | rl
  · simp [simplify, hgvac, hm, hne, hconst, hrt, Bind.bind, Except.bind]
  · have h2 := hrep rl hrt
    simp [simplify, hgvac, hm, hne, hconst, hrt, h2, Bind.bind,
      Except.bind]

/-- A simplify call that finds the key global-constant with a value
other than None returns false with the store unchanged. -/
theorem simplify_false_const (a : Store) (k : String) (w : PyVal)
    (m : Nat)
    (hgvac : a.get_values_and_class k =
      .ok (w, some ((.glob : Base), (.const : Sub))))
    (hm : a.get_multiplicity (some ((.glob : Base), (.const : Sub))) =
      .ok m)
    (hw : ¬ w = PyVal.none) :
    simplify a k = .ok (false, a) := by
  simp [simplify, hgvac, hm, hw, Bind.bind, Except.bind]

/-- A simplify call on a key absent from every valid classification of
a fully allocated store raises ValueError from the multiplicity lookup
of the None classification. -/
theorem simplify_raises_missing (a : Store) (k : String)
    (vcs : List Cls)
    (hvcs : a.get_valid_classes = .ok vcs)
    (hpres : ∀ c ∈ vcs, (a.classDict? c).isSome = true)
    (habs : ∀ c ∈ vcs, inClass a c k = false) :
    simplify a k = .error (.valueError "Invalid classification") := by
  have hgo := get_classification_go_none a k vcs hpres habs
  have hgc : a.get_classification k = .ok Option.none := by
    rw [Store.get_classification, hvcs]
    simpa [Bind.bind, Except.bind] using hgo
  have hgvac : a.get_values_and_class k = .ok (.none, Option.none) := by
    rw [Store.get_values_and_class, hgc]
    simp [Bind.bind, Except.bind]
  have hm : a.get_multiplicity Option.none =
      .error (.valueError "Invalid classification") := by
    rw [Store.get_multiplicity, hvcs]
    simp [Bind.bind, Except.bind]
  simp [simplify, hgvac, hm, Bind.bind, Except.bind]

/-- The valid classes depend only on the shape. -/
theorem gvc_shape_eq (a b : Store) (hsh : a.shape = b.shape) :
    a.get_valid_classes = b.get_valid_classes := by
  rw [Store.get_valid_classes, Store.get_valid_classes, hsh]

/-- The valid-class list depends only on the shape. -/
theorem validClassesOf_shape_eq (a b : Store) (hsh : a.shape = b.shape) :
    validClassesOf a = validClassesOf b := by
  rw [validClassesOf, validClassesOf, gvc_shape_eq a b hsh]

/-- The slice count depends only on the slice dimension and shape. -/
theorem n_slices_eq_of (a b : Store) (hsh : a.shape = b.shape)
    (hsd : a.slice_dim = b.slice_dim) : a.n_slicesE = b.n_slicesE := by
  rw [Store.n_slicesE, Store.n_slicesE, hsh, hsd]

/-- The constancy period toward global-const is the Python None. -/
theorem gcp_to_const (a : Store) (src : Cls) :
    get_const_period a src ((.glob : Base), (.const : Sub)) =
      .ok Option.none := by
  rw [get_const_period, if_pos rfl]

/-- The constancy period from time-samples is the fourth axis. -/
theorem gcp_ts (a : Store) (dest : Cls) (t : Nat)
    (hne : ¬ dest = ((.glob : Base), (.const : Sub)))
    (hget : a.shape.get? 3 = some t) :
    get_const_period a ((.time : Base), (.samples : Sub)) dest =
      .ok (some t) := by
  rw [get_const_period, if_neg hne, if_neg (by simp), if_neg (by simp),
    if_pos rfl]
  have hget2 : a.shape[3]? = some t := by
    rw [← List.get?_eq_getElem?]
    exact hget
  simp [Store.natAt, hget2, Bind.bind, Except.bind]

/-- The constancy period from vector-slices is the slice count. -/
theorem gcp_vsl (a : Store) (dest : Cls) (ns : Option Nat)
    (hne : ¬ dest = ((.glob : Base), (.const : Sub)))
    (hns : a.n_slicesE = .ok ns) :
    get_const_period a ((.vector : Base), (.slices : Sub)) dest =
      .ok ns := by
  rw [get_const_period, if_neg hne, if_neg (by simp), if_pos rfl]
  simp [hns, Bind.bind, Except.bind]

/-- The constancy period from global-slices is the multiplicity
ratio. -/
theorem gcp_gsl (a : Store) (dest : Cls) (m1 m2 : Nat)
    (hne : ¬ dest = ((.glob : Base), (.const : Sub)))
    (h1 : a.get_multiplicity
      (some ((.glob : Base), (.slices : Sub))) = .ok m1)
    (h2 : a.get_multiplicity (some dest) = .ok m2) (hm2 : m2 ≠ 0) :
    get_const_period a ((.glob : Base), (.slices : Sub)) dest =
      .ok (some (m1 / m2)) := by
  rw [get_const_period, if_neg hne, if_pos rfl]
  simp [h1, h2, hm2, Bind.bind, Except.bind]

/-- The constancy period from global-slices raises on a
zero-multiplicity destination. -/
theorem gcp_gsl_zero (a : Store) (dest : Cls) (m1 : Nat)
    (hne : ¬ dest = ((.glob : Base), (.const : Sub)))
    (h1 : a.get_multiplicity
      (some ((.glob : Base), (.slices : Sub))) = .ok m1)
    (h2 : a.get_multiplicity (some dest) = .ok 0) :
    get_const_period a ((.glob : Base), (.slices : Sub)) dest =
      .error .zeroDivisionError := by
  rw [get_const_period, if_neg hne, if_pos rfl]
  simp [h1, h2, Bind.bind, Except.bind]

/-- A successful dictionary lookup exhibits the association pair. -/
theorem dictGet_mem_pair (d : Dict) (k : String) (v : PyVal)
    (h : dictGet? d k = some v) : (k, v) ∈ d := by
  simp only [dictGet?] at h
  rcases hf : d.find? (fun p => p.1 == k) with _ | p
  · rw [hf] at h
    cases h
  · rw [hf] at h
    simp only [Option.map] at h
    have hm := List.mem_of_find?_eq_some hf
    have hk : p.1 = k := by
      have := List.find?_some hf
      simpa [beq_iff_eq] using this
    cases h
    rcases p with ⟨pk, pv⟩
    simp only at hk
    rw [← hk]
    exact hm

/-- A block-constancy test over a single block is the plain constancy
test. -/
theorem blocksConstant_small (p : Nat) (hp : 0 < p) (l : List PyVal)
    (hl : l.length ≤ p) : blocksConstant p l = allEqual l := by
  rcases l with _ | ⟨x, xs⟩
  · rfl
  · rw [blocksConstant, chunkList_cons p _ hp (by simp)]
    have hd : (x :: xs).drop p = [] :=
      List.drop_eq_nil_of_le (by simpa using hl)
    rw [hd, show chunkList p ([] : List PyVal) = [] from rfl,
      List.take_of_length_le hl]
    simp

/-- check_valid splits into the per-class checks and the cross-class
uniqueness check. -/
theorem check_valid_parts (s : Store)
    (hv : Store.check_valid s = .ok ()) :
    Store.checkClasses s (validClassesOf s) = .ok () ∧
    Store.checkUniqOuter s (validClassesOf s) (validClassesOf s) =
      .ok () := by
  obtain ⟨haff, hsd, h3, h6⟩ := check_valid_structural s hv
  have hstep : Store.check_valid s = (do
      Store.checkClasses s (validClassesOf s)
      Store.checkUniqOuter s (validClassesOf s) (validClassesOf s)) := by
    rcases hsl : s.slice_dim with _ | d
    · simp [Store.check_valid, haff, hsl, h3, h6, gvc_ok s h3 h6,
        Bind.bind, Except.bind]
    · have hd3 := hsd d hsl
      simp [Store.check_valid, haff, hsl, hd3, h3, h6, gvc_ok s h3 h6,
        Bind.bind, Except.bind]
  rw [hstep] at hv
  rcases hcase : Store.checkClasses s (validClassesOf s) with e | u
  · rw [hcase] at hv
    simp [Bind.bind, Except.bind] at hv
  · cases u
    refine ⟨rfl, ?_⟩
    rw [hcase] at hv
    simpa [Bind.bind, Except.bind] using hv

/-- A second simplify call returns false when the key sits uniquely in
a valid non-constant destination and every reduction test fails. -/
theorem second_false_generic (a : Store) (k : String) (w : PyVal)
    (dest : Cls) (vcs : List Cls) (m : Nat)
    (hvcs : a.get_valid_classes = .ok vcs)
    (hdest : dest ∈ vcs)
    (hpres : ∀ c ∈ vcs, (a.classDict? c).isSome = true)
    (habs : ∀ c ∈ vcs, c ≠ dest → inClass a c k = false)
    (hin : ∀ d, a.classDict? dest = some d → dictGet? d k = some w)
    (hm : a.get_multiplicity (some dest) = .ok m)
    (hne : ¬ dest = ((.glob : Base), (.const : Sub)))
    (hconst : simplifyConstLoop a k dest w (const_tests dest) =
      .ok Option.none)
    (hrep : ∀ rl, repeat_tests? dest = some rl →
      simplifyRepeatLoop a k w rl = .ok Option.none) :
    simplify a k = .ok (false, a) := by
  obtain ⟨d, hd⟩ := Option.isSome_iff_exists.mp (hpres dest hdest)
  have hgo := get_classification_go_mem a k dest vcs hpres hdest habs
    (by
      simp only [inClass, hd]
      exact dictContains_of_get d k w (hin d hd))
  exact simplify_false_of a k w dest m
    (gvac_compute a k dest w d vcs hvcs hgo hd (hin d hd)) hm hne
    hconst hrep

/-- A value with a sequence view is not the Python None. -/
theorem pySeq_ne_none (v : PyVal) (l : List PyVal)
    (h : pySeq v = some l) : ¬ v = PyVal.none := by
  intro hv
  rw [hv] at h
  cases h

/-- A second simplify call returns false when the key sits uniquely in
global-const with a value other than None. -/
theorem second_after_gc (a : Store) (k : String) (w : PyVal)
    (vcs : List Cls) (m : Nat)
    (hvcs : a.get_valid_classes = .ok vcs)
    (hdest : ((.glob : Base), (.const : Sub)) ∈ vcs)
    (hpres : ∀ c ∈ vcs, (a.classDict? c).isSome = true)
    (habs : ∀ c ∈ vcs, c ≠ ((.glob : Base), (.const : Sub)) →
      inClass a c k = false)
    (hin : ∀ d, a.classDict? ((.glob : Base), (.const : Sub)) =
      some d → dictGet? d k = some w)
    (hm : a.get_multiplicity
      (some ((.glob : Base), (.const : Sub))) = .ok m)
    (hw : ¬ w = PyVal.none) :
    simplify a k = .ok (false, a) := by
  obtain ⟨d, hd⟩ := Option.isSome_iff_exists.mp (hpres _ hdest)
  have hgo := get_classification_go_mem a k _ vcs hpres hdest habs
    (by
      simp only [inClass, hd]
      exact dictContains_of_get d k w (hin d hd))
  exact simplify_false_const a k w m
    (gvac_compute a k _ w d vcs hvcs hgo hd (hin d hd)) hm hw

/-- A second simplify call returns false at a destination whose only
reduction test is global constancy, which fails. -/
theorem second_after_simple (a : Store) (k : String) (w : PyVal)
    (lw : List PyVal) (dest : Cls) (vcs : List Cls) (m : Nat)
    (hct : const_tests dest = [((.glob : Base), (.const : Sub))])
    (hrt : repeat_tests? dest = Option.none)
    (hne : ¬ dest = ((.glob : Base), (.const : Sub)))
    (hvcs : a.get_valid_classes = .ok vcs)
    (hdest : dest ∈ vcs)
    (hpres : ∀ c ∈ vcs, (a.classDict? c).isSome = true)
    (habs : ∀ c ∈ vcs, c ≠ dest → inClass a c k = false)
    (hin : ∀ d, a.classDict? dest = some d → dictGet? d k = some w)
    (hm : a.get_multiplicity (some dest) = .ok m)
    (hseq : pySeq w = some lw)
    (hae : allEqual lw = false) :
    simplify a k = .ok (false, a) := by
  apply second_false_generic a k w dest vcs m hvcs hdest hpres habs hin
    hm hne
  · apply simplifyConstLoop_none_of
    intro d2 hd2
    rw [hct] at hd2
    have hd2e : d2 = ((.glob : Base), (.const : Sub)) := by
      simpa using hd2
    subst hd2e
    refine Or.inr ⟨Option.none, gcp_to_const a dest, ?_⟩
    rw [is_constant_none_eq w lw hseq, hae]
  · intro rl hrl
    rw [hrt] at hrl
    cases hrl

/-- A second simplify call returns false at the time-samples
destination: the global constancy test fails and, when the vector group
is allocated, the fourth-axis constancy test fails as well. -/
theorem second_after_ts (a : Store) (k : String) (w : PyVal)
    (lw : List PyVal) (vcs : List Cls) (m : Nat)
    (hvcs : a.get_valid_classes = .ok vcs)
    (hdest : ((.time : Base), (.samples : Sub)) ∈ vcs)
    (hpres : ∀ c ∈ vcs, (a.classDict? c).isSome = true)
    (habs : ∀ c ∈ vcs, c ≠ ((.time : Base), (.samples : Sub)) →
      inClass a c k = false)
    (hin : ∀ d, a.classDict? ((.time : Base), (.samples : Sub)) =
      some d → dictGet? d k = some w)
    (hm : a.get_multiplicity
      (some ((.time : Base), (.samples : Sub))) = .ok m)
    (hseq : pySeq w = some lw)
    (hae : allEqual lw = false)
    (hvec : a.baseInContent .vector = true →
      ∃ sh3, a.shape.get? 3 = some sh3 ∧ 1 < sh3 ∧
        lw.length % sh3 = 0 ∧ blocksConstant sh3 lw = false) :
    simplify a k = .ok (false, a) := by
  apply second_false_generic a k w _ vcs m hvcs hdest hpres habs hin hm
    (by simp)
  · apply simplifyConstLoop_none_of
    intro d2 hd2
    rw [show const_tests ((.time : Base), (.samples : Sub)) =
      [((.glob : Base), (.const : Sub)),
       ((.vector : Base), (.samples : Sub))] from rfl] at hd2
    rcases List.mem_cons.mp hd2 with rfl | hd2
    · refine Or.inr ⟨Option.none, gcp_to_const a _, ?_⟩
      rw [is_constant_none_eq w lw hseq, hae]
    · have hd2e : d2 = ((.vector : Base), (.samples : Sub)) := by
        simpa using hd2
      subst hd2e
      by_cases hb : a.baseInContent .vector = true
      · obtain ⟨sh3, hg, h1, hdiv, hbc⟩ := hvec hb
        refine Or.inr ⟨some sh3, gcp_ts a _ sh3 (by simp) hg, ?_⟩
        rw [is_constant_some_eq w lw sh3 hseq h1 hdiv, hbc]
      · refine Or.inl ?_
        revert hb
        cases a.baseInContent Base.vector <;> simp
  · intro rl hrl
    rw [show repeat_tests? ((.time : Base), (.samples : Sub)) =
      Option.none from rfl] at hrl
    cases hrl

/-- A second simplify call returns false at the vector-slices
destination: the global constancy test fails and, when the time group
is allocated, the slice-count constancy and repetition tests fail as
well. -/
theorem second_after_vsl (a : Store) (k : String) (w : PyVal)
    (lw : List PyVal) (vcs : List Cls) (m : Nat)
    (hvcs : a.get_valid_classes = .ok vcs)
    (hdest : ((.vector : Base), (.slices : Sub)) ∈ vcs)
    (hpres : ∀ c ∈ vcs, (a.classDict? c).isSome = true)
    (habs : ∀ c ∈ vcs, c ≠ ((.vector : Base), (.slices : Sub)) →
      inClass a c k = false)
    (hin : ∀ d, a.classDict? ((.vector : Base), (.slices : Sub)) =
      some d → dictGet? d k = some w)
    (hm : a.get_multiplicity
      (some ((.vector : Base), (.slices : Sub))) = .ok m)
    (hseq : pySeq w = some lw)
    (hae : allEqual lw = false)
    (htime : a.baseInContent .time = true →
      ∃ ns, a.n_slicesE = .ok (some ns) ∧
        a.get_multiplicity
          (some ((.time : Base), (.slices : Sub))) = .ok ns ∧
        1 < ns ∧ ns < lw.length ∧ lw.length % ns = 0 ∧
        blocksConstant ns lw = false ∧
        (chunkList ns lw).all (fun c => c == lw.take ns) = false) :
    simplify a k = .ok (false, a) := by
  apply second_false_generic a k w _ vcs m hvcs hdest hpres habs hin hm
    (by simp)
  · apply simplifyConstLoop_none_of
    intro d2 hd2
    rw [show const_tests ((.vector : Base), (.slices : Sub)) =
      [((.glob : Base), (.const : Sub)),
       ((.time : Base), (.samples : Sub))] from rfl] at hd2
    rcases List.mem_cons.mp hd2 with rfl | hd2
    · refine Or.inr ⟨Option.none, gcp_to_const a _, ?_⟩
      rw [is_constant_none_eq w lw hseq, hae]
    · have hd2e : d2 = ((.time : Base), (.samples : Sub)) := by
        simpa using hd2
      subst hd2e
      by_cases hb : a.baseInContent .time = true
      · obtain ⟨ns, hns, _, h1, _, hdiv, hbc, _⟩ := htime hb
        refine Or.inr ⟨some ns, gcp_vsl a _ (some ns) (by simp) hns, ?_⟩
        rw [is_constant_some_eq w lw ns hseq h1 hdiv, hbc]
      · refine Or.inl ?_
        revert hb
        cases a.baseInContent Base.time <;> simp
  · intro rl hrl
    rw [show repeat_tests? ((.vector : Base), (.slices : Sub)) =
      some [((.time : Base), (.slices : Sub))] from rfl] at hrl
    cases hrl
    apply simplifyRepeatLoop_none_of
    intro d2 hd2
    have hd2e : d2 = ((.time : Base), (.slices : Sub)) := by
      simpa using hd2
    subst hd2e
    by_cases hb : a.baseInContent .time = true
    · obtain ⟨ns, _, hmt, h1, hlt, hdiv, _, hch⟩ := htime hb
      refine Or.inr ⟨ns, hmt, ?_⟩
      rw [is_repeating_eq w lw ns hseq h1 hlt hdiv, hch]
    · refine Or.inl ?_
      revert hb
      cases a.baseInContent Base.time <;> simp

/-- The facts the second simplify call needs about the store produced
by a reclassifying first call, packaged from the placement lemma. -/
theorem placement_package (s : Store) (k : String) (curr dest : Cls)
    (sv : PyVal) (s₂ s₁ : Store)
    (hne : dest ≠ curr)
    (hset : s.setItemE dest k sv = .ok s₂)
    (hdel : s₂.delItemE curr k = .ok s₁)
    (hpres : ∀ c ∈ validClassesOf s, (s.classDict? c).isSome = true)
    (huniq : ∀ c' ∈ validClassesOf s, c' ≠ curr →
      inClass s c' k = false)
    (hvcsS : s.get_valid_classes = .ok (validClassesOf s)) :
    s₁.get_valid_classes = .ok (validClassesOf s) ∧
    (∀ c ∈ validClassesOf s, (s₁.classDict? c).isSome = true) ∧
    (∀ c ∈ validClassesOf s, c ≠ dest → inClass s₁ c k = false) ∧
    (∀ d, s₁.classDict? dest = some d → dictGet? d k = some sv) ∧
    s₁.shape = s.shape ∧ s₁.slice_dim = s.slice_dim ∧
    (∀ b, s₁.baseInContent b = s.baseInContent b) := by
  obtain ⟨hsh, hsd, hbase, hprof, hdst, hcur, hframe⟩ :=
    first_call_placement s k curr dest sv s₂ s₁ hne hset hdel
  refine ⟨?_, ?_, ?_, hdst, hsh, hsd, hbase⟩
  · rw [gvc_shape_eq s₁ s hsh]
    exact hvcsS
  · intro c hc
    rw [hprof c]
    exact hpres c hc
  · intro c hc hcd
    by_cases hcc : c = curr
    · subst hcc
      obtain ⟨dc, hdc⟩ := Option.isSome_iff_exists.mp
        (by rw [hprof c]; exact hpres c hc)
      have hget := hcur dc hdc
      simp [inClass, hdc, dictContains_eq_isSome, hget]
    · obtain ⟨dc, hdc⟩ := Option.isSome_iff_exists.mp
        (by rw [hprof c]; exact hpres c hc)
      obtain ⟨dc', hdc'⟩ := Option.isSome_iff_exists.mp (hpres c hc)
      have hgg := hframe c hcd hcc dc dc' hdc hdc'
      have hs : dictContains dc' k = false := by
        have := huniq c hc hcc
        simp only [inClass, hdc'] at this
        exact this
      have hfin : dictContains dc k = false := by
        rw [dictContains_eq_isSome, hgg, ← dictContains_eq_isSome]
        exact hs
      simp [inClass, hdc, hfin]

/-- After simplify deletes a None-valued global-const key, a second
simplify call on the key raises ValueError from the multiplicity lookup
of the None classification. -/
theorem deletion_second_raises (s : Store) (k : String)
    (hpres : ∀ c ∈ validClassesOf s, (s.classDict? c).isSome = true)
    (huniq : ∀ c' ∈ validClassesOf s,
      c' ≠ ((.glob : Base), (.const : Sub)) → inClass s c' k = false)
    (hvcsS : s.get_valid_classes = .ok (validClassesOf s)) :
    simplify (s.withClassDict ((.glob : Base), (.const : Sub))
      (dictErase s.gConst k)) k =
      .error (.valueError "Invalid classification") := by
  apply simplify_raises_missing _ k (validClassesOf s)
  · rw [gvc_shape_eq _ s ((withClassDict_frame s _ _).1)]
    exact hvcsS
  · intro c hc
    by_cases hcg : c = ((.glob : Base), (.const : Sub))
    · subst hcg
      rw [classDict_with_same s ((.glob : Base), (.const : Sub))
        (dictErase s.gConst k) (by rfl)]
      rfl
    · rw [classDict_with_other s _ _ c hcg]
      exact hpres c hc
  · intro c hc
    by_cases hcg : c = ((.glob : Base), (.const : Sub))
    · subst hcg
      have hsame := classDict_with_same s
        ((.glob : Base), (.const : Sub)) (dictErase s.gConst k)
        (by rfl)
      simp only [inClass, hsame]
      rw [dictContains_eq_isSome, dictGet_erase_self]
      rfl
    · have hoth := classDict_with_other s
        ((.glob : Base), (.const : Sub)) (dictErase s.gConst k) c hcg
      simp only [inClass, hoth]
      have := huniq c hc hcg
      simp only [inClass] at this
      exact this

/-- After reclassifying into global-const, a second simplify call
returns false. -/
theorem wrapper_gc (s : Store) (k : String) (curr : Cls) (sv : PyVal)
    (s₂ s₁ : Store)
    (hne : ((.glob : Base), (.const : Sub)) ≠ curr)
    (hset : s.setItemE ((.glob : Base), (.const : Sub)) k sv = .ok s₂)
    (hdel : s₂.delItemE curr k = .ok s₁)
    (hpres : ∀ c ∈ validClassesOf s, (s.classDict? c).isSome = true)
    (huniq : ∀ c' ∈ validClassesOf s, c' ≠ curr →
      inClass s c' k = false)
    (hvcsS : s.get_valid_classes = .ok (validClassesOf s))
    (h3 : 3 ≤ s.shape.length) (h6 : s.shape.length < 6)
    (hsdlt : ∀ d, s.slice_dim = some d → d < 3)
    (hdestv : ((.glob : Base), (.const : Sub)) ∈ validClassesOf s)
    (hw : ¬ sv = PyVal.none) :
    simplify s₁ k = .ok (false, s₁) := by
  obtain ⟨hvcs₁, hpres₁, habs₁, hin₁, hsh, hsd, hbase⟩ :=
    placement_package s k curr _ sv s₂ s₁ hne hset hdel hpres huniq
      hvcsS
  have h3₁ : 3 ≤ s₁.shape.length := by rw [hsh]; exact h3
  have h6₁ : s₁.shape.length < 6 := by rw [hsh]; exact h6
  have hsd₁ : ∀ d, s₁.slice_dim = some d → d < 3 := by
    intro d hd
    rw [hsd] at hd
    exact hsdlt d hd
  have hdest₁ : ((.glob : Base), (.const : Sub)) ∈
      validClassesOf s₁ := by
    rw [validClassesOf_shape_eq s₁ s hsh]
    exact hdestv
  have hm₁ := mult_table_of_valid s₁ h3₁ h6₁ hsd₁ _ hdest₁
  exact second_after_gc s₁ k sv (validClassesOf s) _ hvcs₁ hdestv
    hpres₁ habs₁ hin₁ hm₁ hw

/-- After reclassifying into a destination with only the global
constancy test, a second simplify call returns false. -/
theorem wrapper_simple (s : Store) (k : String) (curr dest : Cls)
    (sv : PyVal) (lw : List PyVal) (s₂ s₁ : Store)
    (hct : const_tests dest = [((.glob : Base), (.const : Sub))])
    (hrt : repeat_tests? dest = Option.none)
    (hnegc : ¬ dest = ((.glob : Base), (.const : Sub)))
    (hne : dest ≠ curr)
    (hset : s.setItemE dest k sv = .ok s₂)
    (hdel : s₂.delItemE curr k = .ok s₁)
    (hpres : ∀ c ∈ validClassesOf s, (s.classDict? c).isSome = true)
    (huniq : ∀ c' ∈ validClassesOf s, c' ≠ curr →
      inClass s c' k = false)
    (hvcsS : s.get_valid_classes = .ok (validClassesOf s))
    (h3 : 3 ≤ s.shape.length) (h6 : s.shape.length < 6)
    (hsdlt : ∀ d, s.slice_dim = some d → d < 3)
    (hdestv : dest ∈ validClassesOf s)
    (hseq : pySeq sv = some lw)
    (hae : allEqual lw = false) :
    simplify s₁ k = .ok (false, s₁) := by
  obtain ⟨hvcs₁, hpres₁, habs₁, hin₁, hsh, hsd, hbase⟩ :=
    placement_package s k curr dest sv s₂ s₁ hne hset hdel hpres huniq
      hvcsS
  have h3₁ : 3 ≤ s₁.shape.length := by rw [hsh]; exact h3
  have h6₁ : s₁.shape.length < 6 := by rw [hsh]; exact h6
  have hsd₁ : ∀ d, s₁.slice_dim = some d → d < 3 := by
    intro d hd
    rw [hsd] at hd
    exact hsdlt d hd
  have hdest₁ : dest ∈ validClassesOf s₁ := by
    rw [validClassesOf_shape_eq s₁ s hsh]
    exact hdestv
  have hm₁ := mult_table_of_valid s₁ h3₁ h6₁ hsd₁ _ hdest₁
  exact second_after_simple s₁ k sv lw dest (validClassesOf s) _ hct
    hrt hnegc hvcs₁ hdestv hpres₁ habs₁ hin₁ hm₁ hseq hae

/-- After reclassifying into time-samples, a second simplify call
returns false. -/
theorem wrapper_ts (s : Store) (k : String) (curr : Cls) (sv : PyVal)
    (lw : List PyVal) (s₂ s₁ : Store)
    (hne : ((.time : Base), (.samples : Sub)) ≠ curr)
    (hset : s.setItemE ((.time : Base), (.samples : Sub)) k sv = .ok s₂)
    (hdel : s₂.delItemE curr k = .ok s₁)
    (hpres : ∀ c ∈ validClassesOf s, (s.classDict? c).isSome = true)
    (huniq : ∀ c' ∈ validClassesOf s, c' ≠ curr →
      inClass s c' k = false)
    (hvcsS : s.get_valid_classes = .ok (validClassesOf s))
    (h3 : 3 ≤ s.shape.length) (h6 : s.shape.length < 6)
    (hsdlt : ∀ d, s.slice_dim = some d → d < 3)
    (hdestv : ((.time : Base), (.samples : Sub)) ∈ validClassesOf s)
    (hseq : pySeq sv = some lw)
    (hae : allEqual lw = false)
    (hvec : s.baseInContent .vector = true →
      ∃ sh3, s.shape.get? 3 = some sh3 ∧ 1 < sh3 ∧
        lw.length % sh3 = 0 ∧ blocksConstant sh3 lw = false) :
    simplify s₁ k = .ok (false, s₁) := by
  obtain ⟨hvcs₁, hpres₁, habs₁, hin₁, hsh, hsd, hbase⟩ :=
    placement_package s k curr _ sv s₂ s₁ hne hset hdel hpres huniq
      hvcsS
  have h3₁ : 3 ≤ s₁.shape.length := by rw [hsh]; exact h3
  have h6₁ : s₁.shape.length < 6 := by rw [hsh]; exact h6
  have hsd₁ : ∀ d, s₁.slice_dim = some d → d < 3 := by
    intro d hd
    rw [hsd] at hd
    exact hsdlt d hd
  have hdest₁ : ((.time : Base), (.samples : Sub)) ∈
      validClassesOf s₁ := by
    rw [validClassesOf_shape_eq s₁ s hsh]
    exact hdestv
  have hm₁ := mult_table_of_valid s₁ h3₁ h6₁ hsd₁ _ hdest₁
  refine second_after_ts s₁ k sv lw (validClassesOf s) _ hvcs₁ hdestv
    hpres₁ habs₁ hin₁ hm₁ hseq hae ?_
  intro hb
  rw [hbase] at hb
  obtain ⟨sh3, hg, h1, hdiv, hbc⟩ := hvec hb
  exact ⟨sh3, by rw [hsh]; exact hg, h1, hdiv, hbc⟩

/-- After reclassifying into vector-slices, a second simplify call
returns false. -/
theorem wrapper_vsl (s : Store) (k : String) (curr : Cls) (sv : PyVal)
    (lw : List PyVal) (s₂ s₁ : Store)
    (hne : ((.vector : Base), (.slices : Sub)) ≠ curr)
    (hset : s.setItemE ((.vector : Base), (.slices : Sub)) k sv =
      .ok s₂)
    (hdel : s₂.delItemE curr k = .ok s₁)
    (hpres : ∀ c ∈ validClassesOf s, (s.classDict? c).isSome = true)
    (huniq : ∀ c' ∈ validClassesOf s, c' ≠ curr →
      inClass s c' k = false)
    (hvcsS : s.get_valid_classes = .ok (validClassesOf s))
    (h3 : 3 ≤ s.shape.length) (h6 : s.shape.length < 6)
    (hsdlt : ∀ d, s.slice_dim = some d → d < 3)
    (hdestv : ((.vector : Base), (.slices : Sub)) ∈ validClassesOf s)
    (hseq : pySeq sv = some lw)
    (hae : allEqual lw = false)
    (htime : s.baseInContent .time = true →
      ((.time : Base), (.slices : Sub)) ∈ validClassesOf s ∧
      ∃ ns, s.n_slicesE = .ok (some ns) ∧
        s.get_multiplicity
          (some ((.time : Base), (.slices : Sub))) = .ok ns ∧
        1 < ns ∧ ns < lw.length ∧ lw.length % ns = 0 ∧
        blocksConstant ns lw = false ∧
        (chunkList ns lw).all (fun c => c == lw.take ns) = false) :
    simplify s₁ k = .ok (false, s₁) := by
  obtain ⟨hvcs₁, hpres₁, habs₁, hin₁, hsh, hsd, hbase⟩ :=
    placement_package s k curr _ sv s₂ s₁ hne hset hdel hpres huniq
      hvcsS
  have h3₁ : 3 ≤ s₁.shape.length := by rw [hsh]; exact h3
  have h6₁ : s₁.shape.length < 6 := by rw [hsh]; exact h6
  have hsd₁ : ∀ d, s₁.slice_dim = some d → d < 3 := by
    intro d hd
    rw [hsd] at hd
    exact hsdlt d hd
  have hdest₁ : ((.vector : Base), (.slices : Sub)) ∈
      validClassesOf s₁ := by
    rw [validClassesOf_shape_eq s₁ s hsh]
    exact hdestv
  have hm₁ := mult_table_of_valid s₁ h3₁ h6₁ hsd₁ _ hdest₁
  refine second_after_vsl s₁ k sv lw (validClassesOf s) _ hvcs₁ hdestv
    hpres₁ habs₁ hin₁ hm₁ hseq hae ?_
  intro hb
  rw [hbase] at hb
  obtain ⟨htsl_mem, ns, hns, hmts, h1, hlt, hdiv, hbc, hch⟩ := htime hb
  refine ⟨ns, by
      rw [n_slices_eq_of s₁ s hsh hsd]
      exact hns, ?_, h1, hlt, hdiv, hbc, hch⟩
  have htsl₁ : ((.time : Base), (.slices : Sub)) ∈
      validClassesOf s₁ := by
    rw [validClassesOf_shape_eq s₁ s hsh]
    exact htsl_mem
  have h2 := mult_table_of_valid s₁ h3₁ h6₁ hsd₁ _ htsl₁
  have h1t := mult_table_of_valid s h3 h6 hsdlt _ htsl_mem
  rw [h1t] at hmts
  injection hmts with hmts
  rw [h2, hsh, hsd, hmts]

/-- Vector-samples is only valid for five-axis shapes. -/
theorem vs_vcs_len (s : Store) (h3 : 3 ≤ s.shape.length)
    (h6 : s.shape.length < 6)
    (h : ((.vector : Base), (.samples : Sub)) ∈ validClassesOf s) :
    s.shape.length = 5 := by
  have hL : s.shape.length = 3 ∨ s.shape.length = 4 ∨
      s.shape.length = 5 := by omega
  rcases hL with hL | hL | hL
  · rw [validClassesOf_eq s _ (gvc_len3 s hL)] at h
    simp at h
  · rw [validClassesOf_eq s _ (gvc_len4 s hL)] at h
    simp at h
  · exact hL

/-- Time-samples valid on a five-axis shape forces a non-singleton
fourth axis. -/
theorem ts_vcs_sh3 (s : Store) (hL : s.shape.length = 5)
    (h : ((.time : Base), (.samples : Sub)) ∈ validClassesOf s) :
    s.shape.getD 3 0 ≠ 1 := by
  intro h1
  rw [validClassesOf_eq s _ (gvc_len5_one s hL h1)] at h
  simp [fourClassList] at h

/-- The time-samples multiplicity is the product of the axes past the
third. -/
theorem mts_eq_prod (sh : List Nat) (h : sh.length = 4 ∨ sh.length = 5) :
    (if sh.length = 5 then sh.getD 3 0 * sh.getD 4 0 else sh.getD 3 0) =
      (sh.drop 3).prod := by
  rcases h with h | h
  · obtain ⟨a, b, c, d, rfl⟩ := len_eq_four sh h
    simp
  · obtain ⟨a, b, c, d, e, rfl⟩ := len_eq_five sh h
    simp

/-- The constancy period from global-slices propagates a multiplicity
error of the destination. -/
theorem gcp_gsl_err (a : Store) (dest : Cls) (m1 : Nat) (e : PyErr)
    (hne : ¬ dest = ((.glob : Base), (.const : Sub)))
    (h1 : a.get_multiplicity
      (some ((.glob : Base), (.slices : Sub))) = .ok m1)
    (h2 : a.get_multiplicity (some dest) = .error e) :
    get_const_period a ((.glob : Base), (.slices : Sub)) dest =
      .error e := by
  rw [get_const_period, if_neg hne, if_pos rfl]
  simp [h1, h2, Bind.bind, Except.bind]

/-- A list index below the length yields the default-indexed entry. -/
theorem get?_getD (l : List Nat) (i : Nat) (h : i < l.length) :
    l.get? i = some (l.getD i 0) := by
  rw [List.get?_eq_getElem?, List.getElem?_eq_getElem h,
    List.getD_eq_getElem l 0 h]

/-- The first simplify call on a global-const key: a None value is
deleted and a second call raises; any other value is left alone (so
the first call cannot have returned true). -/
theorem leg_gc (s : Store) (k : String) (v : PyVal) (s₁ : Store)
    (hpres : ∀ c ∈ validClassesOf s, (s.classDict? c).isSome = true)
    (huniq : ∀ c' ∈ validClassesOf s,
      c' ≠ ((.glob : Base), (.const : Sub)) → inClass s c' k = false)
    (hvcsS : s.get_valid_classes = .ok (validClassesOf s))
    (h3 : 3 ≤ s.shape.length) (h6 : s.shape.length < 6)
    (hsdlt : ∀ d, s.slice_dim = some d → d < 3)
    (hmem : ((.glob : Base), (.const : Sub)) ∈ validClassesOf s)
    (hgv : s.get_values_and_class k =
      .ok (v, some ((.glob : Base), (.const : Sub))))
    (hdc : dictGet? s.gConst k = some v)
    (h : simplify s k = .ok (true, s₁)) :
    (dictGet? s.gConst k = some PyVal.none →
       simplify s₁ k = .error (.valueError "Invalid classification")) ∧
    (¬ dictGet? s.gConst k = some PyVal.none →
       simplify s₁ k = .ok (false, s₁)) := by
  have hm1 : s.get_multiplicity
      (some ((.glob : Base), (.const : Sub))) = .ok 1 :=
    mult_table_of_valid s h3 h6 hsdlt _ hmem
  by_cases hvn : v = PyVal.none
  · subst hvn
    have hdel : s.delItemE ((.glob : Base), (.const : Sub)) k =
        .ok (s.withClassDict ((.glob : Base), (.const : Sub))
          (dictErase s.gConst k)) := by
      rw [Store.delItemE, Store.get_class_dict]
      have hcon : dictContains s.gConst k = true :=
        dictContains_of_get _ _ _ hdc
      simp [Store.classDict?, hcon, Bind.bind, Except.bind]
    have hcomp : simplify s k = .ok (true,
        s.withClassDict ((.glob : Base), (.const : Sub))
          (dictErase s.gConst k)) := by
      simp [simplify, hgv, hm1, hdel, Bind.bind, Except.bind]
    rw [hcomp] at h
    injection h with h2
    injection h2 with h2a h2b
    constructor
    · intro _
      rw [← h2b]
      exact deletion_second_raises s k hpres huniq hvcsS
    · intro hcontra
      exact absurd hdc hcontra
  · have hcomp : simplify s k = .ok (false, s) :=
      simplify_false_const s k v 1 hgv hm1 hvn
    rw [hcomp] at h
    injection h with h2
    injection h2 with h2a h2b
    cases h2a

/-- After a global-slices key is reclassified to time-samples by the
constancy pass of simplify, a second simplify call returns false. -/
theorem leg_ts_from_gsl (s : Store) (k : String) (v sv : PyVal)
    (per : Option Nat) (s₂ s₁ : Store)
    (hpres : ∀ c ∈ validClassesOf s, (s.classDict? c).isSome = true)
    (huniq : ∀ c' ∈ validClassesOf s,
      c' ≠ ((.glob : Base), (.slices : Sub)) → inClass s c' k = false)
    (hvcsS : s.get_valid_classes = .ok (validClassesOf s))
    (h3 : 3 ≤ s.shape.length) (h6 : s.shape.length < 6)
    (hsdlt : ∀ d, s.slice_dim = some d → d < 3)
    (hcur_mem : ((.glob : Base), (.slices : Sub)) ∈ validClassesOf s)
    (hvlen : ∀ m, s.get_multiplicity
      (some ((.glob : Base), (.slices : Sub))) = .ok m → 1 < m →
      pyLen v = some m)
    (hm0 : ¬ s.get_multiplicity
      (some ((.glob : Base), (.slices : Sub))) = .ok 0)
    (hper : get_const_period s ((.glob : Base), (.slices : Sub))
      ((.time : Base), (.samples : Sub)) = .ok per)
    (hict : is_constant v per = .ok true)
    (hsv : pySliceStep v per = .ok sv)
    (hset : s.setItemE ((.time : Base), (.samples : Sub)) k sv = .ok s₂)
    (hdel : s₂.delItemE ((.glob : Base), (.slices : Sub)) k = .ok s₁)
    (hgcf : is_constant v Option.none = .ok false)
    (hvsf : s.baseInContent .vector = false ∨
      ∃ per2, get_const_period s ((.glob : Base), (.slices : Sub))
        ((.vector : Base), (.samples : Sub)) = .ok per2 ∧
        is_constant v per2 = .ok false) :
    simplify s₁ k = .ok (false, s₁) := by
  obtain ⟨lv, hseq, hcase⟩ := is_constant_ok_inv v Option.none false hgcf
  have haelv : allEqual lv = false := by
    rcases hcase with ⟨_, hb⟩ | ⟨p, hp, _⟩
    · exact hb.symm
    · cases hp
  have hmgs := mult_table_of_valid s h3 h6 hsdlt _ hcur_mem
  rcases hslice : s.slice_dim with _ | sd
  · rw [hslice] at hmgs
    simp only [multiplicityTable] at hmgs
    exact absurd hmgs hm0
  · rw [hslice] at hmgs
    simp only [multiplicityTable] at hmgs
    rcases hmts : s.get_multiplicity
        (some ((.time : Base), (.samples : Sub))) with e | mts
    · rw [gcp_gsl_err s _ _ e (by decide) hmgs hmts] at hper
      cases hper
    · by_cases hts_mem : ((.time : Base), (.samples : Sub)) ∈
          validClassesOf s
      swap
      · rw [mult_invalid s h3 h6 _ hts_mem] at hmts
        cases hmts
      have htbl := mult_table_of_valid s h3 h6 hsdlt _ hts_mem
      rw [hmts] at htbl
      injection htbl with htbl
      have h45 : s.shape.length = 4 ∨ s.shape.length = 5 := by
        have hne3 : s.shape.length ≠ 3 := by
          intro hL
          rw [validClassesOf_eq s _ (gvc_len3 s hL)] at hts_mem
          simp at hts_mem
        omega
      have hmtsP : mts = (s.shape.drop 3).prod := by
        rw [htbl]
        simp only [multiplicityTable]
        exact mts_eq_prod s.shape h45
      have hPne : (s.shape.drop 3).prod ≠ 0 := by
        intro h0
        rw [gcp_gsl_zero s _ _ (by decide) hmgs
          (by rw [hmts, hmtsP, h0])] at hper
        cases hper
      have hperc := gcp_gsl s _ _ mts (by decide) hmgs hmts
        (by rw [hmtsP]; exact hPne)
      rw [hperc] at hper
      injection hper with hper
      subst hper
      have hdiv_ns : s.shape.getD sd 0 * (s.shape.drop 3).prod / mts =
          s.shape.getD sd 0 := by
        rw [hmtsP]
        exact Nat.mul_div_cancel _ (Nat.pos_of_ne_zero hPne)
      rw [hdiv_ns] at hict hsv
      obtain ⟨lv2, hseq2, hcase2⟩ := is_constant_ok_inv v _ true hict
      rw [hseq] at hseq2
      injection hseq2 with hseq2
      subst hseq2
      rcases hcase2 with ⟨hpn, _⟩ | ⟨p, hp, h1p, hdvp, hbp⟩
      · cases hpn
      · injection hp with hp
        subst hp
        have hblocks : blocksConstant (s.shape.getD sd 0) lv = true :=
          hbp.symm
        obtain ⟨w, hw, hwseq, _⟩ := pySliceStep_some_seq v
          (s.shape.getD sd 0) lv hseq (by omega)
        rw [hw] at hsv
        injection hsv with hsv
        subst hsv
        have haew : allEqual (takeEvery (s.shape.getD sd 0) lv) =
            false := by
          cases hq : allEqual (takeEvery (s.shape.getD sd 0) lv)
          · rfl
          · have := lemA (s.shape.getD sd 0) (by omega) lv hblocks hq
            rw [this] at haelv
            cases haelv
        have h1m : 1 < s.shape.getD sd 0 * (s.shape.drop 3).prod := by
          have hP1 : 1 ≤ (s.shape.drop 3).prod :=
            Nat.pos_of_ne_zero hPne
          calc 1 < s.shape.getD sd 0 := h1p
          _ = s.shape.getD sd 0 * 1 := (Nat.mul_one _).symm
          _ ≤ s.shape.getD sd 0 * (s.shape.drop 3).prod :=
            Nat.mul_le_mul_left _ hP1
        have hlenv := hvlen _ hmgs h1m
        rw [pyLen, hseq] at hlenv
        simp only [Option.map] at hlenv
        injection hlenv with hlenv
        have hlw : (takeEvery (s.shape.getD sd 0) lv).length =
            (s.shape.drop 3).prod := by
          rw [takeEvery_length_dvd _ (by omega) lv hdvp, hlenv,
            Nat.mul_div_cancel_left _ (by omega)]
        refine wrapper_ts s k _ w (takeEvery (s.shape.getD sd 0) lv)
          s₂ s₁ (by decide) hset hdel hpres huniq hvcsS h3 h6 hsdlt
          hts_mem hwseq haew ?_
        intro hbv
        rcases hvsf with hvf | ⟨per2, hper2, hicf2⟩
        · rw [hvf] at hbv
          cases hbv
        · rcases hmvs : s.get_multiplicity
              (some ((.vector : Base), (.samples : Sub))) with e2 | mvs
          · rw [gcp_gsl_err s _ _ e2 (by decide) hmgs hmvs] at hper2
            cases hper2
          · by_cases hvs_mem : ((.vector : Base), (.samples : Sub)) ∈
                validClassesOf s
            swap
            · rw [mult_invalid s h3 h6 _ hvs_mem] at hmvs
              cases hmvs
            have hL5 := vs_vcs_len s h3 h6 hvs_mem
            obtain ⟨A, B, C, D, E, hSh⟩ := len_eq_five s.shape hL5
            have htblv := mult_table_of_valid s h3 h6 hsdlt _ hvs_mem
            rw [hmvs] at htblv
            injection htblv with htblv
            have hmvsE : mvs = E := by
              rw [htblv]
              simp only [multiplicityTable]
              rw [hSh]
              rfl
            have hEne : E ≠ 0 := by
              intro h0
              rw [gcp_gsl_zero s _ _ (by decide) hmgs
                (by rw [hmvs, hmvsE, h0])] at hper2
              cases hper2
            have hperc2 := gcp_gsl s _ _ mvs (by decide) hmgs hmvs
              (by rw [hmvsE]; exact hEne)
            rw [hperc2] at hper2
            injection hper2 with hper2
            subst hper2
            have hPDE : (s.shape.drop 3).prod = D * E := by
              rw [hSh]
              simp
            have hdiv2 : s.shape.getD sd 0 * (s.shape.drop 3).prod /
                mvs = s.shape.getD sd 0 * D := by
              rw [hPDE, hmvsE, ← Nat.mul_assoc,
                Nat.mul_div_cancel _ (Nat.pos_of_ne_zero hEne)]
            rw [hdiv2] at hicf2
            obtain ⟨lv3, hseq3, hcase3⟩ := is_constant_ok_inv v _ false
              hicf2
            rw [hseq] at hseq3
            injection hseq3 with hseq3
            subst hseq3
            rcases hcase3 with ⟨hpn, _⟩ | ⟨p2, hp2, h1p2, hdvp2, hbp2⟩
            · cases hpn
            · injection hp2 with hp2
              subst hp2
              have hDne : D ≠ 0 := by
                intro h0
                rw [hPDE, h0] at hPne
                simp at hPne
              have hD1 : D ≠ 1 := by
                have hx := ts_vcs_sh3 s hL5 hts_mem
                rw [hSh] at hx
                simpa using hx
              have hbD : blocksConstant D
                  (takeEvery (s.shape.getD sd 0) lv) = false := by
                cases hq : blocksConstant D
                    (takeEvery (s.shape.getD sd 0) lv)
                · rfl
                · have hBB := lemB (s.shape.getD sd 0) D (by omega)
                    (by omega) lv hblocks hq
                  rw [hBB] at hbp2
                  cases hbp2
              refine ⟨D, ?_, by omega, ?_, hbD⟩
              · rw [hSh]
                rfl
              · rw [hlw, hPDE]
                exact Nat.mul_mod_right D E

/-- Vector-slices is only valid for five-axis shapes. -/
theorem vsl_vcs_len (s : Store) (h3 : 3 ≤ s.shape.length)
    (h6 : s.shape.length < 6)
    (h : ((.vector : Base), (.slices : Sub)) ∈ validClassesOf s) :
    s.shape.length = 5 := by
  have hL : s.shape.length = 3 ∨ s.shape.length = 4 ∨
      s.shape.length = 5 := by omega
  rcases hL with hL | hL | hL
  · rw [validClassesOf_eq s _ (gvc_len3 s hL)] at h
    simp at h
  · rw [validClassesOf_eq s _ (gvc_len4 s hL)] at h
    simp at h
  · exact hL

/-- Wherever time-samples is valid, so is time-slices. -/
theorem tsl_of_ts_vcs (s : Store) (h3 : 3 ≤ s.shape.length)
    (h6 : s.shape.length < 6)
    (h : ((.time : Base), (.samples : Sub)) ∈ validClassesOf s) :
    ((.time : Base), (.slices : Sub)) ∈ validClassesOf s := by
  have hL : s.shape.length = 3 ∨ s.shape.length = 4 ∨
      s.shape.length = 5 := by omega
  rcases hL with hL | hL | hL
  · rw [validClassesOf_eq s _ (gvc_len3 s hL)] at h
    simp at h
  · rw [validClassesOf_eq s _ (gvc_len4 s hL)] at h ⊢
    simp
  · by_cases ht : s.shape.getD 3 0 = 1
    · rw [validClassesOf_eq s _ (gvc_len5_one s hL ht)] at h
      simp [fourClassList] at h
    · rw [validClassesOf_eq s _ (gvc_len5_ne s hL ht)] at h ⊢
      simp [classifications]

/-- After a global-slices key is reclassified to vector-slices by the
repetition pass of simplify, a second simplify call returns false. -/
theorem leg_vsl_from_gsl (s : Store) (k : String) (v tv : PyVal)
    (dmv : Nat) (s₂ s₁ : Store)
    (hpres : ∀ c ∈ validClassesOf s, (s.classDict? c).isSome = true)
    (huniq : ∀ c' ∈ validClassesOf s,
      c' ≠ ((.glob : Base), (.slices : Sub)) → inClass s c' k = false)
    (hvcsS : s.get_valid_classes = .ok (validClassesOf s))
    (h3 : 3 ≤ s.shape.length) (h6 : s.shape.length < 6)
    (hsdlt : ∀ d, s.slice_dim = some d → d < 3)
    (hcur_mem : ((.glob : Base), (.slices : Sub)) ∈ validClassesOf s)
    (hts_memN : s.baseInContent .time = true →
      ((.time : Base), (.samples : Sub)) ∈ validClassesOf s)
    (hmdv : s.get_multiplicity
      (some ((.vector : Base), (.slices : Sub))) = .ok dmv)
    (hirt : is_repeating v dmv = .ok true)
    (htv : pyTake v dmv = .ok tv)
    (hset : s.setItemE ((.vector : Base), (.slices : Sub)) k tv =
      .ok s₂)
    (hdel : s₂.delItemE ((.glob : Base), (.slices : Sub)) k = .ok s₁)
    (hgcf : is_constant v Option.none = .ok false)
    (htsf : s.baseInContent .time = false ∨
      ∃ per3, get_const_period s ((.glob : Base), (.slices : Sub))
        ((.time : Base), (.samples : Sub)) = .ok per3 ∧
        is_constant v per3 = .ok false)
    (htslf : s.baseInContent .time = false ∨
      ∃ dmt, s.get_multiplicity
        (some ((.time : Base), (.slices : Sub))) = .ok dmt ∧
        is_repeating v dmt = .ok false) :
    simplify s₁ k = .ok (false, s₁) := by
  obtain ⟨lv, hseq, hcase⟩ := is_constant_ok_inv v Option.none false hgcf
  have haelv : allEqual lv = false := by
    rcases hcase with ⟨_, hb⟩ | ⟨p, hp, _⟩
    · exact hb.symm
    · cases hp
  obtain ⟨lv2, hseq2, h1dmv, hltdmv, hmodv, hchv⟩ :=
    is_repeating_ok_inv v dmv true hirt
  rw [hseq] at hseq2
  injection hseq2 with hseq2
  subst hseq2
  have hch : (chunkList dmv lv).all (fun c => c == lv.take dmv) =
      true := hchv.symm
  -- vector-slices is valid, so the shape has five axes
  by_cases hvsl_mem : ((.vector : Base), (.slices : Sub)) ∈
      validClassesOf s
  swap
  · rw [mult_invalid s h3 h6 _ hvsl_mem] at hmdv
    cases hmdv
  have hL5 := vsl_vcs_len s h3 h6 hvsl_mem
  -- the slice dimension is present
  rcases hslice : s.slice_dim with _ | sd
  · have htblv := mult_table_of_valid s h3 h6 hsdlt _ hvsl_mem
    rw [hmdv, hslice] at htblv
    simp only [multiplicityTable] at htblv
    injection htblv with htblv
    omega
  · have htblv := mult_table_of_valid s h3 h6 hsdlt _ hvsl_mem
    rw [hmdv, hslice] at htblv
    simp only [multiplicityTable] at htblv
    injection htblv with htblv
    -- htblv : dmv = ns * sh3
    obtain ⟨w, hwt, hwseq, _⟩ := pyTake_seq v dmv lv hseq
    rw [hwt] at htv
    injection htv with htv
    subst htv
    have hlwlen : (lv.take dmv).length = dmv := by
      rw [List.length_take]
      omega
    have haew : allEqual (lv.take dmv) = false := by
      cases hq : allEqual (lv.take dmv)
      · rfl
      · have := lemC dmv (by omega) lv hch hq
        rw [this] at haelv
        cases haelv
    refine wrapper_vsl s k _ w (lv.take dmv) s₂ s₁ (by decide) hset
      hdel hpres huniq hvcsS h3 h6 hsdlt hvsl_mem hwseq haew ?_
    intro hbt
    have hts_mem := hts_memN hbt
    have htsl_mem := tsl_of_ts_vcs s h3 h6 hts_mem
    refine ⟨htsl_mem, s.shape.getD sd 0, ?_, ?_, ?_⟩
    · -- the slice count
      rw [Store.n_slicesE]
      simp only [hslice,
        get?_getD s.shape sd (by have := hsdlt sd hslice; omega)]
    · -- the time-slices multiplicity
      have hmtsl := mult_table_of_valid s h3 h6 hsdlt _ htsl_mem
      rw [hmtsl, hslice]
      simp only [multiplicityTable]
    · -- the numeric side conditions and failed tests
      rcases htslf with hf | ⟨dmt, hmdt, hirf⟩
      · rw [hf] at hbt
        cases hbt
      have hmtsl := mult_table_of_valid s h3 h6 hsdlt _ htsl_mem
      rw [hmdt, hslice] at hmtsl
      simp only [multiplicityTable] at hmtsl
      injection hmtsl with hmtsl
      -- hmtsl : dmt = ns
      obtain ⟨lv3, hseq3, h1dmt, hltdmt, hmodt, hcht⟩ :=
        is_repeating_ok_inv v dmt false hirf
      rw [hseq] at hseq3
      injection hseq3 with hseq3
      subst hseq3
      have hchtf : (chunkList dmt lv).all
          (fun c => c == lv.take dmt) = false := hcht.symm
      -- the fourth axis
      obtain ⟨A, B, C, D, E, hSh⟩ := len_eq_five s.shape hL5
      have hD : s.shape.getD 3 0 = D := by
        rw [hSh]
        rfl
      have hDne : D ≠ 0 := by
        intro h0
        rw [hD, h0, Nat.mul_zero] at htblv
        omega
      have hD1 : D ≠ 1 := by
        have hx := ts_vcs_sh3 s hL5 hts_mem
        rw [hD] at hx
        exact hx
      have hnslt : s.shape.getD sd 0 < dmv := by
        have h2a : s.shape.getD sd 0 * 2 ≤
            s.shape.getD sd 0 * D := by
          apply Nat.mul_le_mul_left
          omega
        rw [htblv, hD]
        omega
      -- the time-samples constancy of the original value failed
      rcases htsf with hf | ⟨per3, hper3, hicf3⟩
      · rw [hf] at hbt
        cases hbt
      have hmgs := mult_table_of_valid s h3 h6 hsdlt _ hcur_mem
      rw [hslice] at hmgs
      simp only [multiplicityTable] at hmgs
      rcases hmts : s.get_multiplicity
          (some ((.time : Base), (.samples : Sub))) with e | mts
      · rw [gcp_gsl_err s _ _ e (by decide) hmgs hmts] at hper3
        cases hper3
      have htblt := mult_table_of_valid s h3 h6 hsdlt _ hts_mem
      rw [hmts] at htblt
      injection htblt with htblt
      have hmtsP : mts = (s.shape.drop 3).prod := by
        rw [htblt]
        simp only [multiplicityTable]
        exact mts_eq_prod s.shape (Or.inr hL5)
      have hPDE : (s.shape.drop 3).prod = D * E := by
        rw [hSh]
        simp
      have hPne : (s.shape.drop 3).prod ≠ 0 := by
        intro h0
        rw [gcp_gsl_zero s _ _ (by decide) hmgs
          (by rw [hmts, hmtsP, h0])] at hper3
        cases hper3
      have hperc := gcp_gsl s _ _ mts (by decide) hmgs hmts
        (by rw [hmtsP]; exact hPne)
      rw [hperc] at hper3
      injection hper3 with hper3
      subst hper3
      have hdiv_ns : s.shape.getD sd 0 * (s.shape.drop 3).prod / mts =
          s.shape.getD sd 0 := by
        rw [hmtsP]
        exact Nat.mul_div_cancel _ (Nat.pos_of_ne_zero hPne)
      rw [hdiv_ns] at hicf3
      obtain ⟨lv4, hseq4, hcase4⟩ := is_constant_ok_inv v _ false hicf3
      rw [hseq] at hseq4
      injection hseq4 with hseq4
      subst hseq4
      rcases hcase4 with ⟨hpn, _⟩ | ⟨p4, hp4, h1p4, hdvp4, hbp4⟩
      · cases hpn
      injection hp4 with hp4
      subst hp4
      -- hbp4 : false = blocksConstant ns lv
      have hbnslv : blocksConstant (s.shape.getD sd 0) lv = false :=
        hbp4.symm
      have hdvd : s.shape.getD sd 0 ∣ dmv := by
        rw [htblv]
        exact ⟨_, rfl⟩
      have hble : blocksConstant (s.shape.getD sd 0) (lv.take dmv) =
          false := by
        cases hq : blocksConstant (s.shape.getD sd 0) (lv.take dmv)
        · rfl
        · have := lemE (s.shape.getD sd 0) dmv (by omega) (by omega)
            hdvd lv (by omega) hch hq
          rw [this] at hbnslv
          cases hbnslv
      have hchle : (chunkList (s.shape.getD sd 0) (lv.take dmv)).all
          (fun c => c == (lv.take dmv).take (s.shape.getD sd 0)) =
          false := by
        cases hq : (chunkList (s.shape.getD sd 0) (lv.take dmv)).all
            (fun c => c == (lv.take dmv).take (s.shape.getD sd 0))
        · rfl
        · have := lemR (s.shape.getD sd 0) dmv (by omega) (by omega)
            hdvd lv (by omega) hch hq
          rw [← hmtsl] at this
          rw [this] at hchtf
          cases hchtf
      refine ⟨by omega, ?_, ?_, hble, ?_⟩
      · rw [hlwlen]
        omega
      · rw [hlwlen, htblv]
        exact Nat.mul_mod_right _ _
      · exact hchle

/-- After a vector-slices key is reclassified to time-samples by the
constancy pass of simplify, a second simplify call returns false. -/
theorem leg_ts_from_vsl (s : Store) (k : String) (v sv : PyVal)
    (per : Option Nat) (s₂ s₁ : Store)
    (hpres : ∀ c ∈ validClassesOf s, (s.classDict? c).isSome = true)
    (huniq : ∀ c' ∈ validClassesOf s,
      c' ≠ ((.vector : Base), (.slices : Sub)) → inClass s c' k = false)
    (hvcsS : s.get_valid_classes = .ok (validClassesOf s))
    (h3 : 3 ≤ s.shape.length) (h6 : s.shape.length < 6)
    (hsdlt : ∀ d, s.slice_dim = some d → d < 3)
    (hcur_mem : ((.vector : Base), (.slices : Sub)) ∈ validClassesOf s)
    (hbt : s.baseInContent .time = true)
    (hts_memN : s.baseInContent .time = true →
      ((.time : Base), (.samples : Sub)) ∈ validClassesOf s)
    (hvlen : ∀ m, s.get_multiplicity
      (some ((.vector : Base), (.slices : Sub))) = .ok m → 1 < m →
      pyLen v = some m)
    (hm0 : ¬ s.get_multiplicity
      (some ((.vector : Base), (.slices : Sub))) = .ok 0)
    (hper : get_const_period s ((.vector : Base), (.slices : Sub))
      ((.time : Base), (.samples : Sub)) = .ok per)
    (hict : is_constant v per = .ok true)
    (hsv : pySliceStep v per = .ok sv)
    (hset : s.setItemE ((.time : Base), (.samples : Sub)) k sv = .ok s₂)
    (hdel : s₂.delItemE ((.vector : Base), (.slices : Sub)) k = .ok s₁)
    (hgcf : is_constant v Option.none = .ok false) :
    simplify s₁ k = .ok (false, s₁) := by
  obtain ⟨lv, hseq, hcase⟩ := is_constant_ok_inv v Option.none false hgcf
  have haelv : allEqual lv = false := by
    rcases hcase with ⟨_, hb⟩ | ⟨p, hp, _⟩
    · exact hb.symm
    · cases hp
  have hts_mem := hts_memN hbt
  have hL5 := vsl_vcs_len s h3 h6 hcur_mem
  obtain ⟨A, B, C, D, E, hSh⟩ := len_eq_five s.shape hL5
  rcases hslice : s.slice_dim with _ | sd
  · -- no slice axis: the test period is None, contradicting the failed
    -- global constancy
    have hns : s.n_slicesE = .ok Option.none := by
      rw [Store.n_slicesE]
      simp only [hslice]
    rw [gcp_vsl s _ Option.none (by decide) hns] at hper
    injection hper with hper
    subst hper
    obtain ⟨lv2, hseq2, hcase2⟩ := is_constant_ok_inv v _ true hict
    rw [hseq] at hseq2
    injection hseq2 with hseq2
    subst hseq2
    rcases hcase2 with ⟨_, hb⟩ | ⟨p, hp, _⟩
    · rw [← hb] at haelv
      cases haelv
    · cases hp
  · have hns : s.n_slicesE = .ok (some (s.shape.getD sd 0)) := by
      rw [Store.n_slicesE]
      simp only [hslice,
        get?_getD s.shape sd (by have := hsdlt sd hslice; omega)]
    rw [gcp_vsl s _ (some (s.shape.getD sd 0)) (by decide) hns] at hper
    injection hper with hper
    subst hper
    obtain ⟨lv2, hseq2, hcase2⟩ := is_constant_ok_inv v _ true hict
    rw [hseq] at hseq2
    injection hseq2 with hseq2
    subst hseq2
    rcases hcase2 with ⟨hpn, _⟩ | ⟨p, hp, h1p, hdvp, hbp⟩
    · cases hpn
    injection hp with hp
    subst hp
    have hblocks : blocksConstant (s.shape.getD sd 0) lv = true :=
      hbp.symm
    -- the multiplicity of the source classification
    have hmv := mult_table_of_valid s h3 h6 hsdlt _ hcur_mem
    rw [hslice] at hmv
    simp only [multiplicityTable] at hmv
    have hD : s.shape.getD 3 0 = D := by
      rw [hSh]
      rfl
    have hDne : D ≠ 0 := by
      intro h0
      rw [hD, h0, Nat.mul_zero] at hmv
      exact hm0 hmv
    have hD1 : D ≠ 1 := by
      have hx := ts_vcs_sh3 s hL5 hts_mem
      rw [hD] at hx
      exact hx
    have h1m : 1 < s.shape.getD sd 0 * s.shape.getD 3 0 := by
      have h2a : s.shape.getD sd 0 * 2 ≤
          s.shape.getD sd 0 * s.shape.getD 3 0 := by
        apply Nat.mul_le_mul_left
        rw [hD]
        omega
      omega
    have hlenv := hvlen _ hmv h1m
    rw [pyLen, hseq] at hlenv
    simp only [Option.map] at hlenv
    injection hlenv with hlenv
    -- the stored value
    obtain ⟨w, hw, hwseq, _⟩ := pySliceStep_some_seq v
      (s.shape.getD sd 0) lv hseq (by omega)
    rw [hw] at hsv
    injection hsv with hsv
    subst hsv
    have haew : allEqual (takeEvery (s.shape.getD sd 0) lv) =
        false := by
      cases hq : allEqual (takeEvery (s.shape.getD sd 0) lv)
      · rfl
      · have := lemA (s.shape.getD sd 0) (by omega) lv hblocks hq
        rw [this] at haelv
        cases haelv
    have hlw : (takeEvery (s.shape.getD sd 0) lv).length =
        s.shape.getD 3 0 := by
      rw [takeEvery_length_dvd _ (by omega) lv hdvp, hlenv,
        Nat.mul_div_cancel_left _ (by omega)]
    refine wrapper_ts s k _ w (takeEvery (s.shape.getD sd 0) lv)
      s₂ s₁ (by decide) hset hdel hpres huniq hvcsS h3 h6 hsdlt
      hts_mem hwseq haew ?_
    intro _
    refine ⟨D, ?_, by omega, ?_, ?_⟩
    · rw [hSh]
      rfl
    · rw [hlw, hD]
      exact Nat.mod_self D
    · rw [show blocksConstant D (takeEvery (s.shape.getD sd 0) lv) =
        allEqual (takeEvery (s.shape.getD sd 0) lv) from
          blocksConstant_small D (by omega)
            (takeEvery (s.shape.getD sd 0) lv) (by rw [hlw, hD])]
      exact haew

/-- After any key is reclassified to global-const by the constancy pass
of simplify, a second simplify call returns false. -/
theorem leg_hit_gc (s : Store) (k : String) (curr : Cls) (v sv : PyVal)
    (per : Option Nat) (s₂ s₁ : Store)
    (hpres : ∀ c ∈ validClassesOf s, (s.classDict? c).isSome = true)
    (huniq : ∀ c' ∈ validClassesOf s, c' ≠ curr →
      inClass s c' k = false)
    (hvcsS : s.get_valid_classes = .ok (validClassesOf s))
    (h3 : 3 ≤ s.shape.length) (h6 : s.shape.length < 6)
    (hsdlt : ∀ d, s.slice_dim = some d → d < 3)
    (hgc_mem : ((.glob : Base), (.const : Sub)) ∈ validClassesOf s)
    (hgcq : ¬ curr = ((.glob : Base), (.const : Sub)))
    (hper : get_const_period s curr
      ((.glob : Base), (.const : Sub)) = .ok per)
    (hict : is_constant v per = .ok true)
    (hsv : pySliceStep v per = .ok sv)
    (hset : s.setItemE ((.glob : Base), (.const : Sub)) k sv = .ok s₂)
    (hdel : s₂.delItemE curr k = .ok s₁) :
    simplify s₁ k = .ok (false, s₁) := by
  rw [gcp_to_const s curr] at hper
  injection hper with hper
  subst hper
  obtain ⟨lv, hseq, _⟩ := is_constant_ok_inv v _ true hict
  rw [pySliceStep_none_seq v lv hseq] at hsv
  injection hsv with hsv
  subst hsv
  exact wrapper_gc s k curr v s₂ s₁ (fun hx => hgcq hx.symm) hset hdel
    hpres huniq hvcsS h3 h6 hsdlt hgc_mem (pySeq_ne_none v lv hseq)

/-- After a key is reclassified to vector-samples by the constancy pass
of simplify, a second simplify call returns false. -/
theorem leg_hit_vs (s : Store) (k : String) (curr : Cls) (v sv : PyVal)
    (per : Option Nat) (s₂ s₁ : Store)
    (hpres : ∀ c ∈ validClassesOf s, (s.classDict? c).isSome = true)
    (huniq : ∀ c' ∈ validClassesOf s, c' ≠ curr →
      inClass s c' k = false)
    (hvcsS : s.get_valid_classes = .ok (validClassesOf s))
    (h3 : 3 ≤ s.shape.length) (h6 : s.shape.length < 6)
    (hsdlt : ∀ d, s.slice_dim = some d → d < 3)
    (hvs_mem : ((.vector : Base), (.samples : Sub)) ∈ validClassesOf s)
    (hne : ((.vector : Base), (.samples : Sub)) ≠ curr)
    (hict : is_constant v per = .ok true)
    (hsv : pySliceStep v per = .ok sv)
    (hset : s.setItemE ((.vector : Base), (.samples : Sub)) k sv =
      .ok s₂)
    (hdel : s₂.delItemE curr k = .ok s₁)
    (hgcf : is_constant v Option.none = .ok false) :
    simplify s₁ k = .ok (false, s₁) := by
  obtain ⟨lv, hseq, hcase0⟩ := is_constant_ok_inv v Option.none false hgcf
  have haelv : allEqual lv = false := by
    rcases hcase0 with ⟨_, hb⟩ | ⟨p, hp, _⟩
    · exact hb.symm
    · cases hp
  obtain ⟨lv2, hseq2, hcase⟩ := is_constant_ok_inv v per true hict
  rw [hseq] at hseq2
  injection hseq2 with hseq2
  subst hseq2
  rcases hcase with ⟨hpn, hb⟩ | ⟨p, hp, h1p, hdvp, hbp⟩
  · rw [← hb] at haelv
    cases haelv
  · subst hp
    obtain ⟨w, hw, hwseq, _⟩ := pySliceStep_some_seq v p lv hseq
      (by omega)
    rw [hw] at hsv
    injection hsv with hsv
    subst hsv
    have haew : allEqual (takeEvery p lv) = false := by
      cases hq : allEqual (takeEvery p lv)
      · rfl
      · have := lemA p (by omega) lv hbp.symm hq
        rw [this] at haelv
        cases haelv
    exact wrapper_simple s k curr ((.vector : Base), (.samples : Sub))
      w (takeEvery p lv) s₂ s₁ rfl rfl (by decide) hne hset hdel hpres
      huniq hvcsS h3 h6 hsdlt hvs_mem hwseq haew

/-- After a key is reclassified to time-slices by the repetition pass
of simplify, a second simplify call returns false. -/
theorem leg_hit_tsl (s : Store) (k : String) (curr : Cls) (v tv : PyVal)
    (dmt : Nat) (s₂ s₁ : Store)
    (hpres : ∀ c ∈ validClassesOf s, (s.classDict? c).isSome = true)
    (huniq : ∀ c' ∈ validClassesOf s, c' ≠ curr →
      inClass s c' k = false)
    (hvcsS : s.get_valid_classes = .ok (validClassesOf s))
    (h3 : 3 ≤ s.shape.length) (h6 : s.shape.length < 6)
    (hsdlt : ∀ d, s.slice_dim = some d → d < 3)
    (hne : ((.time : Base), (.slices : Sub)) ≠ curr)
    (hmdt : s.get_multiplicity
      (some ((.time : Base), (.slices : Sub))) = .ok dmt)
    (hirt : is_repeating v dmt = .ok true)
    (htv : pyTake v dmt = .ok tv)
    (hset : s.setItemE ((.time : Base), (.slices : Sub)) k tv = .ok s₂)
    (hdel : s₂.delItemE curr k = .ok s₁)
    (hgcf : is_constant v Option.none = .ok false) :
    simplify s₁ k = .ok (false, s₁) := by
  obtain ⟨lv, hseq, hcase0⟩ := is_constant_ok_inv v Option.none false hgcf
  have haelv : allEqual lv = false := by
    rcases hcase0 with ⟨_, hb⟩ | ⟨p, hp, _⟩
    · exact hb.symm
    · cases hp
  by_cases htsl_mem : ((.time : Base), (.slices : Sub)) ∈
      validClassesOf s
  swap
  · rw [mult_invalid s h3 h6 _ htsl_mem] at hmdt
    cases hmdt
  obtain ⟨lv2, hseq2, h1dmt, hltdmt, hmodt, hcht⟩ :=
    is_repeating_ok_inv v dmt true hirt
  rw [hseq] at hseq2
  injection hseq2 with hseq2
  subst hseq2
  obtain ⟨w, hwt, hwseq, _⟩ := pyTake_seq v dmt lv hseq
  rw [hwt] at htv
  injection htv with htv
  subst htv
  have haew : allEqual (lv.take dmt) = false := by
    cases hq : allEqual (lv.take dmt)
    · rfl
    · have := lemC dmt (by omega) lv hcht.symm hq
      rw [this] at haelv
      cases haelv
  exact wrapper_simple s k curr ((.time : Base), (.slices : Sub)) w
    (lv.take dmt) s₂ s₁ rfl rfl (by decide) hne hset hdel hpres huniq
    hvcsS h3 h6 hsdlt htsl_mem hwseq haew

/-- C9 (amended): for a store passing check_valid, with sized values,
no stray groups, simplify is idempotent only on the reclassification
path.  If a first _simplify call on a key returns True, then: when the
key was a None-valued global-const entry (the deletion path), an
immediately following _simplify call on the same key raises ValueError
instead of returning False; otherwise (the reclassification path) the
second call returns (False, unchanged store) as the specification
claims. -/
theorem C9_second_simplify (s : Store) (k : String)
    (hv : Store.check_valid s = .ok ()) (hsz : ValsSized s)
    (hns : NoStray s) (s₁ : Store)
    (h : simplify s k = .ok (true, s₁)) :
    (dictGet? s.gConst k = some PyVal.none →
       simplify s₁ k = .error (.valueError "Invalid classification")) ∧
    (¬ dictGet? s.gConst k = some PyVal.none →
       simplify s₁ k = .ok (false, s₁)) := by
  obtain ⟨haff, hsdlt, h3, h6⟩ := check_valid_structural s hv
  obtain ⟨hcc, huo⟩ := check_valid_parts s hv
  have hpres := check_valid_presence s hv
  have hvcsS := gvc_ok s h3 h6
  rcases hgv : s.get_values_and_class k with e | vc
  · rw [show simplify s k = .error e by
      simp [simplify, hgv, Bind.bind, Except.bind]] at h
    cases h
  obtain ⟨v, curr?⟩ := vc
  rcases gvac_inv s k _ hgv with ⟨hvc, hgcN⟩ |
    ⟨curr, dcur, hvc2, hgcS, hdcur, hwv⟩
  · have hmN : s.get_multiplicity Option.none =
        .error (.valueError "Invalid classification") := by
      rw [Store.get_multiplicity, hvcsS]
      simp [Bind.bind, Except.bind]
    injection hvc with hv1 hv2
    subst hv1
    subst hv2
    rw [show simplify s k =
        .error (.valueError "Invalid classification") by
      simp [simplify, hgv, hmN, Bind.bind, Except.bind]] at h
    cases h
  · simp only at hvc2
    subst hvc2
    simp only at hwv
    have hgo := get_classification_inv s k _ hvcsS _ hgcS
    rcases get_classification_go_inv s k _ _ hgo with ⟨hne0, _⟩ |
      ⟨c0, hc0eq, hc0mem, hc0in⟩
    · cases hne0
    injection hc0eq with hc0eq
    subst hc0eq
    have huoI := (checkUniqOuter_ok_iff s (validClassesOf s) hpres
      (validClassesOf s) hpres).mp huo
    have huniq : ∀ c' ∈ validClassesOf s, c' ≠ curr →
        inClass s c' k = false := by
      intro c' hc' hnec
      obtain ⟨dc', hdc'⟩ := Option.isSome_iff_exists.mp (hpres c' hc')
      have hanyF := huoI curr hc0mem dcur hdcur c' hc' hnec dc' hdc'
      have hkmem : k ∈ dictKeys dcur :=
        (dictContains_mem dcur k).mp (dictContains_of_get dcur k v hwv)
      have hcf : dictContains dc' k = false := by
        cases hq : dictContains dc' k
        · rfl
        · have hx : (dictKeys dcur).any
              (fun kk => dictContains dc' kk) = true :=
            List.any_eq_true.mpr ⟨k, hkmem, hq⟩
          rw [hanyF] at hx
          cases hx
      simp [inClass, hdc', hcf]
    have hmc := mult_table_of_valid s h3 h6 hsdlt curr hc0mem
    have hccI := (checkClasses_ok_iff s h3 h6 hsdlt hsz
      (validClassesOf s) (fun c hc => hc)).mp hcc
    have hkv_mem : (k, v) ∈ dcur := dictGet_mem_pair dcur k v hwv
    have hvlen : ∀ m, s.get_multiplicity (some curr) = .ok m →
        1 < m → pyLen v = some m := by
      intro m hm h1m
      exact (((hccI curr hc0mem).2 dcur hdcur).2 m hm h1m) (k, v)
        hkv_mem
    have hm0 : ¬ s.get_multiplicity (some curr) = .ok 0 := by
      intro hm0'
      have hde := ((hccI curr hc0mem).2 dcur hdcur).1 hm0'
      rw [hde] at hkv_mem
      simp at hkv_mem
    have hts_memN : s.baseInContent .time = true →
        ((.time : Base), (.samples : Sub)) ∈ validClassesOf s :=
      fun hb => hns.1 hb
    have hvs_memN : s.baseInContent .vector = true →
        ((.vector : Base), (.samples : Sub)) ∈ validClassesOf s :=
      fun hb => hns.2 hb
    by_cases hgcq : curr = ((.glob : Base), (.const : Sub))
    · subst hgcq
      have hdceq : dcur = s.gConst := by
        have hx : s.classDict? ((.glob : Base), (.const : Sub)) =
            some s.gConst := rfl
        rw [hx] at hdcur
        injection hdcur with h'
        exact h'.symm
      subst hdceq
      exact leg_gc s k v s₁ hpres huniq hvcsS h3 h6 hsdlt hc0mem hgv
        hwv h
    · have hgc_mem : ((.glob : Base), (.const : Sub)) ∈
          validClassesOf s := by
        rcases validClassesOf_cases s with hcs | hcs | hcs | hcs | hcs
        · rw [hcs] at hc0mem
          simp at hc0mem
        all_goals rw [hcs]
        all_goals simp [classifications, fourClassList]
      have hnogc : dictGet? s.gConst k = Option.none := by
        have hfe : inClass s ((.glob : Base), (.const : Sub)) k =
            false := huniq _ hgc_mem (fun hx => hgcq hx.symm)
        simp only [inClass, Store.classDict?] at hfe
        rw [dictContains_eq_isSome] at hfe
        cases hopt : dictGet? s.gConst k
        · rfl
        · rw [hopt] at hfe
          cases hfe
      constructor
      · intro hcontra
        rw [hnogc] at hcontra
        cases hcontra
      · intro _
        have hsix := validClassesOf_sub s curr hc0mem
        simp [classifications] at hsix
        rcases hloopC : simplifyConstLoop s k curr v (const_tests curr)
            with e | rC
        · rw [show simplify s k = .error e by
            simp [simplify, hgv, hmc, hgcq, hloopC, Bind.bind,
              Except.bind]] at h
          cases h
        rcases rC with _ | s₂
        · rcases hrt : repeat_tests? curr with _ | rl
          · rw [show simplify s k = .ok (false, s) by
              simp [simplify, hgv, hmc, hgcq, hloopC, hrt, Bind.bind,
                Except.bind]] at h
            injection h with h2
            injection h2 with h2a _
            cases h2a
          rcases hloopR : simplifyRepeatLoop s k v rl with e | rR
          · rw [show simplify s k = .error e by
              simp [simplify, hgv, hmc, hgcq, hloopC, hrt, hloopR,
                Bind.bind, Except.bind]] at h
            cases h
          rcases rR with _ | s₂
          · rw [show simplify s k = .ok (false, s) by
              simp [simplify, hgv, hmc, hgcq, hloopC, hrt, hloopR,
                Bind.bind, Except.bind]] at h
            injection h with h2
            injection h2 with h2a _
            cases h2a
          rcases hdel : s₂.delItemE curr k with e | s₁'
          · rw [show simplify s k = .error e by
              simp [simplify, hgv, hmc, hgcq, hloopC, hrt, hloopR,
                hdel, Bind.bind, Except.bind]] at h
            cases h
          rw [show simplify s k = .ok (true, s₁') by
            simp [simplify, hgv, hmc, hgcq, hloopC, hrt, hloopR, hdel,
              Bind.bind, Except.bind]] at h
          injection h with h2
          injection h2 with _ h2b
          rw [h2b] at hdel
          have hCN := simplifyConstLoop_none_inv s k curr v _ hloopC
          obtain ⟨pre, dest, post, hsplit, hpre, hbase, dmv, tv, hmdv,
            hirt, htv, hset⟩ :=
            simplifyRepeatLoop_some_inv s k v _ _ hloopR
          rcases hsix with rfl | rfl | rfl | rfl | rfl | rfl
          · exact absurd rfl hgcq
          · -- current class global-slices: repeat candidates
            rw [show repeat_tests? ((.glob : Base), (.slices : Sub)) =
              some [((.time : Base), (.slices : Sub)),
                ((.vector : Base), (.slices : Sub))] from rfl] at hrt
            injection hrt with hrt
            subst hrt
            have hgcf : is_constant v Option.none = .ok false := by
              rcases hCN ((.glob : Base), (.const : Sub)) (by decide)
                with hb | ⟨per0, hper0, hicf0⟩
              · cases hb
              · rw [gcp_to_const] at hper0
                injection hper0 with hper0
                subst hper0
                exact hicf0
            rcases pre with _ | ⟨q1, pre⟩
            · simp only [List.nil_append] at hsplit
              injection hsplit with hd1 hd2
              subst hd1
              subst hd2
              exact leg_hit_tsl s k _ v tv dmv s₂ s₁ hpres huniq hvcsS
                h3 h6 hsdlt (by decide) hmdv hirt htv hset hdel hgcf
            rcases pre with _ | ⟨q2, pre⟩
            · simp only [List.cons_append, List.nil_append] at hsplit
              injection hsplit with hq1 hsplit
              injection hsplit with hd1 hd2
              subst hq1
              subst hd1
              subst hd2
              have htslf := hpre ((.time : Base), (.slices : Sub))
                (by simp)
              have htsf := hCN ((.time : Base), (.samples : Sub))
                (by decide)
              exact leg_vsl_from_gsl s k v tv dmv s₂ s₁ hpres huniq
                hvcsS h3 h6 hsdlt hc0mem hts_memN hmdv hirt htv hset
                hdel hgcf htsf htslf
            · simp only [List.cons_append] at hsplit
              injection hsplit with _ hsplit
              injection hsplit with _ hsplit
              rcases pre with _ | ⟨q3, pre⟩
              · cases hsplit
              · cases hsplit
          · rw [show repeat_tests? ((.time : Base), (.samples : Sub)) =
              Option.none from rfl] at hrt
            cases hrt
          · rw [show repeat_tests? ((.time : Base), (.slices : Sub)) =
              Option.none from rfl] at hrt
            cases hrt
          · rw [show repeat_tests?
              ((.vector : Base), (.samples : Sub)) =
              Option.none from rfl] at hrt
            cases hrt
          · -- current class vector-slices: single repeat candidate
            rw [show repeat_tests? ((.vector : Base), (.slices : Sub)) =
              some [((.time : Base), (.slices : Sub))] from rfl] at hrt
            injection hrt with hrt
            subst hrt
            have hgcf : is_constant v Option.none = .ok false := by
              rcases hCN ((.glob : Base), (.const : Sub)) (by decide)
                with hb | ⟨per0, hper0, hicf0⟩
              · cases hb
              · rw [gcp_to_const] at hper0
                injection hper0 with hper0
                subst hper0
                exact hicf0
            rcases pre with _ | ⟨q1, pre⟩
            · simp only [List.nil_append] at hsplit
              injection hsplit with hd1 hd2
              subst hd1
              subst hd2
              exact leg_hit_tsl s k _ v tv dmv s₂ s₁ hpres huniq hvcsS
                h3 h6 hsdlt (by decide) hmdv hirt htv hset hdel hgcf
            · simp only [List.cons_append] at hsplit
              injection hsplit with _ hsplit
              rcases pre with _ | ⟨q2, pre⟩
              · cases hsplit
              · cases hsplit
        · rcases hdel : s₂.delItemE curr k with e | s₁'
          · rw [show simplify s k = .error e by
              simp [simplify, hgv, hmc, hgcq, hloopC, hdel, Bind.bind,
                Except.bind]] at h
            cases h
          rw [show simplify s k = .ok (true, s₁') by
            simp [simplify, hgv, hmc, hgcq, hloopC, hdel, Bind.bind,
              Except.bind]] at h
          injection h with h2
          injection h2 with _ h2b
          rw [h2b] at hdel
          obtain ⟨pre, dest, post, hsplit, hpre, hbase, per, sv, hper,
            hict, hsv, hset⟩ :=
            simplifyConstLoop_some_inv s k curr v _ _ hloopC
          rcases hsix with rfl | rfl | rfl | rfl | rfl | rfl
          · exact absurd rfl hgcq
          · -- current class global-slices: candidates gc, vs, ts
            rw [show const_tests ((.glob : Base), (.slices : Sub)) =
              [((.glob : Base), (.const : Sub)),
               ((.vector : Base), (.samples : Sub)),
               ((.time : Base), (.samples : Sub))] from rfl] at hsplit
            rcases pre with _ | ⟨q1, pre⟩
            · simp only [List.nil_append] at hsplit
              injection hsplit with hd1 hd2
              subst hd1
              subst hd2
              exact leg_hit_gc s k _ v sv per s₂ s₁ hpres huniq hvcsS
                h3 h6 hsdlt hgc_mem hgcq hper hict hsv hset hdel
            rcases pre with _ | ⟨q2, pre⟩
            · simp only [List.cons_append, List.nil_append] at hsplit
              injection hsplit with hq1 hsplit
              injection hsplit with hd1 hd2
              subst hq1
              subst hd1
              subst hd2
              have hgcf : is_constant v Option.none = .ok false := by
                rcases hpre ((.glob : Base), (.const : Sub)) (by simp)
                  with hb | ⟨per0, hper0, hicf0⟩
                · cases hb
                · rw [gcp_to_const] at hper0
                  injection hper0 with hper0
                  subst hper0
                  exact hicf0
              exact leg_hit_vs s k _ v sv per s₂ s₁ hpres huniq hvcsS
                h3 h6 hsdlt (hvs_memN hbase) (by decide) hict hsv hset
                hdel hgcf
            rcases pre with _ | ⟨q3, pre⟩
            · simp only [List.cons_append, List.nil_append] at hsplit
              injection hsplit with hq1 hsplit
              injection hsplit with hq2 hsplit
              injection hsplit with hd1 hd2
              subst hq1
              subst hq2
              subst hd1
              subst hd2
              have hgcf : is_constant v Option.none = .ok false := by
                rcases hpre ((.glob : Base), (.const : Sub)) (by simp)
                  with hb | ⟨per0, hper0, hicf0⟩
                · cases hb
                · rw [gcp_to_const] at hper0
                  injection hper0 with hper0
                  subst hper0
                  exact hicf0
              have hvsf := hpre ((.vector : Base), (.samples : Sub))
                (by simp)
              exact leg_ts_from_gsl s k v sv per s₂ s₁ hpres huniq
                hvcsS h3 h6 hsdlt hc0mem hvlen hm0 hper hict hsv hset
                hdel hgcf hvsf
            · simp only [List.cons_append] at hsplit
              injection hsplit with _ hsplit
              injection hsplit with _ hsplit
              injection hsplit with _ hsplit
              rcases pre with _ | ⟨q4, pre⟩
              · cases hsplit
              · cases hsplit
          · -- current class time-samples: candidates gc, vs
            rw [show const_tests ((.time : Base), (.samples : Sub)) =
              [((.glob : Base), (.const : Sub)),
               ((.vector : Base), (.samples : Sub))] from rfl] at hsplit
            rcases pre with _ | ⟨q1, pre⟩
            · simp only [List.nil_append] at hsplit
              injection hsplit with hd1 hd2
              subst hd1
              subst hd2
              exact leg_hit_gc s k _ v sv per s₂ s₁ hpres huniq hvcsS
                h3 h6 hsdlt hgc_mem hgcq hper hict hsv hset hdel
            rcases pre with _ | ⟨q2, pre⟩
            · simp only [List.cons_append, List.nil_append] at hsplit
              injection hsplit with hq1 hsplit
              injection hsplit with hd1 hd2
              subst hq1
              subst hd1
              subst hd2
              have hgcf : is_constant v Option.none = .ok false := by
                rcases hpre ((.glob : Base), (.const : Sub)) (by simp)
                  with hb | ⟨per0, hper0, hicf0⟩
                · cases hb
                · rw [gcp_to_const] at hper0
                  injection hper0 with hper0
                  subst hper0
                  exact hicf0
              exact leg_hit_vs s k _ v sv per s₂ s₁ hpres huniq hvcsS
                h3 h6 hsdlt (hvs_memN hbase) (by decide) hict hsv hset
                hdel hgcf
            · simp only [List.cons_append] at hsplit
              injection hsplit with _ hsplit
              injection hsplit with _ hsplit
              rcases pre with _ | ⟨q3, pre⟩
              · cases hsplit
              · cases hsplit
          · -- current class time-slices: single candidate gc
            rw [show const_tests ((.time : Base), (.slices : Sub)) =
              [((.glob : Base), (.const : Sub))] from rfl] at hsplit
            rcases pre with _ | ⟨q1, pre⟩
            · simp only [List.nil_append] at hsplit
              injection hsplit with hd1 hd2
              subst hd1
              subst hd2
              exact leg_hit_gc s k _ v sv per s₂ s₁ hpres huniq hvcsS
                h3 h6 hsdlt hgc_mem hgcq hper hict hsv hset hdel
            · simp only [List.cons_append] at hsplit
              injection hsplit with _ hsplit
              rcases pre with _ | ⟨q2, pre⟩
              · cases hsplit
              · cases hsplit
          · -- current class vector-samples: single candidate gc
            rw [show const_tests ((.vector : Base), (.samples : Sub)) =
              [((.glob : Base), (.const : Sub))] from rfl] at hsplit
            rcases pre with _ | ⟨q1, pre⟩
            · simp only [List.nil_append] at hsplit
              injection hsplit with hd1 hd2
              subst hd1
              subst hd2
              exact leg_hit_gc s k _ v sv per s₂ s₁ hpres huniq hvcsS
                h3 h6 hsdlt hgc_mem hgcq hper hict hsv hset hdel
            · simp only [List.cons_append] at hsplit
              injection hsplit with _ hsplit
              rcases pre with _ | ⟨q2, pre⟩
              · cases hsplit
              · cases hsplit
          · -- current class vector-slices: candidates gc, ts
            rw [show const_tests ((.vector : Base), (.slices : Sub)) =
              [((.glob : Base), (.const : Sub)),
               ((.time : Base), (.samples : Sub))] from rfl] at hsplit
            rcases pre with _ | ⟨q1, pre⟩
            · simp only [List.nil_append] at hsplit
              injection hsplit with hd1 hd2
              subst hd1
              subst hd2
              exact leg_hit_gc s k _ v sv per s₂ s₁ hpres huniq hvcsS
                h3 h6 hsdlt hgc_mem hgcq hper hict hsv hset hdel
            rcases pre with _ | ⟨q2, pre⟩
            · simp only [List.cons_append, List.nil_append] at hsplit
              injection hsplit with hq1 hsplit
              injection hsplit with hd1 hd2
              subst hq1
              subst hd1
              subst hd2
              have hgcf : is_constant v Option.none = .ok false := by
                rcases hpre ((.glob : Base), (.const : Sub)) (by simp)
                  with hb | ⟨per0, hper0, hicf0⟩
                · cases hb
                · rw [gcp_to_const] at hper0
                  injection hper0 with hper0
                  subst hper0
                  exact hicf0
              exact leg_ts_from_vsl s k v sv per s₂ s₁ hpres huniq
                hvcsS h3 h6 hsdlt hc0mem hbase hts_memN hvlen hm0 hper
                hict hsv hset hdel hgcf
            · simp only [List.cons_append] at hsplit
              injection hsplit with _ hsplit
              injection hsplit with _ hsplit
              rcases pre with _ | ⟨q3, pre⟩
              · cases hsplit
              · cases hsplit

/-- C9, counterexample: simplify on a None-valued global-const key
returns True (deleting the key), and an immediately following simplify
call on the same key raises ValueError instead of returning False with
the store unchanged, refuting unconditional idempotence. -/
theorem C9_counterexample :
    simplify noneConstStore "k" = .ok (true, noneConstSimplified) ∧
    simplify noneConstSimplified "k" =
      .error (.valueError "Invalid classification") := ⟨rfl, rfl⟩

/-- C9, witness: the amended theorem applied to the concrete
None-valued global-const store, discharging every hypothesis. -/
theorem C9_witness :
    Store.check_valid noneConstStore = .ok () ∧
    simplify noneConstStore "k" = .ok (true, noneConstSimplified) ∧
    simplify noneConstSimplified "k" =
      .error (.valueError "Invalid classification") := by
  refine ⟨rfl, rfl, ?_⟩
  have hsz : ValsSized noneConstStore := by
    intro c hc d m hcd hm h1m kv hkv
    have hc2 : c = ((Base.glob), (Sub.const)) ∨
        c = ((Base.glob), (Sub.slices)) := by
      have hc3 : c ∈ [((Base.glob : Base), (Sub.const : Sub)),
          ((Base.glob : Base), (Sub.slices : Sub))] := hc
      simpa using hc3
    rcases hc2 with rfl | rfl
    · rw [show noneConstStore.get_multiplicity
          (some ((Base.glob), (Sub.const))) = .ok 1 from rfl] at hm
      injection hm with hm
      omega
    · rw [show noneConstStore.get_multiplicity
          (some ((Base.glob), (Sub.slices))) = .ok 1 from rfl] at hm
      injection hm with hm
      omega
  have hns : NoStray noneConstStore := by
    constructor
    · intro hb
      cases hb
    · intro hb
      cases hb
  exact (C9_second_simplify noneConstStore "k" rfl hsz hns
    noneConstSimplified rfl).1 rfl

/-- Witness: C5 applied to the empty three-dimensional store. -/
theorem C5_witness :
    (Store.check_valid emptyThreeStore = .ok () ↔
      ¬(CondMissingGroup emptyThreeStore ∨ CondBadLen emptyThreeStore ∨
        CondSliceNonempty emptyThreeStore ∨
        CondMultiClass emptyThreeStore)) ∧
    (∀ e, Store.check_valid emptyThreeStore = .error e →
      ∃ msg, e = .invalidExt msg) :=
  C5_check_valid emptyThreeStore (by decide)
    (by intro d h; simp only [emptyThreeStore] at h; injection h with h; omega)
    (by decide) (by decide)
    (by
      intro c hc d m hd hm h1 kv hkv
      rcases c with ⟨b, sub⟩
      rcases b <;> rcases sub <;>
        simp [Store.classDict?, emptyThreeStore] at hd <;>
        (subst hd; simp at hkv))

end DcmMeta
